import Mathlib

/-!
# Verification of the `goleveldb` journal and bloom-filter core

This file gives a shallow embedding of the two source files of the
repository under scrutiny:

* `leveldb/filter/bloom.go` — the builtin bloom filter and its generator;
* `leveldb/journal/journal.go` — the write-ahead-log framing protocol
  (journal `Writer`/`Reader` with 32 KiB blocks and 7-byte chunk headers).

Bytes are modelled as `Nat` (values below 256 in real executions; where it
matters the code itself reduces modulo 256 or modulo 2^32, and the embedding
performs the same explicit reductions).  Machine `uint32` arithmetic is
modelled as `Nat` arithmetic with explicit `% 2^32`.  Fallible operations
(Go run-time panics, e.g. division by zero) are modelled with `Option`.

Two external collaborators are not part of the repository's two source
files and are therefore treated as opaque, exactly as the specification
describes them:

* the 32-bit key hash used by the bloom filter (`util.Hash` with a fixed
  seed) is an arbitrary function `hash : List Nat → Nat`;
* the journal checksum (`util.NewCRC(...).Value()`) is an arbitrary
  function `crc : List Nat → Nat`, reduced modulo `2^32` wherever the Go
  code holds a `uint32`.

All theorems quantify over those functions, so every result holds for the
real implementations in particular.
-/

namespace GoLevelDB

/-- `2^32`, the modulus of Go `uint32` arithmetic. -/
def U32 : Nat := 4294967296

namespace Bloom

/-- `delta := (kh >> 17) | (kh << 15)` on `uint32`
(from `bloomFilter.Contains` and `bloomFilterGenerator.Generate`). -/
def bloomDelta (kh : Nat) : Nat := (kh >>> 17) ||| ((kh <<< 15) % U32)

/-- `k := uint8(f * 69 / 100)` then clamped to `[1, 30]`
(from `bloomFilter.NewGenerator`).  Go's conversion to `uint8` keeps the
low 8 bits, hence the `% 256`. -/
def clampK (f : Nat) : Nat :=
  if f * 69 / 100 % 256 < 1 then 1
  else if f * 69 / 100 % 256 > 30 then 30
  else f * 69 / 100 % 256

/-- The state of `bloomFilterGenerator`: `n` is the bits-per-key ratio,
`k` the probe count, `keyHashes` the accumulated key hashes. -/
structure BloomGen where
  n : Nat
  k : Nat
  keyHashes : List Nat
  deriving DecidableEq, Repr

/-- `bloomFilter.NewGenerator`. -/
def newGenerator (f : Nat) : BloomGen := ⟨f, clampK f, []⟩

/-- `bloomFilterGenerator.Add`: hash the key and append the hash.  The
hash function itself (`util.Hash` with seed `0xbc9f1d34`) lives outside
the two repository source files and is passed in as a parameter. -/
def gAdd (hash : List Nat → Nat) (g : BloomGen) (key : List Nat) : BloomGen :=
  { g with keyHashes := g.keyHashes ++ [hash key] }

/-- Adding a list of keys in order. -/
def addAll (hash : List Nat → Nat) (g : BloomGen) (keys : List (List Nat)) : BloomGen :=
  keys.foldl (gAdd hash) g

/-- `dest[bitpos/8] |= (1 << (bitpos % 8))` (from `Generate`). -/
def setBit (dest : List Nat) (bitpos : Nat) : List Nat :=
  dest.set (bitpos / 8) ((dest.getD (bitpos / 8) 0) ||| (1 <<< (bitpos % 8)))

/-- The inner probe loop of `Generate` for one key hash: `k` probes,
`kh` advanced by `delta` modulo `2^32` after each probe.  `kh % nBits`
with `nBits = 0` is a Go run-time panic, modelled as `none`. -/
def probeSet (nBits delta : Nat) : Nat → Nat → List Nat → Option (List Nat)
  | 0, _, dest => some dest
  | j + 1, kh, dest =>
    if nBits = 0 then none
    else probeSet nBits delta j ((kh + delta) % U32) (setBit dest (kh % nBits))

/-- The outer loop of `Generate` over all accumulated key hashes. -/
def genLoop (nBits k : Nat) : List Nat → List Nat → Option (List Nat)
  | [], dest => some dest
  | kh :: rest, dest => (probeSet nBits (bloomDelta kh) k kh dest).bind (genLoop nBits k rest)

/-- `nBits := uint32(len(keyHashes) * n)`, clamped below by 64
(from `Generate`; the multiplication is truncated to `uint32`). -/
def genNBits1 (g : BloomGen) : Nat :=
  if g.keyHashes.length * g.n % U32 < 64 then 64 else g.keyHashes.length * g.n % U32

/-- `nBytes := (nBits + 7) / 8` on `uint32` (from `Generate`). -/
def genNBytes (g : BloomGen) : Nat := (genNBits1 g + 7) % U32 / 8

/-- `nBits = nBytes * 8` on `uint32` (from `Generate`). -/
def genNBits (g : BloomGen) : Nat := genNBytes g * 8 % U32

/-- The freshly allocated output bytes with the trailer byte set to `k`
(`dest := b.Alloc(nBytes + 1); dest[nBytes] = g.k`).  The allocator is
the opaque buffer collaborator; per the specification it hands back a
mutable view of `n` fresh bytes, modelled as zeroes. -/
def genDest0 (g : BloomGen) : List Nat :=
  (List.replicate (genNBytes g + 1) 0).set (genNBytes g) g.k

/-- `bloomFilterGenerator.Generate`: sets all probe bits of every
accumulated key hash in the allocated byte array and clears the
accumulated hashes.  Returns the serialized filter bytes together with
the drained generator. -/
def gGenerate (g : BloomGen) : Option (List Nat × BloomGen) :=
  (genLoop (genNBits g) g.k g.keyHashes (genDest0 g)).map
    fun d => (d, { g with keyHashes := [] })

/-- The probe loop of `bloomFilter.Contains`: any unset probed bit gives
`false`; surviving all `k` probes gives `true`. -/
def containsLoop (nBits delta : Nat) : Nat → Nat → List Nat → Option Bool
  | 0, _, _ => some true
  | j + 1, kh, flt =>
    if nBits = 0 then none
    else if (flt.getD (kh % nBits / 8) 0) &&& (1 <<< (kh % nBits % 8)) = 0 then some false
    else containsLoop nBits delta j ((kh + delta) % U32) flt

/-- `bloomFilter.Contains`, taking the already-computed key hash.
`nBytes := len(filter) - 1`; fewer than two bytes reports absent; the
trailer byte is read back as `k`; `k > 30` is an unconditional match. -/
def contains (flt : List Nat) (kh : Nat) : Option Bool :=
  if flt.length < 2 then some false
  else if flt.getD (flt.length - 1) 0 > 30 then some true
  else containsLoop ((flt.length - 1) * 8 % U32) (bloomDelta kh)
    (flt.getD (flt.length - 1) 0) kh flt

/-- `Contains` on a key: hash it the same way `Add` does. -/
def containsKey (hash : List Nat → Nat) (flt : List Nat) (key : List Nat) : Option Bool :=
  contains flt (hash key)

/-- The probe-count formula the specification states for `new_generator`:
nearest integer to `bits_per_key * ln 2`, clamped to `[1, 30]`.  This is
the specification's wording, kept separate from the code-derived
`clampK` so that the two can be compared. -/
noncomputable def specClampRound (b : Nat) : ℤ :=
  max 1 (min 30 (round ((b : ℝ) * Real.log 2)))

/-- The serialized-length formula the specification states for
`generate()`: `ceil(max(64, n*b)/8) + 1` bytes for `n` keys and
`bits_per_key = b`.  Specification's wording, for comparison. -/
def specFilterLen (n b : Nat) : Nat := (max 64 (n * b) + 7) / 8 + 1

section BloomLemmas

lemma getD_set_self (l : List Nat) (m a : Nat) (h : m < l.length) :
    (l.set m a).getD m 0 = a := by
  simp [List.getD, List.getElem?_set_self, h]

lemma getD_set_ne (l : List Nat) {m i : Nat} (a : Nat) (h : m ≠ i) :
    (l.set m a).getD i 0 = l.getD i 0 := by
  simp [List.getD, List.getElem?_set_ne h]

/-- Bitwise inclusion of byte lists: every set bit of `d` is set in `e`. -/
def BitsLE (d e : List Nat) : Prop :=
  ∀ i b, (d.getD i 0).testBit b = true → (e.getD i 0).testBit b = true

lemma bitsLE_refl (d : List Nat) : BitsLE d d := fun _ _ h => h

lemma bitsLE_trans {d e f : List Nat} (h1 : BitsLE d e) (h2 : BitsLE e f) :
    BitsLE d f := fun i b h => h2 i b (h1 i b h)

lemma setBit_length (d : List Nat) (p : Nat) : (setBit d p).length = d.length := by
  simp [setBit]

lemma setBit_bitsLE (d : List Nat) (p : Nat) : BitsLE d (setBit d p) := by
  intro i b h
  unfold setBit
  by_cases hi : p / 8 = i
  · subst hi
    by_cases hlen : p / 8 < d.length
    · rw [getD_set_self _ _ _ hlen, Nat.testBit_or, h]
      rfl
    · rw [List.set_eq_of_length_le (Nat.le_of_not_lt hlen)]
      exact h
  · rw [getD_set_ne _ _ hi]
    exact h

lemma setBit_sets (d : List Nat) (p : Nat) (h : p / 8 < d.length) :
    ((setBit d p).getD (p / 8) 0).testBit (p % 8) = true := by
  unfold setBit
  rw [getD_set_self _ _ _ h]
  simp [Nat.testBit_or, Nat.one_shiftLeft, Nat.testBit_two_pow_self]

lemma setBit_getD_ne (d : List Nat) {p m : Nat} (h : p / 8 ≠ m) :
    (setBit d p).getD m 0 = d.getD m 0 := getD_set_ne _ _ h

lemma probeSet_some {nBits delta : Nat} (hn : nBits ≠ 0) :
    ∀ (k kh : Nat) (d : List Nat), ∃ e, probeSet nBits delta k kh d = some e := by
  intro k
  induction k with
  | zero => intro kh d; exact ⟨d, rfl⟩
  | succ k ih =>
    intro kh d
    simpa [probeSet, hn] using ih ((kh + delta) % U32) (setBit d (kh % nBits))

lemma probeSet_length {nBits delta : Nat} :
    ∀ {k kh : Nat} {d e : List Nat}, probeSet nBits delta k kh d = some e →
      e.length = d.length := by
  intro k
  induction k with
  | zero => intro kh d e h; cases h; rfl
  | succ k ih =>
    intro kh d e h
    by_cases hn : nBits = 0
    · simp [probeSet, hn] at h
    · rw [probeSet, if_neg hn] at h
      rw [ih h, setBit_length]

lemma probeSet_bitsLE {nBits delta : Nat} :
    ∀ {k kh : Nat} {d e : List Nat}, probeSet nBits delta k kh d = some e →
      BitsLE d e := by
  intro k
  induction k with
  | zero => intro kh d e h; cases h; exact bitsLE_refl _
  | succ k ih =>
    intro kh d e h
    by_cases hn : nBits = 0
    · simp [probeSet, hn] at h
    · rw [probeSet, if_neg hn] at h
      exact bitsLE_trans (setBit_bitsLE _ _) (ih h)

lemma probeSet_getD_hi {nBits delta m : Nat} (hm : nBits ≤ 8 * m) :
    ∀ {k kh : Nat} {d e : List Nat}, probeSet nBits delta k kh d = some e →
      e.getD m 0 = d.getD m 0 := by
  intro k
  induction k with
  | zero => intro kh d e h; cases h; rfl
  | succ k ih =>
    intro kh d e h
    by_cases hn : nBits = 0
    · simp [probeSet, hn] at h
    · rw [probeSet, if_neg hn] at h
      have hlt : kh % nBits < nBits := Nat.mod_lt _ (Nat.pos_of_ne_zero hn)
      have : kh % nBits / 8 ≠ m := by omega
      rw [ih h, setBit_getD_ne _ this]

lemma and_shift_ne_zero {x m : Nat} (h : x.testBit m = true) :
    x &&& (1 <<< m) ≠ 0 := by
  rw [Nat.one_shiftLeft, Nat.and_two_pow, h]
  simp

/-- Every probe made by `probeSet` is answered positively by
`containsLoop` on any filter that includes the resulting bits. -/
lemma probeSet_containsLoop {nBits delta : Nat} :
    ∀ {k kh : Nat} {d e f : List Nat}, probeSet nBits delta k kh d = some e →
      (∀ p, p < nBits → p / 8 < d.length) → BitsLE e f →
      containsLoop nBits delta k kh f = some true := by
  intro k
  induction k with
  | zero => intro kh d e f _ _ _; rfl
  | succ k ih =>
    intro kh d e f h hd hle
    by_cases hn : nBits = 0
    · simp [probeSet, hn] at h
    · rw [probeSet, if_neg hn] at h
      have hlt : kh % nBits < nBits := Nat.mod_lt _ (Nat.pos_of_ne_zero hn)
      have hset : ((setBit d (kh % nBits)).getD (kh % nBits / 8) 0).testBit
          (kh % nBits % 8) = true :=
        setBit_sets _ _ (hd _ hlt)
      have hbig : ((f.getD (kh % nBits / 8) 0)).testBit (kh % nBits % 8) = true :=
        hle _ _ (probeSet_bitsLE h _ _ hset)
      rw [containsLoop, if_neg hn,
        if_neg (and_shift_ne_zero hbig)]
      exact ih h (by intro p hp; rw [setBit_length]; exact hd p hp) hle

lemma genLoop_some {nBits k : Nat} (hn : nBits ≠ 0) :
    ∀ (khs : List Nat) (d : List Nat), ∃ e, genLoop nBits k khs d = some e := by
  intro khs
  induction khs with
  | nil => intro d; exact ⟨d, rfl⟩
  | cons kh rest ih =>
    intro d
    obtain ⟨d1, hd1⟩ := @probeSet_some nBits (bloomDelta kh) hn k kh d
    obtain ⟨e, he⟩ := ih d1
    exact ⟨e, by simp [genLoop, hd1, he]⟩

lemma genLoop_length {nBits k : Nat} :
    ∀ {khs : List Nat} {d e : List Nat}, genLoop nBits k khs d = some e →
      e.length = d.length := by
  intro khs
  induction khs with
  | nil => intro d e h; cases h; rfl
  | cons kh rest ih =>
    intro d e h
    rw [genLoop] at h
    cases hps : probeSet nBits (bloomDelta kh) k kh d with
    | none => rw [hps] at h; cases h
    | some d1 =>
      rw [hps] at h
      have h2 : genLoop nBits k rest d1 = some e := h
      rw [ih h2, probeSet_length hps]

lemma genLoop_bitsLE {nBits k : Nat} :
    ∀ {khs : List Nat} {d e : List Nat}, genLoop nBits k khs d = some e →
      BitsLE d e := by
  intro khs
  induction khs with
  | nil => intro d e h; cases h; exact bitsLE_refl _
  | cons kh rest ih =>
    intro d e h
    rw [genLoop] at h
    cases hps : probeSet nBits (bloomDelta kh) k kh d with
    | none => rw [hps] at h; cases h
    | some d1 =>
      rw [hps] at h
      have h2 : genLoop nBits k rest d1 = some e := h
      exact bitsLE_trans (probeSet_bitsLE hps) (ih h2)

lemma genLoop_getD_hi {nBits k m : Nat} (hm : nBits ≤ 8 * m) :
    ∀ {khs : List Nat} {d e : List Nat}, genLoop nBits k khs d = some e →
      e.getD m 0 = d.getD m 0 := by
  intro khs
  induction khs with
  | nil => intro d e h; cases h; rfl
  | cons kh rest ih =>
    intro d e h
    rw [genLoop] at h
    cases hps : probeSet nBits (bloomDelta kh) k kh d with
    | none => rw [hps] at h; cases h
    | some d1 =>
      rw [hps] at h
      have h2 : genLoop nBits k rest d1 = some e := h
      rw [ih h2, probeSet_getD_hi hm hps]

/-- Each key hash handled by `genLoop` gets all its probe bits set, so
`containsLoop` answers `true` on the final bit array. -/
lemma genLoop_containsLoop {nBits k : Nat} :
    ∀ {khs : List Nat} {d e : List Nat}, genLoop nBits k khs d = some e →
      (∀ p, p < nBits → p / 8 < d.length) →
      ∀ kh, kh ∈ khs → containsLoop nBits (bloomDelta kh) k kh e = some true := by
  intro khs
  induction khs with
  | nil => intro d e _ _ kh hm; cases hm
  | cons kh0 rest ih =>
    intro d e h hd kh hm
    rw [genLoop] at h
    cases hps : probeSet nBits (bloomDelta kh0) k kh0 d with
    | none => rw [hps] at h; cases h
    | some d1 =>
      rw [hps] at h
      have h2 : genLoop nBits k rest d1 = some e := h
      rcases List.mem_cons.mp hm with heq | hrest
      · subst heq
        exact probeSet_containsLoop hps hd (genLoop_bitsLE h2)
      · exact ih h2 (by intro p hp; rw [probeSet_length hps]; exact hd p hp) kh hrest

lemma addAll_fields (hash : List Nat → Nat) :
    ∀ (keys : List (List Nat)) (g : BloomGen),
      (addAll hash g keys).n = g.n ∧ (addAll hash g keys).k = g.k ∧
      (addAll hash g keys).keyHashes = g.keyHashes ++ keys.map hash := by
  intro keys
  induction keys with
  | nil => intro g; simp [addAll]
  | cons key rest ih =>
    intro g
    have := ih (gAdd hash g key)
    simpa [addAll, gAdd, List.foldl_cons] using this

lemma clampK_le_30 (f : Nat) : clampK f ≤ 30 := by
  unfold clampK
  split
  · omega
  · split <;> omega

lemma clampK_pos (f : Nat) : 1 ≤ clampK f := by
  unfold clampK
  split
  · omega
  · split <;> omega

lemma genLoop_nBits_ne_zero {nBits k : Nat} {khs : List Nat} {d e : List Nat}
    (h : genLoop nBits k khs d = some e) (hne : khs ≠ []) (hk : 1 ≤ k) :
    nBits ≠ 0 := by
  cases khs with
  | nil => exact absurd rfl hne
  | cons kh rest =>
    intro h0
    subst h0
    cases k with
    | zero => omega
    | succ k0 =>
      rw [genLoop, probeSet, if_pos rfl] at h
      simp at h

lemma genDest0_length (g : BloomGen) : (genDest0 g).length = genNBytes g + 1 := by
  simp [genDest0]

lemma genDest0_trailer (g : BloomGen) : (genDest0 g).getD (genNBytes g) 0 = g.k := by
  unfold genDest0
  exact getD_set_self _ _ _ (by simp)

end BloomLemmas

/-- C3: for every bits-per-key value and every set of keys added to the
generator before `Generate`, `Contains` applied to the generated filter
bytes and any one of those keys returns `true` (no false negatives),
for an arbitrary key-hash function — in particular for the real one. -/
theorem bloom_no_false_negatives (hash : List Nat → Nat) (bpk : Nat)
    (keys : List (List Nat)) (key : List Nat) (flt : List Nat) (g2 : BloomGen)
    (hmem : key ∈ keys)
    (hgen : gGenerate (addAll hash (newGenerator bpk) keys) = some (flt, g2)) :
    containsKey hash flt key = some true := by
  obtain ⟨hn, hk, hkh⟩ := addAll_fields hash keys (newGenerator bpk)
  set g := addAll hash (newGenerator bpk) keys with hg
  rw [gGenerate] at hgen
  obtain ⟨d, hgl, hfd⟩ := Option.map_eq_some'.mp hgen
  cases hfd
  have hkval : g.k = clampK bpk := hk
  have hkhs : g.keyHashes = keys.map hash := by
    rw [hkh]; rfl
  have hmem' : hash key ∈ g.keyHashes := by
    rw [hkhs]; exact List.mem_map_of_mem hash hmem
  have hkpos : 1 ≤ g.k := by rw [hkval]; exact clampK_pos bpk
  have hnb : genNBits g ≠ 0 :=
    genLoop_nBits_ne_zero hgl (by rw [hkhs]; simp; rintro rfl; cases hmem) hkpos
  have hbytes : genNBytes g ≠ 0 := by
    intro h0
    apply hnb
    rw [genNBits, h0]
    rfl
  have hdlen : flt.length = genNBytes g + 1 := by
    rw [genLoop_length hgl, genDest0_length]
  have htrail : flt.getD (genNBytes g) 0 = g.k := by
    have hmle : genNBits g ≤ 8 * genNBytes g := by
      rw [genNBits, Nat.mul_comm]
      exact Nat.mod_le _ _
    rw [genLoop_getD_hi hmle hgl, genDest0_trailer]
  rw [containsKey, contains]
  rw [if_neg (by omega)]
  have hsub : flt.length - 1 = genNBytes g := by omega
  rw [hsub, htrail, if_neg (by push_neg; rw [hkval]; exact clampK_le_30 bpk)]
  have hnbits : genNBytes g * 8 % U32 = genNBits g := rfl
  rw [hnbits]
  refine genLoop_containsLoop hgl ?_ (hash key) hmem'
  intro p hp
  rw [genDest0_length]
  have hple : genNBits g ≤ 8 * genNBytes g := by
    rw [genNBits, Nat.mul_comm]
    exact Nat.mod_le _ _
  rw [Nat.div_lt_iff_lt_mul (by omega)]
  omega

/-- Witness for C3 at a concrete instance: one key, `bits_per_key = 1`,
constant hash. -/
theorem bloom_no_false_negatives_witness :
    containsKey (fun _ => 0) [1, 0, 0, 0, 0, 0, 0, 0, 1] [] = some true :=
  bloom_no_false_negatives (fun _ => 0) 1 [[]] [] [1, 0, 0, 0, 0, 0, 0, 0, 1]
    (newGenerator 1) (by decide) (by decide)

/-- C4 counterexample: at `bits_per_key = 10` the code derives `k = 6`
(`uint8(10 * 69 / 100)` truncates), while the claimed formula
`clamp(round(10 * ln 2), 1, 30)` gives `7`. -/
theorem newGenerator_round_cex :
    ((newGenerator 10).k : ℤ) = 6 ∧ specClampRound 10 = 7 ∧ (6 : ℤ) ≠ 7 := by
  refine ⟨by decide, ?_, by decide⟩
  have hlo := Real.log_two_gt_d9
  have hhi := Real.log_two_lt_d9
  have h7 : round ((10 : ℝ) * Real.log 2) = 7 := by
    rw [round_eq]
    apply Int.floor_eq_iff.mpr
    constructor
    · push_cast
      nlinarith
    · push_cast
      nlinarith
  have hc : ((10 : Nat) : ℝ) = (10 : ℝ) := by norm_num
  rw [specClampRound, hc, h7]
  decide

/-- C4 (amended): `NewGenerator` derives the probe count by truncation,
`k = clamp(floor(bits_per_key * 0.69), 1, 30)` (computed in Go as the
integer division `bits_per_key * 69 / 100`, further truncated to
`uint8`; the hypothesis keeps that truncation inactive). -/
theorem newGenerator_k_floor (b : Nat) (hb : b * 69 / 100 < 256) :
    (newGenerator b).k = min 30 (max 1 (Nat.floor ((b : ℝ) * 69 / 100))) := by
  have hfl : Nat.floor ((b : ℝ) * 69 / 100) = b * 69 / 100 := by
    have hcast : ((b : ℝ) * 69 / 100) = ((b * 69 : ℕ) : ℝ) / ((100 : ℕ) : ℝ) := by
      push_cast
      ring
    rw [hcast, Nat.floor_div_nat, Nat.floor_natCast]
  show clampK b = _
  rw [hfl]
  unfold clampK
  rw [Nat.mod_eq_of_lt hb]
  split
  · omega
  · split <;> omega

/-- Witness for the amended C4 at `bits_per_key = 10`. -/
theorem newGenerator_k_floor_witness :
    (newGenerator 10).k = min 30 (max 1 (Nat.floor ((10 : ℕ) * 69 / 100 : ℝ))) :=
  newGenerator_k_floor 10 (by decide)

/-- C9 counterexample: with one key and `bits_per_key = 2^32` the code
emits 9 bytes (the `uint32` truncation of `n*b` kicks in), while the
claimed formula `ceil(max(64, n*b)/8) + 1` gives 536870913. -/
theorem bloom_filter_length_cex :
    (gGenerate (addAll (fun _ => 0) (newGenerator U32) [[]])).map
        (fun p => p.1.length) = some 9 ∧
      specFilterLen 1 U32 = 536870913 ∧ (9 : Nat) ≠ 536870913 := by
  refine ⟨by decide, by decide, by decide⟩

/-- C9 (amended): for `n` keys and bits-per-key `b` with `n*b + 7 < 2^32`
(no `uint32` truncation), `Generate` succeeds, the emitted byte array
has length exactly `ceil(max(64, n*b)/8) + 1`, and its final byte
stores the generator's probe count `k`. -/
theorem bloom_filter_length (hash : List Nat → Nat) (b : Nat)
    (keys : List (List Nat)) (hbound : keys.length * b + 7 < U32) :
    ∃ flt g2, gGenerate (addAll hash (newGenerator b) keys) = some (flt, g2) ∧
      flt.length = specFilterLen keys.length b ∧
      flt.getD (flt.length - 1) 0 = (newGenerator b).k := by
  obtain ⟨hn, hk, hkh⟩ := addAll_fields hash keys (newGenerator b)
  set g := addAll hash (newGenerator b) keys with hg
  have hgn : g.n = b := hn
  have hkhlen : g.keyHashes.length = keys.length := by
    rw [hkh]
    simp [newGenerator]
  have hmod : g.keyHashes.length * g.n % U32 = keys.length * b := by
    rw [hkhlen, hgn]
    exact Nat.mod_eq_of_lt (by omega)
  have hb1 : genNBits1 g = max 64 (keys.length * b) := by
    rw [genNBits1, hmod]
    split <;> omega
  have hb1le : genNBits1 g + 7 < U32 := by
    rw [hb1]
    have : U32 = 4294967296 := rfl
    omega
  have hbytes : genNBytes g = (max 64 (keys.length * b) + 7) / 8 := by
    rw [genNBytes, Nat.mod_eq_of_lt hb1le, hb1]
  have hbytes8 : 8 ≤ genNBytes g := by
    rw [hbytes]
    have h64 : 64 ≤ max 64 (keys.length * b) := le_max_left _ _
    omega
  have hnbits : genNBits g ≠ 0 := by
    rw [genNBits, Nat.mod_eq_of_lt ?hlt]
    · positivity
    case hlt =>
      rw [hbytes]
      have : (max 64 (keys.length * b) + 7) / 8 * 8 ≤ max 64 (keys.length * b) + 7 :=
        Nat.div_mul_le_self _ 8
      omega
  obtain ⟨e, he⟩ := genLoop_some hnbits g.keyHashes (genDest0 g)
  refine ⟨e, { g with keyHashes := [] }, ?_, ?_, ?_⟩
  · rw [gGenerate, he]
    rfl
  · rw [genLoop_length he, genDest0_length, hbytes, specFilterLen]
  · have hlen : e.length = genNBytes g + 1 := by
      rw [genLoop_length he, genDest0_length]
    have hsub : e.length - 1 = genNBytes g := by omega
    have hmle : genNBits g ≤ 8 * genNBytes g := by
      rw [genNBits, Nat.mul_comm]
      exact Nat.mod_le _ _
    rw [hsub, genLoop_getD_hi hmle he, genDest0_trailer]
    exact hk

/-- Witness for the amended C9 at two keys and `bits_per_key = 10`. -/
theorem bloom_filter_length_witness :
    ∃ flt g2, gGenerate (addAll (fun _ => 0) (newGenerator 10) [[], [0]]) =
        some (flt, g2) ∧ flt.length = specFilterLen 2 10 ∧
        flt.getD (flt.length - 1) 0 = (newGenerator 10).k :=
  bloom_filter_length (fun _ => 0) 10 [[], [0]] (by decide)

/-- C10: a filter of length at least 2 whose trailer byte is 0 makes
`Contains` return `true` unconditionally (the probe loop runs zero
times), and no generator built by `NewGenerator` ever emits `k = 0`
since the probe count is clamped to at least 1. -/
theorem contains_zero_trailer :
    (∀ flt kh, 2 ≤ flt.length → flt.getD (flt.length - 1) 0 = 0 →
      contains flt kh = some true) ∧ ∀ b, 1 ≤ (newGenerator b).k := by
  constructor
  · intro flt kh hlen htr
    rw [contains, if_neg (by omega), htr, if_neg (by omega)]
    rfl
  · intro b
    exact clampK_pos b

/-- Witness for C10 on the two-byte all-zero filter. -/
theorem contains_zero_trailer_witness :
    contains [0, 0] 12345 = some true ∧ 1 ≤ (newGenerator 0).k :=
  ⟨contains_zero_trailer.1 [0, 0] 12345 (by decide) (by decide),
    contains_zero_trailer.2 0⟩

end Bloom

namespace Journal

/-- `blockSize = 32 * 1024`. -/
def blockSize : Nat := 32768

/-- `headerSize = 7`. -/
def headerSize : Nat := 7

def fullChunkType : Nat := 1

def firstChunkType : Nat := 2

def middleChunkType : Nat := 3

def lastChunkType : Nat := 4

/-- `binary.LittleEndian.Uint16` over two buffer bytes. -/
def readLE16 (b0 b1 : Nat) : Nat := b0 + b1 * 256

/-- `binary.LittleEndian.Uint32` over four buffer bytes. -/
def readLE32 (b0 b1 b2 b3 : Nat) : Nat :=
  b0 + b1 * 256 + b2 * 65536 + b3 * 16777216

/-- The four bytes `binary.LittleEndian.PutUint32` stores for `v`. -/
def le32 (v : Nat) : List Nat :=
  [v % 256, v / 256 % 256, v / 65536 % 256, v / 16777216 % 256]

/-- The two bytes `binary.LittleEndian.PutUint16` stores for `v`. -/
def le16 (v : Nat) : List Nat := [v % 256, v / 256 % 256]

/-- The `reason` strings passed to `Reader.corrupt`, as an enumeration. -/
inductive CorruptReason where
  | zeroHeader
  | invalidChunkType (ty : Nat)
  | lengthOverflows
  | checksumMismatch
  | orphanChunk
  | missingChunkPart
  deriving DecidableEq, Repr

/-- The error values the journal code can produce.  `errSkip` is the
internal sentinel; `corrupted` carries the dropped size and reason;
`staleReader`/`staleWriter` are the session-staleness errors;
`unexpectedEOF` is `io.ErrUnexpectedEOF`; `eof` is `io.EOF`. -/
inductive JErr where
  | corrupted (size : Nat) (reason : CorruptReason)
  | errSkip
  | eof
  | unexpectedEOF
  | staleReader
  | staleWriter
  | closedWriter
  deriving DecidableEq, Repr

/-- The state of a journal `Reader` together with its underlying input
stream (remaining unread bytes) and a ghost log `drops` of the dropper
notifications.  `buf` holds the current block's bytes; the invariant
`n = buf.length` is maintained by construction (`n` mirrors the Go
field). -/
structure RState where
  input : List Nat
  strict : Bool
  checksum : Bool
  seq : Nat
  i : Nat
  j : Nat
  n : Nat
  last : Bool
  err : Option JErr
  buf : List Nat
  drops : List (Nat × CorruptReason)
  deriving DecidableEq, Repr

/-- `NewReader`. -/
def newReader (input : List Nat) (strict checksum : Bool) : RState :=
  ⟨input, strict, checksum, 0, 0, 0, 0, true, none, [], []⟩

/-- `Reader.corrupt`: notify the dropper; in strict mode a non-skippable
corruption becomes the sticky terminal error, otherwise `errSkip` is
returned. -/
def corruptR (m : Nat) (reason : CorruptReason) (skip : Bool) (st : RState) :
    RState × Option JErr :=
  let st1 := { st with drops := st.drops ++ [(m, reason)] }
  if st.strict = true ∧ skip = false then
    ({ st1 with err := some (.corrupted m reason) }, some (.corrupted m reason))
  else (st1, some .errSkip)

/-- The header-parsing branch of `Reader.nextChunk` (executed when
`j + headerSize ≤ n`). -/
def headerStep (crc : List Nat → Nat) (first : Bool) (st : RState) :
    RState × Option JErr :=
  let checksum := readLE32 (st.buf.getD st.j 0) (st.buf.getD (st.j + 1) 0)
    (st.buf.getD (st.j + 2) 0) (st.buf.getD (st.j + 3) 0)
  let length := readLE16 (st.buf.getD (st.j + 4) 0) (st.buf.getD (st.j + 5) 0)
  let chunkType := st.buf.getD (st.j + 6) 0
  let unprocBlock := st.n - st.j
  if checksum = 0 ∧ length = 0 ∧ chunkType = 0 then
    corruptR unprocBlock .zeroHeader false { st with i := st.n, j := st.n }
  else if chunkType < fullChunkType ∨ chunkType > lastChunkType then
    corruptR unprocBlock (.invalidChunkType chunkType) false
      { st with i := st.n, j := st.n }
  else
    let i1 := st.j + headerSize
    let j1 := st.j + headerSize + length
    if j1 > st.n then
      corruptR unprocBlock .lengthOverflows false { st with i := st.n, j := st.n }
    else if st.checksum = true ∧
        checksum ≠ crc ((st.buf.drop (i1 - 1)).take (j1 - (i1 - 1))) % U32 then
      corruptR unprocBlock .checksumMismatch false { st with i := st.n, j := st.n }
    else if first = true ∧ chunkType ≠ fullChunkType ∧ chunkType ≠ firstChunkType then
      corruptR ((j1 - i1) + headerSize) .orphanChunk true { st with i := j1, j := j1 }
    else
      ({ st with
          i := i1
          j := j1
          last := decide (chunkType = fullChunkType ∨ chunkType = lastChunkType) }, none)

/-- The non-full final-block branch of `Reader.nextChunk`. -/
def partialStep (first : Bool) (st : RState) : RState × Option JErr :=
  if first = false then corruptR 0 .missingChunkPart false st
  else ({ st with err := some .eof }, some .eof)

/-- The state after `io.ReadFull(r.r, r.buf[:])` reads the next block:
`n = min(blockSize, len(input))` bytes move from the input into the
buffer and the cursors reset. -/
def loadBlock (st : RState) : RState :=
  { st with
    buf := st.input.take (min blockSize st.input.length)
    input := st.input.drop (min blockSize st.input.length)
    i := 0
    j := 0
    n := min blockSize st.input.length }

/-- `Reader.nextChunk`.  The Go `for` loop runs at most two iterations
(after a successful block read the next iteration necessarily returns),
so it is written here with the single possible re-entry unrolled: parse
a header if one is buffered; report the non-full final block otherwise;
else read the next block (zero bytes read is end-of-stream or a missing
continuation) and parse it. -/
def nextChunk (crc : List Nat → Nat) (first : Bool) (st : RState) :
    RState × Option JErr :=
  if st.j + headerSize ≤ st.n then headerStep crc first st
  else if st.n < blockSize ∧ 0 < st.n then partialStep first st
  else if min blockSize st.input.length = 0 then
    if first = false then corruptR 0 .missingChunkPart false st
    else ({ st with err := some .eof }, some .eof)
  else if (loadBlock st).j + headerSize ≤ (loadBlock st).n then
    headerStep crc first (loadBlock st)
  else partialStep first (loadBlock st)

section ReaderMeasure

lemma corruptR_pair (m : Nat) (r : CorruptReason) (sk : Bool) (st : RState) :
    corruptR m r sk st =
      if st.strict = true ∧ sk = false then
        ({ st with drops := st.drops ++ [(m, r)], err := some (.corrupted m r) },
          some (.corrupted m r))
      else ({ st with drops := st.drops ++ [(m, r)] }, some .errSkip) := by
  unfold corruptR
  split <;> rfl

lemma loadBlock_i (st : RState) : (loadBlock st).i = 0 := rfl

lemma loadBlock_j (st : RState) : (loadBlock st).j = 0 := rfl

lemma loadBlock_n (st : RState) : (loadBlock st).n = min blockSize st.input.length := rfl

lemma loadBlock_input_length (st : RState) :
    (loadBlock st).input.length = st.input.length - min blockSize st.input.length := by
  simp [loadBlock]

/-- Cursor bookkeeping of the header-parsing step: the input and block
stay put; a skip strictly advances `j` within the block; an accepted
chunk places `headerSize ≤ i ≤ j ≤ n` past the old cursor. -/
lemma headerStep_spec {crc : List Nat → Nat} {first : Bool} {st st1 : RState}
    {e : Option JErr} (hent : st.j + headerSize ≤ st.n)
    (h : headerStep crc first st = (st1, e)) :
    st1.input = st.input ∧ st1.n = st.n ∧ st.j ≤ st1.j ∧ st1.seq = st.seq ∧
      (e = some .errSkip → st.j < st1.j ∧ st1.j ≤ st.n ∧ st1.j ≤ st1.i) ∧
      (e = none → st1.i ≤ st1.j ∧ st1.j ≤ st.n ∧ st.j + headerSize ≤ st1.i ∧
        st1.i = st.j + headerSize) := by
  unfold headerStep at h
  simp only [corruptR_pair, headerSize, fullChunkType, firstChunkType,
    middleChunkType, lastChunkType, eq_self_iff_true, and_true, and_false,
    Bool.true_eq_false, if_false, ite_false] at h hent
  split_ifs at h <;> injection h with h1 h2 <;> subst h1 <;> subst h2 <;>
    refine ⟨rfl, rfl, ?_, rfl, fun he => ?_, fun he => ?_⟩ <;>
    first
      | (exact Option.noConfusion he)
      | (injection he with he2; exact JErr.noConfusion he2)
      | (simp_all [headerSize]; omega)
      | (simp_all [headerSize])

/-- The non-full final-block step leaves the cursors alone and never
succeeds; when a fresh journal is sought it reports `io.EOF`. -/
lemma partialStep_spec {first : Bool} {st st1 : RState} {e : Option JErr}
    (h : partialStep first st = (st1, e)) :
    st1.input = st.input ∧ st1.n = st.n ∧ st1.j = st.j ∧ st1.i = st.i ∧
      st1.seq = st.seq ∧ e ≠ none ∧ (first = true → e = some .eof) := by
  unfold partialStep at h
  simp only [corruptR_pair] at h
  split_ifs at h <;> injection h with h1 h2 <;> subst h1 <;> subst h2 <;>
    refine ⟨rfl, rfl, rfl, rfl, rfl, ?_, ?_⟩ <;> simp_all

/-- Every `errSkip` produced by `nextChunk` in first-chunk mode strictly
shrinks the combined measure of remaining input plus unparsed buffered
bytes. -/
lemma nextChunk_skip_measure {crc : List Nat → Nat} {st st1 : RState}
    (h : nextChunk crc true st = (st1, some .errSkip)) :
    st1.input.length + (st1.n - st1.j) < st.input.length + (st.n - st.j) := by
  unfold nextChunk at h
  by_cases h1 : st.j + headerSize ≤ st.n
  · rw [if_pos h1] at h
    obtain ⟨ha, hb, -, -, hc, -⟩ := headerStep_spec h1 h
    obtain ⟨hd, he2, -⟩ := hc rfl
    rw [ha, hb]
    omega
  · rw [if_neg h1] at h
    by_cases h2 : st.n < blockSize ∧ 0 < st.n
    · rw [if_pos h2] at h
      obtain ⟨-, -, -, -, -, -, hf⟩ := partialStep_spec h
      simp at hf
    · rw [if_neg h2] at h
      by_cases h3 : min blockSize st.input.length = 0
      · rw [if_pos h3] at h
        rw [if_neg (by simp)] at h
        injection h with h4 h5
        exact absurd h5.symm (by simp)
      · rw [if_neg h3] at h
        have hkle : min blockSize st.input.length ≤ st.input.length :=
          Nat.min_le_right _ _
        by_cases h4 : (loadBlock st).j + headerSize ≤ (loadBlock st).n
        · rw [if_pos h4] at h
          obtain ⟨ha, hb, -, -, hc, -⟩ := headerStep_spec h4 h
          obtain ⟨hd, he2, -⟩ := hc rfl
          rw [ha, hb, loadBlock_input_length, loadBlock_n]
          rw [loadBlock_j] at hd
          omega
        · rw [if_neg h4] at h
          obtain ⟨-, -, -, -, -, -, hf⟩ := partialStep_spec h
          simp at hf

/-- A successful `nextChunk` yields payload cursors `i ≤ j ≤ n` and
strictly advances the combined measure. -/
lemma nextChunk_ok {crc : List Nat → Nat} {first : Bool} {st st1 : RState}
    (h : nextChunk crc first st = (st1, none)) :
    st1.i ≤ st1.j ∧ st1.j ≤ st1.n ∧
      st1.input.length + (st1.n - st1.i) + 2 ≤ st.input.length + (st.n - st.j) := by
  unfold nextChunk at h
  by_cases h1 : st.j + headerSize ≤ st.n
  · rw [if_pos h1] at h
    obtain ⟨ha, hb, -, -, -, hc⟩ := headerStep_spec h1 h
    obtain ⟨hd, he2, hf, -⟩ := hc rfl
    rw [ha, hb]
    simp only [headerSize] at h1 hf
    omega
  · rw [if_neg h1] at h
    by_cases h2 : st.n < blockSize ∧ 0 < st.n
    · rw [if_pos h2] at h
      obtain ⟨-, -, -, -, -, hf, -⟩ := partialStep_spec h
      simp at hf
    · rw [if_neg h2] at h
      by_cases h3 : min blockSize st.input.length = 0
      · rw [if_pos h3, corruptR_pair] at h
        split_ifs at h <;> injection h with h4 h5 <;> simp at h5
      · rw [if_neg h3] at h
        have hkle : min blockSize st.input.length ≤ st.input.length :=
          Nat.min_le_right _ _
        by_cases h4 : (loadBlock st).j + headerSize ≤ (loadBlock st).n
        · rw [if_pos h4] at h
          obtain ⟨ha, hb, -, -, -, hc⟩ := headerStep_spec h4 h
          obtain ⟨hd, he2, hf, -⟩ := hc rfl
          rw [ha, hb, loadBlock_input_length, loadBlock_n]
          rw [loadBlock_j] at hf
          simp only [headerSize] at hf
          rw [loadBlock_n] at he2
          omega
        · rw [if_neg h4] at h
          obtain ⟨-, -, -, -, -, hf, -⟩ := partialStep_spec h
          simp at hf

end ReaderMeasure

/-- The loop inside `Reader.Next`: repeat `nextChunk(true)` until it
either succeeds or returns an error other than `errSkip`. -/
def seekFirst (crc : List Nat → Nat) (st : RState) : RState × Option JErr :=
  match h : nextChunk crc true st with
  | (st1, none) => (st1, none)
  | (st1, some e) =>
    if he : e = JErr.errSkip then seekFirst crc st1 else (st1, some e)
termination_by st.input.length + (st.n - st.j)
decreasing_by
  subst he
  exact nextChunk_skip_measure h

/-- The session type returned by `Reader.Next` (`singleReader`): the
captured sequence number and the session-local sticky error. -/
structure SReader where
  seq : Nat
  err : Option JErr
  deriving DecidableEq, Repr

/-- `Reader.Next`: bump `seq`, short-circuit on the sticky error,
rebase `i := j` and look for the first chunk of the next journal. -/
def rNext (crc : List Nat → Nat) (st : RState) : RState × Except JErr SReader :=
  match ({ st with seq := st.seq + 1 } : RState).err with
  | some e => ({ st with seq := st.seq + 1 }, .error e)
  | none =>
    match seekFirst crc { st with seq := st.seq + 1, i := st.j } with
    | (st1, none) => (st1, .ok ⟨st1.seq, none⟩)
    | (st1, some e) => (st1, .error e)

/-- The `for r.i == r.j` loop shared by `singleReader.Read` and
`ReadByte`: stop at the journal's terminal chunk with `io.EOF`,
otherwise pull the next chunk of the same journal, upgrading a skip to
`io.ErrUnexpectedEOF`. -/
def rdAdvance (crc : List Nat → Nat) (st : RState) : RState × Option JErr :=
  if st.i = st.j then
    if st.last then (st, some .eof)
    else
      match h : nextChunk crc false st with
      | (st1, none) => rdAdvance crc st1
      | (st1, some e) =>
        (st1, some (if e = JErr.errSkip then JErr.unexpectedEOF else e))
  else (st, none)
termination_by st.input.length + (st.n - st.j)
decreasing_by
  have h2 := nextChunk_ok h
  omega

/-- `singleReader.Read` with a caller buffer of capacity `cap`:
staleness and sticky-error checks, the chunk-advance loop, then a copy
of at most `cap` payload bytes. -/
def srRead (crc : List Nat → Nat) (cap : Nat) (st : RState) (x : SReader) :
    RState × SReader × List Nat × Option JErr :=
  if st.seq ≠ x.seq then (st, x, [], some .staleReader)
  else if x.err ≠ none then (st, x, [], x.err)
  else if st.err ≠ none then (st, x, [], st.err)
  else
    match rdAdvance crc st with
    | (st1, none) =>
      ({ st1 with i := st1.i + min cap (st1.j - st1.i) }, x,
        (st1.buf.drop st1.i).take (min cap (st1.j - st1.i)), none)
    | (st1, some e) =>
      if e = JErr.eof then (st1, x, [], some .eof)
      else (st1, { x with err := some e }, [], some e)

/-- Reading a whole journal to exhaustion (`ioutil.ReadAll` issuing
`singleReader.Read` calls with ample capacity): each step hands out the
buffered payload `buf[i:j]` and advances; `io.EOF` from the terminal
chunk ends the journal successfully. -/
def readAllAux (crc : List Nat → Nat) (st : RState) :
    RState × List Nat × Option JErr :=
  if st.i ≠ st.j then
    let r := readAllAux crc { st with i := st.j }
    (r.1, (st.buf.drop st.i).take (st.j - st.i) ++ r.2.1, r.2.2)
  else if st.last then (st, [], none)
  else
    match h : nextChunk crc false st with
    | (st1, none) => readAllAux crc st1
    | (st1, some e) =>
      (st1, [], some (if e = JErr.errSkip then JErr.unexpectedEOF else e))
termination_by
  st.input.length + (st.n - st.j) + (st.j - st.i) + (if st.i = st.j then 0 else 1)
decreasing_by
  · simp
    split_ifs <;> omega
  · have h2 := nextChunk_ok h
    simp only [not_not] at *
    split_ifs <;> omega

section ReaderNu

/-- `nextChunk` never increases the combined measure, whatever it
returns. -/
lemma nextChunk_nu {crc : List Nat → Nat} {first : Bool} {st st1 : RState}
    {r : Option JErr} (h : nextChunk crc first st = (st1, r)) :
    st1.input.length + (st1.n - st1.j) ≤ st.input.length + (st.n - st.j) := by
  unfold nextChunk at h
  by_cases h1 : st.j + headerSize ≤ st.n
  · rw [if_pos h1] at h
    obtain ⟨ha, hb, hc, -, -, -⟩ := headerStep_spec h1 h
    rw [ha, hb]
    omega
  · rw [if_neg h1] at h
    by_cases h2 : st.n < blockSize ∧ 0 < st.n
    · rw [if_pos h2] at h
      obtain ⟨ha, hb, hc, -, -, -, -⟩ := partialStep_spec h
      rw [ha, hb, hc]
    · rw [if_neg h2] at h
      by_cases h3 : min blockSize st.input.length = 0
      · rw [if_pos h3, corruptR_pair] at h
        split_ifs at h <;> injection h with h4 h5 <;> subst h4 <;> simp
      · rw [if_neg h3] at h
        have hkle : min blockSize st.input.length ≤ st.input.length :=
          Nat.min_le_right _ _
        by_cases h4 : (loadBlock st).j + headerSize ≤ (loadBlock st).n
        · rw [if_pos h4] at h
          obtain ⟨ha, hb, hc, -, -, -⟩ := headerStep_spec h4 h
          rw [ha, hb, loadBlock_input_length, loadBlock_n]
          rw [loadBlock_j] at hc
          omega
        · rw [if_neg h4] at h
          obtain ⟨ha, hb, hc, -, -, -, -⟩ := partialStep_spec h
          rw [ha, hb, hc, loadBlock_input_length, loadBlock_n, loadBlock_j]
          omega

/-- A successful `seekFirst` behaves like a single accepted chunk for
the measure bookkeeping. -/
lemma seekFirst_ok_aux {crc : List Nat → Nat} :
    ∀ (N : Nat) {st st1 : RState}, st.input.length + (st.n - st.j) ≤ N →
      seekFirst crc st = (st1, none) →
      st1.i ≤ st1.j ∧ st1.j ≤ st1.n ∧
        st1.input.length + (st1.n - st1.i) + 2 ≤
          st.input.length + (st.n - st.j) := by
  intro N
  induction N using Nat.strong_induction_on with
  | _ N ih =>
    intro st st1 hN h
    rw [seekFirst.eq_def] at h
    split at h
    · rename_i st3 heq
      injection h with ha hb
      subst ha
      exact nextChunk_ok heq
    · rename_i st3 e heq
      split at h
      · rename_i he
        subst he
        have hm := nextChunk_skip_measure heq
        have hc := ih (st3.input.length + (st3.n - st3.j)) (by omega)
          (Nat.le_refl _) h
        omega
      · injection h with ha hb
        exact absurd hb.symm (by simp)

lemma seekFirst_ok {crc : List Nat → Nat} {st st1 : RState}
    (h : seekFirst crc st = (st1, none)) :
    st1.i ≤ st1.j ∧ st1.j ≤ st1.n ∧
      st1.input.length + (st1.n - st1.i) + 2 ≤
        st.input.length + (st.n - st.j) :=
  seekFirst_ok_aux _ (Nat.le_refl _) h

/-- `readAllAux` never increases the measure. -/
lemma readAllAux_nu_aux {crc : List Nat → Nat} :
    ∀ (N : Nat) {st st2 : RState} {bs : List Nat} {e : Option JErr},
      st.input.length + (st.n - st.j) + (st.j - st.i) +
        (if st.i = st.j then 0 else 1) ≤ N →
      readAllAux crc st = (st2, bs, e) →
      st2.input.length + (st2.n - st2.j) ≤ st.input.length + (st.n - st.j) := by
  intro N
  induction N using Nat.strong_induction_on with
  | _ N ih =>
    intro st st2 bs e hN h
    rw [readAllAux.eq_def] at h
    by_cases hij : st.i ≠ st.j
    · rw [if_pos hij] at h
      rcases hr : readAllAux crc { st with i := st.j } with ⟨st3, bs3, e3⟩
      rw [hr] at h
      injection h with h1 h2
      subst h1
      have hc := ih (st.input.length + (st.n - st.j)) (by split_ifs at hN <;> omega)
        (by simp) hr
      simpa using hc
    · rw [if_neg hij] at h
      by_cases hlast : st.last = true
      · rw [if_pos hlast] at h
        injection h with h1 h2
        subst h1
        exact Nat.le_refl _
      · rw [if_neg hlast] at h
        split at h
        · rename_i st3 heq
          have hne := nextChunk_ok heq
          have hnn := nextChunk_nu heq
          have hc := ih (st3.input.length + (st3.n - st3.j) + (st3.j - st3.i) +
              (if st3.i = st3.j then 0 else 1)) (by split_ifs at hN ⊢ <;> omega) (Nat.le_refl _) h
          omega
        · rename_i st3 e3 heq
          injection h with h1 h2
          subst h1
          exact nextChunk_nu heq

lemma readAllAux_nu {crc : List Nat → Nat} {st st2 : RState} {bs : List Nat}
    {e : Option JErr} (h : readAllAux crc st = (st2, bs, e)) :
    st2.input.length + (st2.n - st2.j) ≤ st.input.length + (st.n - st.j) :=
  readAllAux_nu_aux _ (Nat.le_refl _) h

/-- A successful `Reader.Next` strictly decreases the measure. -/
lemma rNext_ok_nu {crc : List Nat → Nat} {st st1 : RState} {s : SReader}
    (h : rNext crc st = (st1, .ok s)) :
    st1.input.length + (st1.n - st1.j) < st.input.length + (st.n - st.j) := by
  unfold rNext at h
  split at h
  · injection h with h1 h2
    exact absurd h2.symm (by simp)
  · split at h
    · rename_i st2 heq
      injection h with h1 h2
      subst h1
      have := seekFirst_ok heq
      simp at this
      omega
    · rename_i st2 e heq
      injection h with h1 h2
      exact absurd h2.symm (by simp)

end ReaderNu

/-- `nextChunk` never changes the reader's sequence number. -/
lemma nextChunk_seq {crc : List Nat → Nat} {first : Bool} {st st1 : RState}
    {r : Option JErr} (h : nextChunk crc first st = (st1, r)) :
    st1.seq = st.seq := by
  unfold nextChunk at h
  by_cases h1 : st.j + headerSize ≤ st.n
  · rw [if_pos h1] at h
    exact (headerStep_spec h1 h).2.2.2.1
  · rw [if_neg h1] at h
    by_cases h2 : st.n < blockSize ∧ 0 < st.n
    · rw [if_pos h2] at h
      exact (partialStep_spec h).2.2.2.2.1
    · rw [if_neg h2] at h
      by_cases h3 : min blockSize st.input.length = 0
      · rw [if_pos h3, corruptR_pair] at h
        split_ifs at h <;> injection h with h4 h5 <;> subst h4 <;> rfl
      · rw [if_neg h3] at h
        by_cases h4 : (loadBlock st).j + headerSize ≤ (loadBlock st).n
        · rw [if_pos h4] at h
          exact (headerStep_spec h4 h).2.2.2.1
        · rw [if_neg h4] at h
          exact (partialStep_spec h).2.2.2.2.1

/-- `seekFirst` never changes the reader's sequence number. -/
lemma seekFirst_seq_aux {crc : List Nat → Nat} :
    ∀ (N : Nat) {st st1 : RState} {r : Option JErr},
      st.input.length + (st.n - st.j) ≤ N →
      seekFirst crc st = (st1, r) → st1.seq = st.seq := by
  intro N
  induction N using Nat.strong_induction_on with
  | _ N ih =>
    intro st st1 r hN h
    rw [seekFirst.eq_def] at h
    split at h
    · rename_i st3 heq
      injection h with ha hb
      subst ha
      exact nextChunk_seq heq
    · rename_i st3 e heq
      split at h
      · rename_i he
        subst he
        have hm := nextChunk_skip_measure heq
        have hs := nextChunk_seq heq
        have hc := ih (st3.input.length + (st3.n - st3.j)) (by omega)
          (Nat.le_refl _) h
        omega
      · injection h with ha hb
        subst ha
        exact nextChunk_seq heq

lemma seekFirst_seq {crc : List Nat → Nat} {st st1 : RState} {r : Option JErr}
    (h : seekFirst crc st = (st1, r)) : st1.seq = st.seq :=
  seekFirst_seq_aux _ (Nat.le_refl _) h

/-- The per-journal loop of the package documentation's `read` example:
`Next` then `ReadAll`, collecting journal contents until `io.EOF`, and
stopping at the first real error. -/
def readLoop (crc : List Nat → Nat) (st : RState) :
    RState × List (List Nat) × Option JErr :=
  match h : rNext crc st with
  | (st1, .error e) => if e = JErr.eof then (st1, [], none) else (st1, [], some e)
  | (st1, .ok _) =>
    match h2 : readAllAux crc st1 with
    | (st2, bytes, none) =>
      let r := readLoop crc st2
      (r.1, bytes :: r.2.1, r.2.2)
    | (st2, _, some e) => (st2, [], some e)
termination_by st.input.length + (st.n - st.j)
decreasing_by
  have ha := rNext_ok_nu h
  have hb := readAllAux_nu h2
  omega

/-- Reading every journal of a byte stream, as the package
documentation's `read` example does. -/
def readJournals (crc : List Nat → Nat) (strict checksum : Bool)
    (input : List Nat) : List (List Nat) × Option JErr :=
  let r := readLoop crc (newReader input strict checksum)
  (r.2.1, r.2.2)

/-- The state of a journal `Writer` together with the bytes `out`
already written to the underlying `io.Writer` and two ghost fields:
`blocksDone` counts `writeBlock` calls and `chunks` records, for every
finalized chunk header, the block index and the buffer range
`[i, j)` the chunk occupies.  The ghost fields influence nothing. -/
structure WState where
  seq : Nat
  i : Nat
  j : Nat
  written : Nat
  first : Bool
  pending : Bool
  closed : Bool
  buf : List Nat
  out : List Nat
  blocksDone : Nat
  chunks : List (Nat × Nat × Nat)
  deriving DecidableEq, Repr

/-- `NewWriter`: zeroed buffer, everything at zero.  The underlying
writer is modelled as the growing byte list `out` whose writes always
succeed, so the only possible sticky error is the closed state. -/
def newWriter : WState :=
  ⟨0, 0, 0, 0, false, false, false, List.replicate blockSize 0, [], 0, []⟩

/-- Store `binary.LittleEndian.PutUint32 v` at offset `p` of `b`. -/
def setLE32 (b : List Nat) (p v : Nat) : List Nat :=
  (((b.set p (v % 256)).set (p + 1) (v / 256 % 256)).set
    (p + 2) (v / 65536 % 256)).set (p + 3) (v / 16777216 % 256)

/-- Store `binary.LittleEndian.PutUint16 v` at offset `p` of `b`. -/
def setLE16 (b : List Nat) (p v : Nat) : List Nat :=
  (b.set p (v % 256)).set (p + 1) (v / 256 % 256)

/-- The chunk type `fillHeader` stores: Full/Last when terminal,
First/Middle otherwise, depending on the `first` flag. -/
def chunkTy (last first : Bool) : Nat :=
  if last then (if first then fullChunkType else lastChunkType)
  else (if first then firstChunkType else middleChunkType)

/-- The buffer contents after `fillHeader` runs: the chunk-type byte at
`i+6`, then the checksum over `buf[i+6 : j]` (type byte plus payload) at
`i..i+3`, then the little-endian payload length at `i+4..i+5`. -/
def finalizedBuf (crc : List Nat → Nat) (last : Bool) (st : WState) : List Nat :=
  let buf1 := st.buf.set (st.i + 6) (chunkTy last st.first)
  let buf2 := setLE32 buf1 st.i
    (crc ((buf1.drop (st.i + 6)).take (st.j - (st.i + 6))) % U32)
  setLE16 buf2 (st.i + 4) ((st.j - st.i - headerSize) % 65536)

/-- `Writer.fillHeader`: panic (modelled as `none`) unless
`i + headerSize ≤ j ≤ blockSize`; write the header bytes into the
buffer.  The ghost chunk record is appended. -/
def fillHeader (crc : List Nat → Nat) (last : Bool) (st : WState) :
    Option WState :=
  if st.i + headerSize > st.j ∨ st.j > blockSize then none
  else
    some { st with
      buf := finalizedBuf crc last st
      chunks := st.chunks ++ [(st.blocksDone, st.i, st.j)] }

/-- `Writer.writeBlock`: emit `buf[written:]` to the underlying writer
and reserve the next chunk's header at the start of a fresh block. -/
def writeBlock (st : WState) : WState :=
  { st with
    out := st.out ++ st.buf.drop st.written
    i := 0
    j := headerSize
    written := 0
    blocksDone := st.blocksDone + 1 }

/-- `Writer.writePending`: finalize a pending chunk as terminal and
emit `buf[written:j]`.  A closed writer returns unchanged (its sticky
error short-circuits). -/
def writePending (crc : List Nat → Nat) (st : WState) : Option WState :=
  if st.closed then some st
  else
    (if st.pending then (fillHeader crc true st).map fun s => { s with pending := false }
      else some st).map fun st1 =>
      { st1 with
        out := st1.out ++ (st1.buf.drop st1.written).take (st1.j - st1.written)
        written := st1.j }

/-- `Writer.Close`. -/
def wClose (crc : List Nat → Nat) (st : WState) : Option (WState × Option JErr) :=
  (writePending crc { st with seq := st.seq + 1 }).map fun st1 =>
    if st1.closed then (st1, some .closedWriter)
    else ({ st1 with closed := true }, none)

/-- `Writer.Flush` (the optional underlying flusher is a no-op in the
model, the underlying writer being a byte list). -/
def wFlush (crc : List Nat → Nat) (st : WState) : Option (WState × Option JErr) :=
  (writePending crc { st with seq := st.seq + 1 }).map fun st1 =>
    if st1.closed then (st1, some .closedWriter) else (st1, none)

/-- Zero `buf[k]` for `i ≤ k < blockSize` (the padding loop in
`Writer.Next`). -/
def zeroFrom (b : List Nat) (k : Nat) : List Nat :=
  b.take k ++ List.replicate (blockSize - k) 0

/-- `Writer.Next`: bump `seq`; fail if closed; finalize a pending chunk
as terminal; reserve the next header; when the reservation overflows
the block, zero-pad the tail and flush the block.  Returns the captured
sequence number of the fresh `singleWriter` session. -/
def wNext (crc : List Nat → Nat) (st : WState) : Option (WState × Except JErr Nat) :=
  if st.closed then some ({ st with seq := st.seq + 1 }, .error .closedWriter)
  else
    (if st.pending then fillHeader crc true { st with seq := st.seq + 1 }
      else some { st with seq := st.seq + 1 }).map fun st1 =>
      let st2 := { st1 with i := st1.j, j := st1.j + headerSize }
      let st3 := if st2.j > blockSize then
          writeBlock { st2 with buf := zeroFrom st2.buf st2.i } else st2
      ({ st3 with first := true, pending := true }, .ok st3.seq)

/-- Copy `xs` over `b` starting at offset `p` (`copy(buf[j:], p)`). -/
def spliceAt (b : List Nat) (p : Nat) (xs : List Nat) : List Nat :=
  b.take p ++ xs ++ b.drop (p + xs.length)

/-- One copy step of `singleWriter.Write`: `n := copy(buf[j:], p)`
moves `min(blockSize - j, len(p))` bytes into the buffer and advances
`j`; returns the new state and the remaining input. -/
def swCopy (st1 : WState) (p : List Nat) : WState × List Nat :=
  ({ st1 with
      buf := spliceAt st1.buf st1.j (p.take (min (blockSize - st1.j) p.length))
      j := st1.j + min (blockSize - st1.j) p.length },
    p.drop (min (blockSize - st1.j) p.length))

/-- The copy loop of `singleWriter.Write`: when the buffer is full,
finalize the running chunk as non-terminal and flush the block; then
copy as many bytes as fit.  A copy that cannot make progress is the Go
slice-bounds panic (`j` beyond the buffer), modelled as `none`. -/
def swWriteLoop (crc : List Nat → Nat) (st : WState) (p : List Nat) :
    Option WState :=
  if hp : p.length = 0 then some st
  else
    (if st.j = blockSize then
        (fillHeader crc false st).map fun s => { writeBlock s with first := false }
      else some st).bind fun st1 =>
      if hm : min (blockSize - st1.j) p.length = 0 then none
      else swWriteLoop crc (swCopy st1 p).1 (swCopy st1 p).2
termination_by p.length
decreasing_by
  simp only [swCopy, List.length_drop]
  omega

/-- `singleWriter.Write`: staleness and sticky-error checks, then the
copy loop; on success the full input length is reported written. -/
def swWrite (crc : List Nat → Nat) (sess : Nat) (st : WState) (p : List Nat) :
    Option (WState × Except JErr Nat) :=
  if st.seq ≠ sess then some (st, .error .staleWriter)
  else if st.closed then some (st, .error .closedWriter)
  else (swWriteLoop crc st p).map fun st1 => (st1, .ok p.length)

/-- Writing one journal the way the package documentation's `write`
example does: `Next` to open a session, then a single `Write` with the
whole journal. -/
def writeJournal1 (crc : List Nat → Nat) (st : WState) (p : List Nat) :
    Option WState :=
  (wNext crc st).bind fun r =>
    match r with
    | (_, .error _) => none
    | (st1, .ok sess) =>
      (swWrite crc sess st1 p).bind fun r2 =>
        match r2 with
        | (st2, .ok _) => some st2
        | (_, .error _) => none

/-- Writing a list of journals then `Close`, as the package
documentation's `write` example does; returns the byte stream handed to
the underlying writer. -/
def writeJournals (crc : List Nat → Nat) (js : List (List Nat)) :
    Option (List Nat) :=
  (js.foldlM (writeJournal1 crc) newWriter).bind fun st =>
    (wClose crc st).bind fun r =>
      match r with
      | (st1, none) => some st1.out
      | (_, some _) => none

/-- The writer operations a caller can issue, for stating invariants
over arbitrary call sequences.  `write` uses the most recently issued
session (a stale session's `Write` only returns an error and changes
nothing, as proved separately). -/
inductive WOp where
  | next
  | write (p : List Nat)
  | flush
  | close
  deriving DecidableEq, Repr

def wopStep (crc : List Nat → Nat) (st : WState) (op : WOp) : Option WState :=
  match op with
  | .next => (wNext crc st).map fun r => r.1
  | .write p => (swWrite crc st.seq st p).map fun r => r.1
  | .flush => (wFlush crc st).map fun r => r.1
  | .close => (wClose crc st).map fun r => r.1

def wopFold (crc : List Nat → Nat) (ops : List WOp) : Option WState :=
  ops.foldlM (wopStep crc) newWriter

section SeqLemmas

lemma fillHeader_seq {crc : List Nat → Nat} {last : Bool} {st st1 : WState}
    (h : fillHeader crc last st = some st1) :
    st1.seq = st.seq ∧ st1.closed = st.closed := by
  unfold fillHeader at h
  split_ifs at h <;>
    first
      | (exact Option.noConfusion h)
      | (injection h with h1; subst h1; exact ⟨rfl, rfl⟩)

lemma writePending_seq {crc : List Nat → Nat} {st st1 : WState}
    (h : writePending crc st = some st1) :
    st1.seq = st.seq ∧ st1.closed = st.closed := by
  unfold writePending at h
  split_ifs at h with hc hp
  · injection h with h1
    subst h1
    exact ⟨rfl, rfl⟩
  · cases hfh : fillHeader crc true st with
    | none =>
      rw [hfh] at h
      exact Option.noConfusion h
    | some s2 =>
      rw [hfh] at h
      injection h with h1
      subst h1
      have hfs := fillHeader_seq hfh
      exact ⟨hfs.1, hfs.2⟩
  · injection h with h1
    subst h1
    exact ⟨rfl, rfl⟩

lemma wNext_seq {crc : List Nat → Nat} {st : WState}
    {r : WState × Except JErr Nat} (h : wNext crc st = some r) :
    r.1.seq = st.seq + 1 := by
  unfold wNext at h
  split_ifs at h with hc hp
  · injection h with h1
    subst h1
    rfl
  · cases hfh : fillHeader crc true { st with seq := st.seq + 1 } with
    | none =>
      rw [hfh] at h
      exact Option.noConfusion h
    | some s2 =>
      rw [hfh] at h
      injection h with h1
      subst h1
      have hs := (fillHeader_seq hfh).1
      dsimp only
      split_ifs <;> simpa using hs
  · injection h with h1
    subst h1
    dsimp only
    split_ifs <;> rfl

lemma wFlush_seq {crc : List Nat → Nat} {st : WState}
    {r : WState × Option JErr} (h : wFlush crc st = some r) :
    r.1.seq = st.seq + 1 := by
  unfold wFlush at h
  cases hwp : writePending crc { st with seq := st.seq + 1 } with
  | none => rw [hwp] at h; cases h
  | some s2 =>
    rw [hwp] at h
    injection h with h1
    subst h1
    have hs := (writePending_seq hwp).1
    dsimp only
    split_ifs <;> simpa using hs

lemma wClose_seq {crc : List Nat → Nat} {st : WState}
    {r : WState × Option JErr} (h : wClose crc st = some r) :
    r.1.seq = st.seq + 1 := by
  unfold wClose at h
  cases hwp : writePending crc { st with seq := st.seq + 1 } with
  | none => rw [hwp] at h; cases h
  | some s2 =>
    rw [hwp] at h
    injection h with h1
    subst h1
    have hs := (writePending_seq hwp).1
    dsimp only
    split_ifs <;> simpa using hs

end SeqLemmas

/-- C5: reaching a non-full, non-empty final block (or reading zero
bytes) while expecting a continuation chunk is corruption reported as
"missing chunk part" — sticky and fatal in strict mode, surfaced as
`io.ErrUnexpectedEOF` by the session read otherwise — while the same
situation while seeking the first chunk of a fresh journal is a clean
`io.EOF` with no dropper report. -/
theorem missing_chunk_vs_eof (crc : List Nat → Nat) (cap : Nat) (st : RState)
    (x : SReader)
    (hpart : st.j + headerSize > st.n)
    (hcase : (0 < st.n ∧ st.n < blockSize) ∨
      ((st.n = 0 ∨ st.n = blockSize) ∧ st.input = []))
    (hx : x.seq = st.seq) (hxe : x.err = none) (hre : st.err = none)
    (hij : st.i = st.j) (hlast : st.last = false) :
    (srRead crc cap st x).2.2.2 =
      some (if st.strict then JErr.corrupted 0 .missingChunkPart
        else JErr.unexpectedEOF) ∧
    (nextChunk crc false st).1.drops = st.drops ++ [(0, .missingChunkPart)] ∧
    (st.strict = true →
      (nextChunk crc false st).1.err = some (.corrupted 0 .missingChunkPart)) ∧
    (nextChunk crc true st).2 = some .eof ∧
    (nextChunk crc true st).1.err = some .eof ∧
    (nextChunk crc true st).1.drops = st.drops := by
  have hnothdr : ¬ st.j + headerSize ≤ st.n := by omega
  have hread : ∀ (first : Bool),
      nextChunk crc first st =
        if first = false then corruptR 0 .missingChunkPart false st
        else ({ st with err := some .eof }, some .eof) := by
    intro first
    unfold nextChunk
    rw [if_neg hnothdr]
    rcases hcase with ⟨hn0, hnb⟩ | ⟨hne, hinput⟩
    · rw [if_pos ⟨hnb, hn0⟩]
      rfl
    · have hc2 : ¬(st.n < blockSize ∧ 0 < st.n) := by
        rintro ⟨hlt, hpos⟩
        rcases hne with h | h
        · omega
        · rw [h] at hlt
          exact Nat.lt_irrefl _ hlt
      rw [if_neg hc2, hinput]
      rw [if_pos (by simp)]
  have hfalse := hread false
  rw [if_pos rfl] at hfalse
  have htrue := hread true
  rw [if_neg (by simp)] at htrue
  refine ⟨?_, ?_, ?_, ?_, ?_, ?_⟩
  · unfold srRead
    rw [if_neg (by omega), if_neg (by rw [hxe]; simp), if_neg (by rw [hre]; simp)]
    rw [rdAdvance.eq_def, if_pos hij, if_neg (by rw [hlast]; simp)]
    rw [hfalse, corruptR_pair]
    by_cases hstrict : st.strict = true
    · rw [if_pos ⟨hstrict, rfl⟩]
      dsimp only
      rw [if_neg (by simp), if_neg (by simp), hstrict]
      simp
    · rw [if_neg (by simp [hstrict])]
      dsimp only
      rw [if_pos rfl, if_neg (by simp)]
      simp [Bool.not_eq_true] at hstrict
      rw [hstrict]
      simp
  · rw [hfalse, corruptR_pair]
    split_ifs <;> rfl
  · intro hstrict
    rw [hfalse, corruptR_pair, if_pos ⟨hstrict, rfl⟩]
  · rw [htrue]
  · rw [htrue]
  · rw [htrue]

/-- Witness for C5: a three-byte final partial block while a journal is
in progress (strict mode on one side of the `if`). -/
theorem missing_chunk_vs_eof_witness :
    ((srRead (fun _ => 0) 10
        ⟨[], true, true, 5, 3, 3, 3, false, none, [1, 2, 3], []⟩
        ⟨5, none⟩).2.2.2 =
      some (if (true : Bool) then JErr.corrupted 0 .missingChunkPart
        else JErr.unexpectedEOF)) ∧
    (nextChunk (fun _ => 0) false
        ⟨[], true, true, 5, 3, 3, 3, false, none, [1, 2, 3], []⟩).1.drops =
      [] ++ [(0, .missingChunkPart)] ∧
    ((true : Bool) = true →
      (nextChunk (fun _ => 0) false
        ⟨[], true, true, 5, 3, 3, 3, false, none, [1, 2, 3], []⟩).1.err =
        some (.corrupted 0 .missingChunkPart)) ∧
    (nextChunk (fun _ => 0) true
        ⟨[], true, true, 5, 3, 3, 3, false, none, [1, 2, 3], []⟩).2 =
      some .eof ∧
    (nextChunk (fun _ => 0) true
        ⟨[], true, true, 5, 3, 3, 3, false, none, [1, 2, 3], []⟩).1.err =
      some .eof ∧
    (nextChunk (fun _ => 0) true
        ⟨[], true, true, 5, 3, 3, 3, false, none, [1, 2, 3], []⟩).1.drops =
      [] :=
  missing_chunk_vs_eof (fun _ => 0) 10 _ _ (by decide)
    (Or.inl (by constructor <;> decide)) (by decide) (by decide) (by decide)
    (by decide) (by decide)

/-- C6: a Middle or Last chunk found where a journal start was expected
(an orphan) is reported to the dropper and skipped with `errSkip`: the
reader's sticky error is untouched even in strict mode, and the
first-chunk search just continues from the skipped position. -/
theorem orphan_chunk_skipped (crc : List Nat → Nat) (st : RState)
    (hhdr : st.j + headerSize ≤ st.n)
    (hty : st.buf.getD (st.j + 6) 0 = middleChunkType ∨
      st.buf.getD (st.j + 6) 0 = lastChunkType)
    (hlen : st.j + headerSize + readLE16 (st.buf.getD (st.j + 4) 0)
      (st.buf.getD (st.j + 5) 0) ≤ st.n)
    (hck : st.checksum = true →
      readLE32 (st.buf.getD st.j 0) (st.buf.getD (st.j + 1) 0)
          (st.buf.getD (st.j + 2) 0) (st.buf.getD (st.j + 3) 0) =
        crc ((st.buf.drop (st.j + headerSize - 1)).take
          (st.j + headerSize + readLE16 (st.buf.getD (st.j + 4) 0)
            (st.buf.getD (st.j + 5) 0) - (st.j + headerSize - 1))) % U32) :
    (nextChunk crc true st).2 = some .errSkip ∧
    (nextChunk crc true st).1.err = st.err ∧
    (nextChunk crc true st).1.drops = st.drops ++
      [(readLE16 (st.buf.getD (st.j + 4) 0) (st.buf.getD (st.j + 5) 0) +
        headerSize, .orphanChunk)] ∧
    seekFirst crc st = seekFirst crc (nextChunk crc true st).1 := by
  have htyn : st.buf.getD (st.j + 6) 0 = 3 ∨ st.buf.getD (st.j + 6) 0 = 4 := by
    rcases hty with h | h <;> [left; right] <;> exact h
  have hnc : nextChunk crc true st =
      corruptR (st.j + headerSize + readLE16 (st.buf.getD (st.j + 4) 0)
          (st.buf.getD (st.j + 5) 0) - (st.j + headerSize) + headerSize)
        .orphanChunk true
        { st with
          i := st.j + headerSize + readLE16 (st.buf.getD (st.j + 4) 0)
            (st.buf.getD (st.j + 5) 0)
          j := st.j + headerSize + readLE16 (st.buf.getD (st.j + 4) 0)
            (st.buf.getD (st.j + 5) 0) } := by
    unfold nextChunk
    rw [if_pos hhdr]
    unfold headerStep
    dsimp only
    rw [if_neg (by rintro ⟨-, -, h0⟩; rcases htyn with h | h <;> omega)]
    rw [if_neg (by simp only [fullChunkType, lastChunkType]; rintro (h | h) <;>
      rcases htyn with h2 | h2 <;> omega)]
    rw [if_neg (by omega)]
    rw [if_neg (by rintro ⟨hflag, hne⟩; exact hne (hck hflag))]
    rw [if_pos ⟨rfl, by simp only [fullChunkType, firstChunkType]; constructor <;>
      (rcases htyn with h2 | h2 <;> omega)⟩]
  have hrec : nextChunk crc true st =
      ({ st with
          i := st.j + headerSize + readLE16 (st.buf.getD (st.j + 4) 0)
            (st.buf.getD (st.j + 5) 0)
          j := st.j + headerSize + readLE16 (st.buf.getD (st.j + 4) 0)
            (st.buf.getD (st.j + 5) 0)
          drops := st.drops ++
            [(readLE16 (st.buf.getD (st.j + 4) 0) (st.buf.getD (st.j + 5) 0) +
              headerSize, .orphanChunk)] }, some .errSkip) := by
    rw [hnc, corruptR_pair, if_neg (by simp)]
    rw [Nat.add_sub_cancel_left]
  refine ⟨by rw [hrec], by rw [hrec], by rw [hrec], ?_⟩
  conv_lhs => rw [seekFirst.eq_def, hrec]
  rw [hrec]
  simp

/-- Witness for C6: a checksummed strict reader sitting on a valid
Middle chunk of length 2 at the start of its journal search. -/
theorem orphan_chunk_skipped_witness :
    (nextChunk (fun _ => 5) true
        ⟨[], true, true, 1, 0, 0, 9, true, none, [5, 0, 0, 0, 2, 0, 3, 9, 9], []⟩).2 =
      some .errSkip ∧
    (nextChunk (fun _ => 5) true
        ⟨[], true, true, 1, 0, 0, 9, true, none, [5, 0, 0, 0, 2, 0, 3, 9, 9], []⟩).1.err =
      none ∧
    (nextChunk (fun _ => 5) true
        ⟨[], true, true, 1, 0, 0, 9, true, none, [5, 0, 0, 0, 2, 0, 3, 9, 9], []⟩).1.drops =
      [] ++ [(readLE16 2 0 + headerSize, .orphanChunk)] ∧
    seekFirst (fun _ => 5)
        ⟨[], true, true, 1, 0, 0, 9, true, none, [5, 0, 0, 0, 2, 0, 3, 9, 9], []⟩ =
      seekFirst (fun _ => 5)
        (nextChunk (fun _ => 5) true
          ⟨[], true, true, 1, 0, 0, 9, true, none, [5, 0, 0, 0, 2, 0, 3, 9, 9], []⟩).1 := by
  have h := orphan_chunk_skipped (fun _ => 5)
    ⟨[], true, true, 1, 0, 0, 9, true, none, [5, 0, 0, 0, 2, 0, 3, 9, 9], []⟩
    (by decide) (by decide) (by decide) (by decide)
  exact ⟨h.1, h.2.1, h.2.2.1, h.2.2.2⟩

/-- C8: a stale session (captured `seq` differing from the parent's
current `seq`) fails `Write`/`Read` with a staleness error distinct
from corruption, leaving the parent unchanged; and every
`Next`/`Flush`/`Close` advances the parent's `seq`, so sessions issued
before such a call are stale afterwards. -/
theorem stale_sessions (crc : List Nat → Nat) :
    (∀ (st : WState) (sess : Nat) (p : List Nat), st.seq ≠ sess →
      swWrite crc sess st p = some (st, .error .staleWriter)) ∧
    (∀ (cap : Nat) (rst : RState) (x : SReader), rst.seq ≠ x.seq →
      srRead crc cap rst x = (rst, x, [], some .staleReader)) ∧
    (∀ (st : WState) (r : WState × Except JErr Nat), wNext crc st = some r →
      r.1.seq = st.seq + 1) ∧
    (∀ (st : WState) (r : WState × Option JErr), wFlush crc st = some r →
      r.1.seq = st.seq + 1) ∧
    (∀ (st : WState) (r : WState × Option JErr), wClose crc st = some r →
      r.1.seq = st.seq + 1) ∧
    (∀ (rst : RState), (rNext crc rst).1.seq = rst.seq + 1) ∧
    (∀ (m : Nat) (reason : CorruptReason),
      JErr.staleWriter ≠ .corrupted m reason ∧
      JErr.staleReader ≠ .corrupted m reason) := by
  refine ⟨?_, ?_, fun st r h => wNext_seq h, fun st r h => wFlush_seq h,
    fun st r h => wClose_seq h, ?_, by intro m reason; exact ⟨by simp, by simp⟩⟩
  · intro st sess p h
    unfold swWrite
    rw [if_pos h]
  · intro cap rst x h
    unfold srRead
    rw [if_pos h]
  · intro rst
    unfold rNext
    split
    · rfl
    · rcases hsf : seekFirst crc { rst with seq := rst.seq + 1, i := rst.j }
        with ⟨st1, r1⟩
      have hs := seekFirst_seq hsf
      cases r1 <;> simpa using hs

/-- Witness for C8 at concrete stale sessions. -/
theorem stale_sessions_witness :
    swWrite (fun _ => 0) 0 { newWriter with seq := 1 } [7] =
      some ({ newWriter with seq := 1 }, .error .staleWriter) ∧
    srRead (fun _ => 0) 10 { newReader [] false false with seq := 2 }
        ⟨1, none⟩ =
      ({ newReader [] false false with seq := 2 }, ⟨1, none⟩, [],
        some .staleReader) :=
  ⟨(stale_sessions (fun _ => 0)).1 _ 0 [7] (by decide),
    (stale_sessions (fun _ => 0)).2.1 10 _ ⟨1, none⟩ (by decide)⟩

section WriterInvariant

/-- The writer's block-packing invariant: the block buffer stays one
block long, the flushed prefix `written` never passes the write cursor
`j`, which never passes the block end, the bytes handed to the
underlying writer always amount to `blocksDone` complete blocks plus
the `written` prefix of the current one, and every finalized chunk
occupies a range `[i, j)` with its full header inside one block. -/
def WInv (st : WState) : Prop :=
  st.buf.length = blockSize ∧ st.written ≤ st.j ∧ st.j ≤ blockSize ∧
    st.out.length = blockSize * st.blocksDone + st.written ∧
    ∀ c ∈ st.chunks, c.2.1 + headerSize ≤ c.2.2 ∧ c.2.2 ≤ blockSize

lemma length_setLE32 (b : List Nat) (p v : Nat) :
    (setLE32 b p v).length = b.length := by
  simp [setLE32]

lemma length_setLE16 (b : List Nat) (p v : Nat) :
    (setLE16 b p v).length = b.length := by
  simp [setLE16]

lemma fillHeader_inv {crc : List Nat → Nat} {last : Bool} {st st1 : WState}
    (h : fillHeader crc last st = some st1) (hw : WInv st) :
    WInv st1 ∧ st1.j = st.j ∧ st1.i = st.i ∧ st1.written = st.written ∧
      st1.out = st.out ∧ st1.blocksDone = st.blocksDone ∧
      st1.closed = st.closed ∧ st1.pending = st.pending := by
  obtain ⟨hb, hwj, hjb, ho, hc⟩ := hw
  unfold fillHeader at h
  split_ifs at h with hg <;>
    first
      | exact Option.noConfusion h
      | (injection h with h1
         subst h1
         push_neg at hg
         exact ⟨⟨by simp [finalizedBuf, length_setLE16, length_setLE32, hb], hwj, hjb, ho, by
           intro c hcm
           rcases List.mem_append.mp hcm with hold | hnew
           · exact hc c hold
           · rcases List.mem_singleton.mp hnew with rfl
             exact ⟨hg.1, hg.2⟩⟩, rfl, rfl, rfl, rfl, rfl, rfl, rfl⟩)

lemma writeBlock_inv {st : WState} (hb : st.buf.length = blockSize)
    (hwr : st.written ≤ blockSize)
    (ho : st.out.length = blockSize * st.blocksDone + st.written)
    (hc : ∀ c ∈ st.chunks, c.2.1 + headerSize ≤ c.2.2 ∧ c.2.2 ≤ blockSize) :
    WInv (writeBlock st) := by
  refine ⟨hb, by simp [writeBlock, headerSize],
    by simp [writeBlock, blockSize, headerSize], ?_, fun c hcm => hc c hcm⟩
  simp only [writeBlock, List.length_append, List.length_drop]
  rw [ho, hb]
  ring_nf
  omega

lemma writePending_inv {crc : List Nat → Nat} {st st1 : WState}
    (h : writePending crc st = some st1) (hw : WInv st) : WInv st1 := by
  unfold writePending at h
  split_ifs at h with hcl hp
  · injection h with h1
    subst h1
    exact hw
  · cases hfh : fillHeader crc true st with
    | none =>
      rw [hfh] at h
      exact Option.noConfusion h
    | some s2 =>
      rw [hfh] at h
      injection h with h1
      subst h1
      obtain ⟨⟨hb, hwj, hjb, ho, hc⟩, -⟩ := fillHeader_inv hfh hw
      refine ⟨hb, Nat.le_refl _, hjb, ?_, fun c hcm => hc c hcm⟩
      dsimp only
      simp only [List.length_append, List.length_take, List.length_drop]
      rw [ho, hb]
      omega
  · injection h with h1
    subst h1
    obtain ⟨hb, hwj, hjb, ho, hc⟩ := hw
    refine ⟨hb, Nat.le_refl _, hjb, ?_, fun c hcm => hc c hcm⟩
    dsimp only
    simp only [List.length_append, List.length_take, List.length_drop]
    rw [ho, hb]
    omega

lemma wClose_inv {crc : List Nat → Nat} {st : WState} {r : WState × Option JErr}
    (h : wClose crc st = some r) (hw : WInv st) : WInv r.1 := by
  unfold wClose at h
  cases hwp : writePending crc { st with seq := st.seq + 1 } with
  | none => rw [hwp] at h; exact Option.noConfusion h
  | some s2 =>
    rw [hwp] at h
    injection h with h1
    subst h1
    have hw2 : WInv s2 := writePending_inv hwp hw
    dsimp only
    split_ifs <;> exact hw2

lemma wFlush_inv {crc : List Nat → Nat} {st : WState} {r : WState × Option JErr}
    (h : wFlush crc st = some r) (hw : WInv st) : WInv r.1 := by
  unfold wFlush at h
  cases hwp : writePending crc { st with seq := st.seq + 1 } with
  | none => rw [hwp] at h; exact Option.noConfusion h
  | some s2 =>
    rw [hwp] at h
    injection h with h1
    subst h1
    have hw2 : WInv s2 := writePending_inv hwp hw
    dsimp only
    split_ifs <;> exact hw2

lemma zeroFrom_length {b : List Nat} {k : Nat} (hb : b.length = blockSize)
    (hk : k ≤ blockSize) : (zeroFrom b k).length = blockSize := by
  simp only [zeroFrom, List.length_append, List.length_take,
    List.length_replicate]
  omega

lemma wNext_inv {crc : List Nat → Nat} {st : WState}
    {r : WState × Except JErr Nat} (h : wNext crc st = some r) (hw : WInv st) :
    WInv r.1 := by
  unfold wNext at h
  split_ifs at h with hcl hp
  · injection h with h1
    subst h1
    exact hw
  · cases hfh : fillHeader crc true { st with seq := st.seq + 1 } with
    | none =>
      rw [hfh] at h
      exact Option.noConfusion h
    | some s2 =>
      rw [hfh] at h
      injection h with h1
      subst h1
      obtain ⟨⟨hb, hwj, hjb, ho, hc⟩, -⟩ := fillHeader_inv hfh hw
      dsimp only
      split_ifs with hov <;> (try dsimp only at hov)
      · have hww : WInv (writeBlock { s2 with
            i := s2.j
            j := s2.j + headerSize
            buf := zeroFrom s2.buf s2.j }) :=
          writeBlock_inv (zeroFrom_length hb hjb)
            (by first | omega | (dsimp only; omega)) ho (fun c hcm => hc c hcm)
        exact hww
      · exact ⟨hb, by first | omega | (dsimp only; omega),
          by first | omega | (dsimp only; omega), ho, fun c hcm => hc c hcm⟩
  · injection h with h1
    subst h1
    obtain ⟨hb, hwj, hjb, ho, hc⟩ := hw
    dsimp only
    split_ifs with hov <;> (try dsimp only at hov)
    · have hww : WInv (writeBlock { st with
          seq := st.seq + 1
          i := st.j
          j := st.j + headerSize
          buf := zeroFrom st.buf st.j }) :=
        writeBlock_inv (zeroFrom_length hb hjb)
          (by first | omega | (dsimp only; omega)) ho (fun c hcm => hc c hcm)
      exact hww
    · exact ⟨hb, by first | omega | (dsimp only; omega),
        by first | omega | (dsimp only; omega), ho, fun c hcm => hc c hcm⟩

lemma spliceAt_length {b : List Nat} {p : Nat} (xs : List Nat)
    (h : p + xs.length ≤ b.length) : (spliceAt b p xs).length = b.length := by
  simp only [spliceAt, List.length_append, List.length_take, List.length_drop]
  omega

lemma swCopy_inv {st1 : WState} {p : List Nat}
    (hw : WInv st1) (hm : min (blockSize - st1.j) p.length ≠ 0) :
    WInv (swCopy st1 p).1 ∧ (swCopy st1 p).2.length < p.length := by
  obtain ⟨hb, hwj, hjb, ho, hc⟩ := hw
  have hmle : min (blockSize - st1.j) p.length ≤ blockSize - st1.j :=
    Nat.min_le_left _ _
  have hmp : min (blockSize - st1.j) p.length ≤ p.length :=
    Nat.min_le_right _ _
  constructor
  · refine ⟨?_, by dsimp only [swCopy]; omega, by dsimp only [swCopy]; omega,
      ho, fun c hcm => hc c hcm⟩
    dsimp only [swCopy]
    rw [spliceAt_length]
    · exact hb
    · rw [hb, List.length_take]
      omega
  · dsimp only [swCopy]
    rw [List.length_drop]
    omega

lemma swWriteLoop_inv_aux {crc : List Nat → Nat} :
    ∀ (N : Nat) {st st1 : WState} {p : List Nat}, p.length ≤ N →
      swWriteLoop crc st p = some st1 → WInv st → WInv st1 := by
  intro N
  induction N using Nat.strong_induction_on with
  | _ N ih =>
    intro st st1 p hN h hw
    rw [swWriteLoop] at h
    split_ifs at h with hp0 hjb
    · injection h with h1
      subst h1
      exact hw
    · cases hfh : fillHeader crc false st with
      | none =>
        rw [hfh] at h
        exact Option.noConfusion h
      | some s2 =>
        rw [hfh] at h
        obtain ⟨⟨hb2, hwj2, hjb2, ho2, hc2⟩, -⟩ := fillHeader_inv hfh hw
        have hw3 : WInv ({ writeBlock s2 with first := false } : WState) :=
          writeBlock_inv hb2 (by omega) ho2 (fun c hcm => hc2 c hcm)
        have h2 : (if hm : min (blockSize -
            ({ writeBlock s2 with first := false } : WState).j) p.length = 0
            then none
            else swWriteLoop crc
              (swCopy { writeBlock s2 with first := false } p).1
              (swCopy { writeBlock s2 with first := false } p).2) = some st1 := h
        split_ifs at h2 with hm
        obtain ⟨hwc, hlt⟩ := swCopy_inv hw3 hm
        exact ih ((swCopy { writeBlock s2 with first := false } p).2.length)
          (by omega) (Nat.le_refl _) h2 hwc
    · have h2 : (if hm : min (blockSize - st.j) p.length = 0 then none
          else swWriteLoop crc (swCopy st p).1 (swCopy st p).2) = some st1 := h
      split_ifs at h2 with hm
      obtain ⟨hwc, hlt⟩ := swCopy_inv hw hm
      exact ih ((swCopy st p).2.length) (by omega) (Nat.le_refl _) h2 hwc

lemma swWrite_inv {crc : List Nat → Nat} {sess : Nat} {st : WState}
    {p : List Nat} {r : WState × Except JErr Nat}
    (h : swWrite crc sess st p = some r) (hw : WInv st) : WInv r.1 := by
  unfold swWrite at h
  split_ifs at h with h1 h2
  · injection h with h1
    subst h1
    exact hw
  · injection h with h1
    subst h1
    exact hw
  · cases hl : swWriteLoop crc st p with
    | none => rw [hl] at h; exact Option.noConfusion h
    | some s2 =>
      rw [hl] at h
      injection h with h1
      subst h1
      exact swWriteLoop_inv_aux p.length (Nat.le_refl _) hl hw

lemma wopStep_inv {crc : List Nat → Nat} {st st1 : WState} {op : WOp}
    (h : wopStep crc st op = some st1) (hw : WInv st) : WInv st1 := by
  cases op with
  | next =>
    cases hn : wNext crc st with
    | none => rw [wopStep, hn] at h; exact Option.noConfusion h
    | some r =>
      rw [wopStep, hn] at h
      injection h with h1
      subst h1
      exact wNext_inv hn hw
  | write p =>
    cases hn : swWrite crc st.seq st p with
    | none => rw [wopStep, hn] at h; exact Option.noConfusion h
    | some r =>
      rw [wopStep, hn] at h
      injection h with h1
      subst h1
      exact swWrite_inv hn hw
  | flush =>
    cases hn : wFlush crc st with
    | none => rw [wopStep, hn] at h; exact Option.noConfusion h
    | some r =>
      rw [wopStep, hn] at h
      injection h with h1
      subst h1
      exact wFlush_inv hn hw
  | close =>
    cases hn : wClose crc st with
    | none => rw [wopStep, hn] at h; exact Option.noConfusion h
    | some r =>
      rw [wopStep, hn] at h
      injection h with h1
      subst h1
      exact wClose_inv hn hw

lemma newWriter_inv : WInv newWriter := by
  refine ⟨?_, Nat.le_refl 0, Nat.zero_le _, ?_, ?_⟩
  · show (List.replicate blockSize 0).length = blockSize
    rw [List.length_replicate]
  · show (0 : Nat) = blockSize * 0 + 0
    simp
  · intro c hcm
    exact absurd hcm (List.not_mem_nil c)

lemma foldlM_inv {crc : List Nat → Nat} :
    ∀ (ops : List WOp) (st : WState), WInv st →
      (ops.foldlM (wopStep crc) st).elim True WInv := by
  intro ops
  induction ops with
  | nil => intro st hw; simpa using hw
  | cons op rest ih =>
    intro st hw
    rw [List.foldlM_cons]
    cases hst : wopStep crc st op with
    | none => simp
    | some st1 =>
      simpa using ih st1 (wopStep_inv hst hw)

end WriterInvariant

/-- C2: over every sequence of writer operations, the bytes handed to
the underlying writer always amount to a whole number of complete
32768-byte blocks plus the already-flushed prefix of the final,
still-open block, and every chunk's 7-byte header plus payload lies
inside the single block it was laid out in (so no chunk crosses a
block boundary); the zero-padding of block tails too small for a
header is what keeps the emitted blocks exactly 32768 bytes long. -/
theorem writer_block_alignment (crc : List Nat → Nat) (ops : List WOp) :
    (wopFold crc ops).elim True fun st =>
      st.out.length = blockSize * st.blocksDone + st.written ∧
        st.written ≤ blockSize ∧
        ∀ c ∈ st.chunks, c.2.1 + headerSize ≤ c.2.2 ∧ c.2.2 ≤ blockSize := by
  have h := @foldlM_inv crc ops newWriter newWriter_inv
  rw [wopFold]
  cases hf : List.foldlM (wopStep crc) newWriter ops with
  | none => simp
  | some st =>
    rw [hf] at h
    simp only [Option.elim] at h ⊢
    obtain ⟨hb, hwj, hjb, ho, hc⟩ := h
    exact ⟨ho, by omega, hc⟩

section Encoder

/-- The on-wire bytes of one chunk header for payload `pl` and type
byte `ty`: little-endian checksum over `ty :: pl`, little-endian
payload length, type byte. -/
def encHeader (crc : List Nat → Nat) (ty : Nat) (pl : List Nat) : List Nat :=
  le32 (crc (ty :: pl) % U32) ++ le16 pl.length ++ [ty]

/-- One whole chunk: header then payload. -/
def encChunk (crc : List Nat → Nat) (ty : Nat) (pl : List Nat) : List Nat :=
  encHeader crc ty pl ++ pl

/-- The chunk sequence the writer produces for one journal `p` whose
first chunk's header starts at block offset `i`: the first chunk takes
as much payload as fits before the block end, later chunks start at
offset 0 of fresh blocks.  Returns the bytes and the block offset just
past the final chunk. -/
def encChunks (crc : List Nat → Nat) (first : Bool) (i : Nat) (p : List Nat) :
    List Nat × Nat :=
  if p.length ≤ blockSize - (i + headerSize) then
    (encChunk crc (chunkTy true first) p, i + headerSize + p.length)
  else
    let r := encChunks crc false 0 (p.drop (blockSize - (i + headerSize)))
    (encChunk crc (chunkTy false first) (p.take (blockSize - (i + headerSize))) ++ r.1,
      r.2)
termination_by p.length + (if blockSize - (i + headerSize) = 0 then 1 else 0)
decreasing_by
  simp_wf
  have hbh : ¬ (blockSize - headerSize = 0) := by simp [blockSize, headerSize]
  rw [if_neg hbh]
  by_cases hc : blockSize - (i + headerSize) = 0
  · rw [if_pos hc, hc]
    omega
  · rw [if_neg hc]
    omega

/-- The byte stream the writer produces for a list of journals, with
the running block offset `o` (the end of the previous journal's final
chunk inside the current block): if even a bare header does not fit
before the block end the writer zero-pads the tail and the journal
starts at offset 0 of the next block. -/
def encJournals (crc : List Nat → Nat) : Nat → List (List Nat) → List Nat
  | _, [] => []
  | o, p :: rest =>
    (if o + headerSize > blockSize then List.replicate (blockSize - o) 0 else []) ++
      (encChunks crc true (if o + headerSize > blockSize then 0 else o) p).1 ++
      encJournals crc (encChunks crc true (if o + headerSize > blockSize then 0 else o) p).2 rest

lemma length_le32 (v : Nat) : (le32 v).length = 4 := rfl

lemma length_le16 (v : Nat) : (le16 v).length = 2 := rfl

lemma length_encHeader (crc : List Nat → Nat) (ty : Nat) (pl : List Nat) :
    (encHeader crc ty pl).length = headerSize := rfl

lemma length_encChunk (crc : List Nat → Nat) (ty : Nat) (pl : List Nat) :
    (encChunk crc ty pl).length = headerSize + pl.length := by
  simp [encChunk, length_encHeader]

lemma readLE32_le32 (v : Nat) :
    readLE32 (v % 256) (v / 256 % 256) (v / 65536 % 256) (v / 16777216 % 256) =
      v % U32 := by
  simp only [readLE32, U32]
  omega

lemma readLE16_le16 (v : Nat) : readLE16 (v % 256) (v / 256 % 256) = v % 65536 := by
  simp only [readLE16]
  omega

lemma le16_mod (v : Nat) : le16 (v % 65536) = le16 v := by
  simp only [le16, List.cons.injEq, and_true]
  refine ⟨by omega, by omega⟩

section Splice

lemma set_eq_spliceAt {b : List Nat} {k a : Nat} (hk : k < b.length) :
    b.set k a = spliceAt b k [a] := by
  rw [List.set_eq_take_cons_drop a hk]
  simp [spliceAt]

lemma take_spliceAt {b : List Nat} {p : Nat} {xs : List Nat} {q : Nat}
    (h : q ≤ p) (hp : p ≤ b.length) :
    (spliceAt b p xs).take q = b.take q := by
  have h1 : (b.take p).length = p := by rw [List.length_take]; omega
  have hA : q - (b.take p ++ xs).length = 0 := by
    rw [List.length_append, h1]; omega
  have hq : q - (b.take p).length = 0 := by rw [h1]; omega
  rw [spliceAt, List.take_append_eq_append_take, hA, List.take_zero,
    List.append_nil, List.take_append_eq_append_take, hq, List.take_zero,
    List.append_nil, List.take_take, min_eq_left h]

lemma drop_spliceAt_start {b : List Nat} {p : Nat} {xs : List Nat}
    (hp : p ≤ b.length) :
    (spliceAt b p xs).drop p = xs ++ b.drop (p + xs.length) := by
  have h1 : (b.take p).length = p := by rw [List.length_take]; omega
  rw [spliceAt, List.append_assoc, List.drop_left' h1]

lemma drop_spliceAt_end {b : List Nat} {p : Nat} {xs : List Nat}
    (hp : p ≤ b.length) :
    (spliceAt b p xs).drop (p + xs.length) = b.drop (p + xs.length) := by
  have h1 : (b.take p).length = p := by rw [List.length_take]; omega
  have h2 : (b.take p ++ xs).length = p + xs.length := by
    rw [List.length_append, h1]
  rw [spliceAt, List.drop_left' h2]

lemma spliceAt_extract {b : List Nat} {p : Nat} {xs : List Nat}
    (hp : p ≤ b.length) :
    ((spliceAt b p xs).drop p).take xs.length = xs := by
  rw [drop_spliceAt_start hp, List.take_left]

lemma segment_spliceAt {b : List Nat} {p w q : Nat} {xs : List Nat}
    (hq : q ≤ p) (hp : p ≤ b.length) :
    ((spliceAt b p xs).drop w).take (q - w) = (b.drop w).take (q - w) := by
  rw [← List.drop_take, ← List.drop_take, take_spliceAt hq hp]

lemma splice_snoc {b : List Nat} {p : Nat} {xs : List Nat} {a : Nat}
    (h : p + xs.length < b.length) :
    (spliceAt b p xs).set (p + xs.length) a = spliceAt b p (xs ++ [a]) := by
  have hp : p ≤ b.length := by omega
  have h1 : (b.take p).length = p := by rw [List.length_take]; omega
  have h2 : (b.take p ++ xs).length = p + xs.length := by
    rw [List.length_append, h1]
  have hlen : p + xs.length < (spliceAt b p xs).length := by
    rw [spliceAt_length xs (by omega)]; exact h
  rw [set_eq_spliceAt hlen]
  have h3 : (spliceAt b p xs).take (p + xs.length) = b.take p ++ xs := by
    rw [spliceAt]; exact List.take_left' h2
  have hle : (b.take p ++ xs).length ≤ p + xs.length + 1 := by rw [h2]; omega
  have h6 : p + xs.length + 1 - (p + xs.length) = 1 := by omega
  have h4 : (spliceAt b p xs).drop (p + xs.length + 1) =
      b.drop (p + xs.length + 1) := by
    rw [spliceAt, List.drop_append_eq_append_drop, h2,
      List.drop_eq_nil_of_le hle, List.nil_append, h6, List.drop_drop]
  have h5 : p + (xs ++ [a]).length = p + xs.length + 1 := by simp; omega
  show (spliceAt b p xs).take (p + xs.length) ++ [a] ++
      (spliceAt b p xs).drop (p + xs.length + 1) = spliceAt b p (xs ++ [a])
  rw [h3, h4, spliceAt, h5]
  simp [List.append_assoc]

lemma setLE_chain (b : List Nat) (i C L : Nat) (h : i + 6 ≤ b.length) :
    setLE16 (setLE32 b i C) (i + 4) L =
      spliceAt b i [C % 256, C / 256 % 256, C / 65536 % 256, C / 16777216 % 256,
        L % 256, L / 256 % 256] := by
  have e0 : b.set i (C % 256) = spliceAt b i [C % 256] :=
    set_eq_spliceAt (by omega)
  have e1 := @splice_snoc b i [C % 256] (C / 256 % 256) (by simp; omega)
  have e2 := @splice_snoc b i [C % 256, C / 256 % 256] (C / 65536 % 256)
    (by simp; omega)
  have e3 := @splice_snoc b i [C % 256, C / 256 % 256, C / 65536 % 256]
    (C / 16777216 % 256) (by simp; omega)
  have e4 := @splice_snoc b i [C % 256, C / 256 % 256, C / 65536 % 256,
    C / 16777216 % 256] (L % 256) (by simp; omega)
  have e5 := @splice_snoc b i [C % 256, C / 256 % 256, C / 65536 % 256,
    C / 16777216 % 256, L % 256] (L / 256 % 256) (by simp; omega)
  simp only [List.length_cons, List.length_nil] at e1 e2 e3 e4 e5
  norm_num at e1 e2 e3 e4 e5
  have h45 : i + 4 + 1 = i + 5 := by omega
  rw [setLE16, setLE32, e0, e1, e2, e3, e4, h45, e5]

end Splice

/-- The payload bytes of the writer's pending chunk: `buf[i+7 : j]`. -/
def pendPayload (st : WState) : List Nat :=
  (st.buf.drop (st.i + headerSize)).take (st.j - (st.i + headerSize))

/-- The byte stream determined so far: everything already emitted plus
the finalized chunks still sitting in the buffer, `buf[written : i]`. -/
def committed (st : WState) : List Nat :=
  st.out ++ (st.buf.drop st.written).take (st.i - st.written)

/-- The stream the writer will have produced once the pending chunk is
finalized as terminal. -/
def pendView (crc : List Nat → Nat) (st : WState) : List Nat :=
  committed st ++ encChunk crc (chunkTy true st.first) (pendPayload st)

lemma pendPayload_length {st : WState} (h7 : st.i + headerSize ≤ st.j)
    (hjl : st.j ≤ st.buf.length) :
    (pendPayload st).length = st.j - (st.i + headerSize) := by
  rw [pendPayload, List.length_take, List.length_drop]
  simp only [headerSize] at *
  omega

/-- The structural invariant the `singleWriter.Write` refinement
maintains: a full-size buffer, the flush point before the pending
header, and the pending chunk `[i, j)` inside the block. -/
def WRefInv (st : WState) : Prop :=
  st.buf.length = blockSize ∧ st.written ≤ st.i ∧
    st.i + headerSize ≤ st.j ∧ st.j ≤ blockSize

lemma length_finalizedBuf (crc : List Nat → Nat) (last : Bool) (st : WState) :
    (finalizedBuf crc last st).length = st.buf.length := by
  simp [finalizedBuf, length_setLE16, length_setLE32, List.length_set]

lemma pendPayload_full {st : WState} (hb : st.buf.length = blockSize)
    (hj : st.j = blockSize) :
    pendPayload st = st.buf.drop (st.i + headerSize) := by
  rw [pendPayload]
  apply List.take_of_length_le
  rw [List.length_drop]
  omega

lemma encChunks_fits {crc : List Nat → Nat} {first : Bool} {i : Nat}
    {p : List Nat} (h : p.length ≤ blockSize - (i + headerSize)) :
    encChunks crc first i p =
      (encChunk crc (chunkTy true first) p, i + headerSize + p.length) := by
  rw [encChunks.eq_def, if_pos h]

lemma encChunks_split {crc : List Nat → Nat} {first : Bool} {i : Nat}
    {p : List Nat} (h : ¬ p.length ≤ blockSize - (i + headerSize)) :
    encChunks crc first i p =
      (encChunk crc (chunkTy false first) (p.take (blockSize - (i + headerSize))) ++
        (encChunks crc false 0 (p.drop (blockSize - (i + headerSize)))).1,
        (encChunks crc false 0 (p.drop (blockSize - (i + headerSize)))).2) := by
  rw [encChunks.eq_def, if_neg h]

lemma drop_spliceAt_le {b : List Nat} {p k : Nat} {xs : List Nat}
    (hk : k ≤ p) (hp : p ≤ b.length) :
    (spliceAt b p xs).drop k =
      (b.drop k).take (p - k) ++ xs ++ b.drop (p + xs.length) := by
  have h1 : (b.take p).length = p := by rw [List.length_take]; omega
  have h2 : (b.take p ++ xs).length = p + xs.length := by
    rw [List.length_append, h1]
  rw [spliceAt, List.drop_append_eq_append_drop, h2,
    Nat.sub_eq_zero_of_le (by omega), List.drop_zero,
    List.drop_append_eq_append_drop, h1, Nat.sub_eq_zero_of_le hk,
    List.drop_zero, List.drop_take]

/-- `fillHeader`'s buffer update is exactly the 7 header bytes of the
pending chunk spliced over `buf[i : i+7]`. -/
lemma finalizedBuf_eq {crc : List Nat → Nat} {last : Bool} {st : WState}
    (h7 : st.i + headerSize ≤ st.j) (hjl : st.j ≤ st.buf.length) :
    finalizedBuf crc last st =
      st.buf.take st.i ++
        encHeader crc (chunkTy last st.first) (pendPayload st) ++
        st.buf.drop (st.i + headerSize) := by
  simp only [headerSize] at h7 ⊢
  have hi6 : st.i + 6 < st.buf.length := by omega
  have hA : st.buf.set (st.i + 6) (chunkTy last st.first) =
      spliceAt st.buf (st.i + 6) [chunkTy last st.first] := set_eq_spliceAt hi6
  have hB0 := @drop_spliceAt_start st.buf (st.i + 6) [chunkTy last st.first]
    (by omega)
  have hB : (spliceAt st.buf (st.i + 6) [chunkTy last st.first]).drop (st.i + 6) =
      chunkTy last st.first :: st.buf.drop (st.i + 7) := by
    rw [hB0]
    have h67 : st.i + 6 + List.length [chunkTy last st.first] = st.i + 7 := by
      simp
    rw [h67, List.singleton_append]
  have hpl : pendPayload st = (st.buf.drop (st.i + 7)).take (st.j - (st.i + 7)) := by
    simp only [pendPayload, headerSize]
  have hcrcarg : ((spliceAt st.buf (st.i + 6) [chunkTy last st.first]).drop
      (st.i + 6)).take (st.j - (st.i + 6)) =
      chunkTy last st.first :: pendPayload st := by
    rw [hB]
    have hj6 : st.j - (st.i + 6) = (st.j - (st.i + 7)) + 1 := by omega
    rw [hj6, List.take_succ_cons, hpl]
  have hplen : (pendPayload st).length = st.j - (st.i + 7) := by
    rw [hpl, List.length_take, List.length_drop]
    omega
  have hsl : (spliceAt st.buf (st.i + 6) [chunkTy last st.first]).length =
      st.buf.length := by
    rw [spliceAt_length]
    simp
    omega
  rw [finalizedBuf]
  simp only [headerSize]
  rw [hA, hcrcarg, setLE_chain _ _ _ _ (by rw [hsl]; omega)]
  show (spliceAt st.buf (st.i + 6) [chunkTy last st.first]).take st.i ++
      _ ++ (spliceAt st.buf (st.i + 6) [chunkTy last st.first]).drop (st.i + 6) = _
  rw [take_spliceAt (by omega) (by omega), hB]
  have hL1 : (st.j - st.i - 7) % 65536 % 256 = (pendPayload st).length % 256 := by
    rw [hplen]; omega
  have hL2 : (st.j - st.i - 7) % 65536 / 256 % 256 =
      (pendPayload st).length / 256 % 256 := by
    rw [hplen]; omega
  simp [encHeader, le32, le16, List.append_assoc, hL1, hL2]

/-- The bytes `fillHeader` leaves from the flush point on: the already
finalized chunks `buf[written : i]`, then the just-written header, then
the rest of the buffer. -/
lemma drop_finalizedBuf {crc : List Nat → Nat} {last : Bool} {st : WState}
    (h7 : st.i + headerSize ≤ st.j) (hjl : st.j ≤ st.buf.length)
    (hw : st.written ≤ st.i) :
    (finalizedBuf crc last st).drop st.written =
      (st.buf.drop st.written).take (st.i - st.written) ++
        encHeader crc (chunkTy last st.first) (pendPayload st) ++
        st.buf.drop (st.i + headerSize) := by
  rw [finalizedBuf_eq h7 hjl]
  have h1 : (st.buf.take st.i).length = st.i := by
    rw [List.length_take]
    simp only [headerSize] at h7
    omega
  have h2 : (st.buf.take st.i ++
      encHeader crc (chunkTy last st.first) (pendPayload st)).length =
      st.i + headerSize := by
    rw [List.length_append, h1, length_encHeader]
  rw [List.drop_append_eq_append_drop, List.drop_append_eq_append_drop, h1, h2,
    Nat.sub_eq_zero_of_le hw, Nat.sub_eq_zero_of_le (by omega), List.drop_zero,
    List.drop_zero, List.drop_take]

/-- The copy loop of `singleWriter.Write` refines the chunk encoder:
starting from any well-formed pending chunk, the loop succeeds and the
stream it determines (with the final chunk finalized as terminal) is
the committed prefix followed by the encoder's chunk sequence for the
pending payload extended with the written bytes. -/
lemma swWriteLoop_enc {crc : List Nat → Nat} :
    ∀ (N : Nat) (p : List Nat) (st : WState), p.length ≤ N → WRefInv st →
      ∃ st1, swWriteLoop crc st p = some st1 ∧ WRefInv st1 ∧
        pendView crc st1 = committed st ++
          (encChunks crc st.first st.i (pendPayload st ++ p)).1 ∧
        st1.j = (encChunks crc st.first st.i (pendPayload st ++ p)).2 ∧
        st1.pending = st.pending ∧ st1.closed = st.closed ∧
        st1.seq = st.seq := by
  intro N
  induction N using Nat.strong_induction_on with
  | _ N ih =>
    intro p st hN hinv
    obtain ⟨hbl, hwi, hij, hjb⟩ := hinv
    by_cases hp0 : p.length = 0
    · refine ⟨st, ?_, ⟨hbl, hwi, hij, hjb⟩, ?_, ?_, rfl, rfl, rfl⟩
      · rw [swWriteLoop.eq_def, dif_pos hp0]
      · rw [List.length_eq_zero] at hp0
        subst hp0
        rw [List.append_nil,
          encChunks_fits (by rw [pendPayload_length hij (by omega)]; omega)]
        rfl
      · rw [List.length_eq_zero] at hp0
        subst hp0
        rw [List.append_nil,
          encChunks_fits (by rw [pendPayload_length hij (by omega)]; omega)]
        show st.j = st.i + headerSize + (pendPayload st).length
        rw [pendPayload_length hij (by omega)]
        omega
    · by_cases hjB : st.j = blockSize
      · -- block full: finalize the running chunk as non-terminal, flush,
        -- then copy into the fresh block
        have hfh : fillHeader crc false st =
            some { st with buf := finalizedBuf crc false st, chunks := st.chunks ++ [(st.blocksDone, st.i, st.j)] } := by
          rw [fillHeader, if_neg (by omega)]
        have hm : ¬ min (blockSize - headerSize) p.length = 0 := by
          simp only [Nat.min_eq_zero_iff]
          push_neg
          refine ⟨by simp [blockSize, headerSize], by omega⟩
        set st1 : WState :=
          { writeBlock { st with buf := finalizedBuf crc false st, chunks := st.chunks ++ [(st.blocksDone, st.i, st.j)] } with first := false } with hst1
        have hf1 : st1.buf = finalizedBuf crc false st := rfl
        have hf2 : st1.i = 0 := rfl
        have hf3 : st1.j = headerSize := rfl
        have hf4 : st1.written = 0 := rfl
        have hf5 : st1.first = false := rfl
        have hf6 : st1.pending = st.pending := rfl
        have hf7 : st1.closed = st.closed := rfl
        have hf8 : st1.seq = st.seq := rfl
        have hf9 : st1.out = st.out ++ (finalizedBuf crc false st).drop st.written := rfl
        have hb1 : st1.buf.length = blockSize := by
          rw [hf1, length_finalizedBuf, hbl]
        set c := min (blockSize - headerSize) p.length with hc
        have hcle : c ≤ p.length := Nat.min_le_right _ _
        have hcbs : c ≤ blockSize - headerSize := Nat.min_le_left _ _
        have h7B : headerSize ≤ blockSize := by simp [blockSize, headerSize]
        have htc : (p.take c).length = c := by
          rw [List.length_take]
          omega
        set st2 : WState := (swCopy st1 p).1 with hst2
        have hscj : min (blockSize - st1.j) p.length = c := by rw [hf3]
        have hb2' : st2.buf = spliceAt st1.buf st1.j (p.take c) := by
          show spliceAt st1.buf st1.j (p.take (min (blockSize - st1.j) p.length)) = _
          rw [hscj]
        have hj2 : st2.j = headerSize + c := by
          show st1.j + min (blockSize - st1.j) p.length = _
          rw [hscj, hf3]
        have hb2 : st2.buf.length = blockSize := by
          rw [hb2', spliceAt_length]
          · exact hb1
          · rw [htc, hf3, hb1]
            omega
        have hrest2 : (swCopy st1 p).2 = p.drop c := by
          show p.drop (min (blockSize - st1.j) p.length) = _
          rw [hscj]
        have hi2 : st2.i = 0 := hf2
        have hw2 : st2.written = 0 := hf4
        have hinv2 : WRefInv st2 := by
          refine ⟨hb2, ?_, ?_, ?_⟩ <;> simp only [hj2, hi2, hw2] <;> omega
        have hcpos : 0 < c := Nat.pos_of_ne_zero (by rw [hc]; exact hm)
        obtain ⟨st3, hl3, hinv3, hview3, hoff3, hpe3, hcl3, hsq3⟩ :=
          ih (p.drop c).length
            (by rw [List.length_drop]; omega) (p.drop c) st2 (Nat.le_refl _) hinv2
        -- committed and pending payload of the flushed state
        have hcomm1 : committed st1 =
            committed st ++ encChunk crc (chunkTy false st.first) (pendPayload st) := by
          rw [committed, hf9, hf2, hf4]
          simp only [Nat.sub_zero, List.take_zero, List.append_nil]
          rw [drop_finalizedBuf hij (by omega) hwi,
            pendPayload_full hbl hjB, committed, encChunk]
          simp [List.append_assoc]
        have hcomm2 : committed st2 = committed st1 := by
          rw [committed, committed, hw2, hi2, hf4, hf2]
          simp only [Nat.sub_zero, List.take_zero, List.append_nil]
          rfl
        have hpp2 : pendPayload st2 = p.take c := by
          rw [pendPayload, hi2, hj2, hb2', hf3]
          have h7b : headerSize ≤ st1.buf.length := by rw [hb1]; exact h7B
          have hx := @spliceAt_extract st1.buf headerSize (p.take c) h7b
          rw [htc] at hx
          have harith : 0 + headerSize + (headerSize + c) - (headerSize + headerSize) = c := by
            omega
          have harith2 : headerSize + c - (0 + headerSize) = c := by omega
          rw [harith2]
          exact hx
        have hfirst2 : st2.first = false := hf5
        -- the encoder splits the same way
        have hsplit : ¬ (pendPayload st ++ p).length ≤ blockSize - (st.i + headerSize) := by
          rw [List.length_append, pendPayload_length hij (by omega)]
          omega
        have hplC : (pendPayload st).length = blockSize - (st.i + headerSize) := by
          rw [pendPayload_length hij (by omega)]
          omega
        have htake : (pendPayload st ++ p).take (blockSize - (st.i + headerSize)) =
            pendPayload st := List.take_left' hplC
        have hdropP : (pendPayload st ++ p).drop (blockSize - (st.i + headerSize)) =
            p := List.drop_left' hplC
        refine ⟨st3, ?_, hinv3, ?_, ?_, ?_, ?_, ?_⟩
        · rw [swWriteLoop.eq_def, dif_neg hp0, if_pos hjB, hfh,
            Option.map_some', Option.some_bind, ← hst1,
            dif_neg (by rw [hf3]; exact hm), ← hst2, hrest2]
          exact hl3
        · rw [hcomm2, hcomm1, hpp2, hfirst2, hi2, List.take_append_drop] at hview3
          rw [hview3, encChunks_split hsplit, htake, hdropP]
          simp [List.append_assoc]
        · rw [hpp2, hfirst2, hi2, List.take_append_drop] at hoff3
          rw [hoff3, encChunks_split hsplit, hdropP]
        · rw [hpe3]; exact hf6
        · rw [hcl3]; exact hf7
        · rw [hsq3]; exact hf8
      · -- room in the current block: copy directly
        have hm : ¬ min (blockSize - st.j) p.length = 0 := by
          simp only [Nat.min_eq_zero_iff]
          push_neg
          refine ⟨by omega, by omega⟩
        set c := min (blockSize - st.j) p.length with hc
        have hcle : c ≤ p.length := Nat.min_le_right _ _
        have hcbs : c ≤ blockSize - st.j := Nat.min_le_left _ _
        have hcpos : 0 < c := Nat.pos_of_ne_zero hm
        have htc : (p.take c).length = c := by
          rw [List.length_take]
          omega
        set st2 : WState := (swCopy st p).1 with hst2
        have hb2' : st2.buf = spliceAt st.buf st.j (p.take c) := by
          show spliceAt st.buf st.j (p.take (min (blockSize - st.j) p.length)) = _
          rw [← hc]
        have hj2 : st2.j = st.j + c := by
          show st.j + min (blockSize - st.j) p.length = _
          rw [← hc]
        have hi2 : st2.i = st.i := rfl
        have hw2 : st2.written = st.written := rfl
        have ho2 : st2.out = st.out := rfl
        have hfirst2 : st2.first = st.first := rfl
        have hb2 : st2.buf.length = blockSize := by
          rw [hb2', spliceAt_length]
          · exact hbl
          · rw [htc, hbl]
            omega
        have hrest2 : (swCopy st p).2 = p.drop c := by
          show p.drop (min (blockSize - st.j) p.length) = _
          rw [← hc]
        have hinv2 : WRefInv st2 := by
          refine ⟨hb2, ?_, ?_, ?_⟩ <;> simp only [hj2, hi2, hw2] <;> omega
        obtain ⟨st3, hl3, hinv3, hview3, hoff3, hpe3, hcl3, hsq3⟩ :=
          ih (p.drop c).length (by rw [List.length_drop]; omega) (p.drop c) st2
            (Nat.le_refl _) hinv2
        have hcomm2 : committed st2 = committed st := by
          rw [committed, committed, hw2, hi2, ho2, hb2',
            segment_spliceAt (by omega) (by omega)]
        have hpp2 : pendPayload st2 = pendPayload st ++ p.take c := by
          rw [pendPayload, pendPayload, hi2, hj2, hb2',
            drop_spliceAt_le (by omega) (by omega)]
          have hlpl : ((st.buf.drop (st.i + headerSize)).take
              (st.j - (st.i + headerSize))).length = st.j - (st.i + headerSize) := by
            rw [List.length_take, List.length_drop]
            omega
          have hlen2 : (((st.buf.drop (st.i + headerSize)).take
              (st.j - (st.i + headerSize))) ++ p.take c).length =
              st.j + c - (st.i + headerSize) := by
            rw [List.length_append, hlpl, htc]
            omega
          rw [List.take_append_eq_append_take, hlen2,
            Nat.sub_eq_zero_of_le (Nat.le_refl _), List.take_zero, List.append_nil,
            List.take_of_length_le (le_of_eq hlen2)]
        refine ⟨st3, ?_, hinv3, ?_, ?_, ?_, ?_, ?_⟩
        · rw [swWriteLoop.eq_def, dif_neg hp0, if_neg hjB, Option.some_bind,
            dif_neg hm, ← hst2, hrest2]
          exact hl3
        · rw [hview3, hcomm2, hpp2, hfirst2, hi2, List.append_assoc,
            List.take_append_drop]
        · rw [hoff3, hpp2, hfirst2, hi2, List.append_assoc, List.take_append_drop]
        · exact hpe3.trans rfl
        · exact hcl3.trans rfl
        · exact hsq3.trans rfl

/-- The bytes `writePending`/`Next` emit for the finalized pending
chunk region `buf[written : j]`: the already-determined tail plus the
complete encoded chunk. -/
lemma take_drop_finalizedBuf {crc : List Nat → Nat} {last : Bool} {st : WState}
    (hinv : WRefInv st) :
    ((finalizedBuf crc last st).drop st.written).take (st.j - st.written) =
      (st.buf.drop st.written).take (st.i - st.written) ++
        encHeader crc (chunkTy last st.first) (pendPayload st) ++ pendPayload st := by
  obtain ⟨hbl, hwi, hij, hjb⟩ := hinv
  rw [drop_finalizedBuf hij (by omega) hwi]
  have h1 : ((st.buf.drop st.written).take (st.i - st.written) ++
      encHeader crc (chunkTy last st.first) (pendPayload st)).length =
      (st.i - st.written) + headerSize := by
    rw [List.length_append, length_encHeader, List.length_take, List.length_drop]
    simp only [headerSize] at *
    omega
  have h2 : st.j - st.written =
      ((st.buf.drop st.written).take (st.i - st.written) ++
        encHeader crc (chunkTy last st.first) (pendPayload st)).length +
        (st.j - (st.i + headerSize)) := by
    rw [h1]
    simp only [headerSize] at *
    omega
  rw [h2, List.take_append]
  rfl

/-- The writer state between journals: one well-formed pending chunk,
open writer, and the stream-so-far `E` fully determined once that chunk
is finalized as terminal. -/
def WMid (crc : List Nat → Nat) (E : List Nat) (st : WState) : Prop :=
  WRefInv st ∧ st.pending = true ∧ st.closed = false ∧ pendView crc st = E

/-- The writer state right after `Next`: an empty pending chunk
reserved at `[i, i+7)`, committed stream `C`. -/
def WSess (crc : List Nat → Nat) (C : List Nat) (st : WState) : Prop :=
  WRefInv st ∧ st.pending = true ∧ st.closed = false ∧ st.first = true ∧
    pendPayload st = [] ∧ st.j = st.i + headerSize ∧ committed st = C

lemma fillHeader_some {crc : List Nat → Nat} {last : Bool} {st : WState}
    (h7 : st.i + headerSize ≤ st.j) (hjb : st.j ≤ blockSize) :
    fillHeader crc last st =
      some { st with buf := finalizedBuf crc last st, chunks := st.chunks ++ [(st.blocksDone, st.i, st.j)] } := by
  rw [fillHeader, if_neg (by omega)]

lemma wNext_total {crc : List Nat → Nat} {st : WState} (hinv : WRefInv st) :
    ∃ r, wNext crc st = some r := by
  obtain ⟨hbl, hwi, hij, hjb⟩ := hinv
  unfold wNext
  split_ifs with hcl hp
  · exact ⟨_, rfl⟩
  · rw [@fillHeader_some crc true { st with seq := st.seq + 1 } hij hjb,
      Option.map_some']
    exact ⟨_, rfl⟩
  · exact ⟨_, rfl⟩

/-- `Writer.Next` on a mid-stream state: the pending chunk is finalized
as terminal, the tail is zero-padded when no header fits, and a fresh
session state results whose committed stream extends `E` with exactly
that padding. -/
lemma wNext_mid {crc : List Nat → Nat} {E : List Nat} {st : WState}
    (hm : WMid crc E st) {r : WState × Except JErr Nat}
    (h : wNext crc st = some r) :
    r.2 = .ok (st.seq + 1) ∧ r.1.seq = st.seq + 1 ∧
      r.1.i = (if st.j + headerSize > blockSize then 0 else st.j) ∧
      WSess crc (E ++ (if st.j + headerSize > blockSize then
        List.replicate (blockSize - st.j) 0 else [])) r.1 := by
  obtain ⟨⟨hbl, hwi, hij, hjb⟩, hpend, hclosed, hview⟩ := hm
  unfold wNext at h
  split_ifs at h with hcl hp
  · rw [hclosed] at hcl
    exact absurd hcl (by simp)
  · rw [@fillHeader_some crc true { st with seq := st.seq + 1 } hij hjb,
      Option.map_some'] at h
    have hfb : finalizedBuf crc true { st with seq := st.seq + 1 } =
        finalizedBuf crc true st := rfl
    rw [hfb] at h
    injection h with h1
    subst h1
    dsimp only at *
    have hlfb : (finalizedBuf crc true st).length = blockSize := by
      rw [length_finalizedBuf, hbl]
    have htdf := @take_drop_finalizedBuf crc true st ⟨hbl, hwi, hij, hjb⟩
    split_ifs with hov
    · -- no room for another header: zero-pad and flush the block
      refine ⟨rfl, rfl, rfl, ⟨?_, rfl, hclosed, rfl, ?_, ?_, ?_⟩⟩
      · refine ⟨?_, ?_, ?_, ?_⟩
        · show (zeroFrom (finalizedBuf crc true st) st.j).length = blockSize
          rw [zeroFrom, List.length_append, List.length_take,
            List.length_replicate, hlfb]
          omega
        · show (0 : Nat) ≤ 0
          omega
        · show 0 + headerSize ≤ headerSize
          omega
        · show headerSize ≤ blockSize
          simp [headerSize, blockSize]
      · show ((zeroFrom (finalizedBuf crc true st) st.j).drop (0 + headerSize)).take
          (headerSize - (0 + headerSize)) = []
        simp
      · show (headerSize : Nat) = 0 + headerSize
        omega
      · show (st.out ++ (zeroFrom (finalizedBuf crc true st) st.j).drop st.written) ++
          ((zeroFrom (finalizedBuf crc true st) st.j).drop 0).take (0 - 0) = _
        simp only [Nat.sub_self, List.take_zero, List.append_nil, List.drop_zero]
        have hzd : (zeroFrom (finalizedBuf crc true st) st.j).drop st.written =
            ((finalizedBuf crc true st).drop st.written).take (st.j - st.written) ++
              List.replicate (blockSize - st.j) 0 := by
          rw [zeroFrom, List.drop_append_eq_append_drop]
          have hlt : ((finalizedBuf crc true st).take st.j).length = st.j := by
            rw [List.length_take, hlfb]
            omega
          rw [hlt, Nat.sub_eq_zero_of_le (by omega), List.drop_zero,
            List.drop_take]
        rw [hzd, htdf, ← hview]
        rw [pendView, committed, encChunk]
        simp [List.append_assoc]
    · -- the next header still fits in the current block
      refine ⟨rfl, rfl, rfl, ⟨?_, rfl, hclosed, rfl, ?_, ?_, ?_⟩⟩
      · exact ⟨hlfb, by dsimp only; omega, by dsimp only; omega,
          by dsimp only; omega⟩
      · show ((finalizedBuf crc true st).drop (st.j + headerSize)).take
          (st.j + headerSize - (st.j + headerSize)) = []
        simp
      · rfl
      · show st.out ++ ((finalizedBuf crc true st).drop st.written).take
          (st.j - st.written) = _
        rw [htdf, ← hview, pendView, committed, encChunk]
        simp [List.append_assoc]

/-- `Writer.Close` on a mid-stream state finalizes the pending chunk as
terminal and emits everything: the underlying writer ends up holding
exactly `E`. -/
lemma wClose_mid {crc : List Nat → Nat} {E : List Nat} {st : WState}
    (hm : WMid crc E st) :
    ∃ st1, wClose crc st = some (st1, none) ∧ st1.out = E := by
  obtain ⟨⟨hbl, hwi, hij, hjb⟩, hpend, hclosed, hview⟩ := hm
  rw [wClose, writePending]
  rw [if_neg (by dsimp only; rw [hclosed]; simp)]
  rw [if_pos (by dsimp only; rw [hpend])]
  rw [@fillHeader_some crc true { st with seq := st.seq + 1 } hij hjb]
  have hfb : finalizedBuf crc true { st with seq := st.seq + 1 } =
      finalizedBuf crc true st := rfl
  rw [hfb, Option.map_some', Option.map_some', Option.map_some']
  dsimp only
  rw [if_neg (by rw [hclosed]; simp)]
  refine ⟨_, rfl, ?_⟩
  dsimp only
  have htdf := @take_drop_finalizedBuf crc true st ⟨hbl, hwi, hij, hjb⟩
  rw [htdf, ← hview, pendView, committed, encChunk]
  simp [List.append_assoc]

/-- `singleWriter.Write` on a fresh session refines `encChunks`. -/
lemma swWrite_sess {crc : List Nat → Nat} {C : List Nat} {st : WState}
    {p : List Nat} (h : WSess crc C st) :
    ∃ st1, swWrite crc st.seq st p = some (st1, .ok p.length) ∧
      WMid crc (C ++ (encChunks crc true st.i p).1) st1 ∧
      st1.j = (encChunks crc true st.i p).2 := by
  obtain ⟨hinv, hpend, hclosed, hfirst, hpp, hji, hcomm⟩ := h
  obtain ⟨st1, hloop, hinv1, hview1, hoff1, hpe1, hcl1, hsq1⟩ :=
    @swWriteLoop_enc crc p.length p st (Nat.le_refl _) hinv
  rw [hcomm, hpp, hfirst, List.nil_append] at hview1
  rw [hpp, hfirst, List.nil_append] at hoff1
  refine ⟨st1, ?_, ⟨hinv1, by rw [hpe1, hpend], by rw [hcl1, hclosed], hview1⟩,
    hoff1⟩
  rw [swWrite, if_neg (by simp), if_neg (by rw [hclosed]; simp), hloop,
    Option.map_some']

/-- One `Next`/`Write` round on a mid-stream writer state appends the
tail padding (when the next header does not fit) and the encoded chunk
sequence of the journal. -/
lemma writeJournal1_mid {crc : List Nat → Nat} {E : List Nat} {st : WState}
    {p : List Nat} (hm : WMid crc E st) :
    ∃ st1, writeJournal1 crc st p = some st1 ∧
      WMid crc (E ++ (if st.j + headerSize > blockSize then
          List.replicate (blockSize - st.j) 0 else []) ++
        (encChunks crc true (if st.j + headerSize > blockSize then 0 else st.j) p).1)
        st1 ∧
      st1.j = (encChunks crc true
        (if st.j + headerSize > blockSize then 0 else st.j) p).2 := by
  obtain ⟨r, hr⟩ := wNext_total hm.1
  obtain ⟨hr2, hseq, hri, hsess⟩ := wNext_mid hm hr
  rcases r with ⟨stA, e⟩
  dsimp only at hr2 hseq hri hsess
  subst hr2
  obtain ⟨st2, hw, hmid2, hoff2⟩ := @swWrite_sess crc _ stA p hsess
  rw [hri] at hmid2 hoff2
  refine ⟨st2, ?_, hmid2, hoff2⟩
  rw [writeJournal1, hr, Option.some_bind]
  show (swWrite crc (st.seq + 1) stA p).bind _ = some st2
  rw [← hseq, hw, Option.some_bind]

/-- The first `Next`/`Write` round, from `NewWriter`. -/
lemma writeJournal1_fresh {crc : List Nat → Nat} {p : List Nat} :
    ∃ st1, writeJournal1 crc newWriter p = some st1 ∧
      WMid crc ((encChunks crc true 0 p).1) st1 ∧
      st1.j = (encChunks crc true 0 p).2 := by
  have hfresh : wNext crc newWriter =
      some ({ newWriter with seq := 1, i := 0, j := headerSize, first := true, pending := true }, .ok 1) := by
    rw [wNext, if_neg (by simp [newWriter]), if_neg (by simp [newWriter]),
      Option.map_some']
    dsimp only
    rw [if_neg (by dsimp only [newWriter]; simp [headerSize, blockSize])]
    rfl
  have hsessF : WSess crc []
      ({ newWriter with seq := 1, i := 0, j := headerSize, first := true, pending := true } : WState) := by
    refine ⟨⟨?_, ?_, ?_, ?_⟩, rfl, rfl, rfl, ?_, ?_, ?_⟩
    · show (List.replicate blockSize 0).length = blockSize
      rw [List.length_replicate]
    · show (0 : Nat) ≤ 0
      omega
    · show 0 + headerSize ≤ headerSize
      omega
    · show headerSize ≤ blockSize
      simp [headerSize, blockSize]
    · show ((List.replicate blockSize 0).drop (0 + headerSize)).take
        (headerSize - (0 + headerSize)) = []
      simp
    · show (headerSize : Nat) = 0 + headerSize
      omega
    · show ([] : List Nat) ++ ((List.replicate blockSize 0).drop 0).take (0 - 0) = []
      simp
  obtain ⟨st2, hw, hmid2, hoff2⟩ := @swWrite_sess crc []
    ({ newWriter with seq := 1, i := 0, j := headerSize, first := true, pending := true } : WState) p hsessF
  rw [List.nil_append] at hmid2
  refine ⟨st2, ?_, ?_, ?_⟩
  · rw [writeJournal1, hfresh, Option.some_bind]
    show (swWrite crc 1 { newWriter with seq := 1, i := 0, j := headerSize, first := true, pending := true } p).bind _ = some st2
    rw [show (1 : Nat) = ({ newWriter with seq := 1, i := 0, j := headerSize, first := true, pending := true } : WState).seq from rfl,
      hw, Option.some_bind]
  · exact hmid2
  · exact hoff2

lemma encJournals_cons {crc : List Nat → Nat} {o : Nat} {p : List Nat}
    {rest : List (List Nat)} :
    encJournals crc o (p :: rest) =
      (if o + headerSize > blockSize then List.replicate (blockSize - o) 0 else []) ++
        (encChunks crc true (if o + headerSize > blockSize then 0 else o) p).1 ++
        encJournals crc
          (encChunks crc true (if o + headerSize > blockSize then 0 else o) p).2
          rest := rfl

/-- Folding `Next`/`Write` rounds over a journal list refines
`encJournals` from the current block offset. -/
lemma foldl_enc {crc : List Nat → Nat} :
    ∀ (js : List (List Nat)) (st : WState) (E : List Nat), WMid crc E st →
      ∃ st1, js.foldlM (writeJournal1 crc) st = some st1 ∧
        WMid crc (E ++ encJournals crc st.j js) st1 := by
  intro js
  induction js with
  | nil =>
    intro st E hm
    exact ⟨st, by simp, by simpa [encJournals] using hm⟩
  | cons p rest ih =>
    intro st E hm
    obtain ⟨st2, hw1, hm2, hoff2⟩ := @writeJournal1_mid crc E st p hm
    obtain ⟨st3, hfold, hm3⟩ := ih st2 _ hm2
    refine ⟨st3, ?_, ?_⟩
    · rw [List.foldlM_cons, hw1]
      show (some st2).bind _ = some st3
      rw [Option.some_bind]
      exact hfold
    · rw [hoff2] at hm3
      have he : E ++ encJournals crc st.j (p :: rest) =
          E ++ ((if st.j + headerSize > blockSize then
              List.replicate (blockSize - st.j) 0 else []) ++
            (encChunks crc true
              (if st.j + headerSize > blockSize then 0 else st.j) p).1 ++
            encJournals crc
              (encChunks crc true
                (if st.j + headerSize > blockSize then 0 else st.j) p).2 rest) := by
        rw [encJournals_cons]
      rw [he]
      simp only [← List.append_assoc]
      simpa [List.append_assoc] using hm3

/-- The writer emits exactly the encoder's byte stream: writing any
list of journals with `Next`/`Write`/`Close` succeeds and hands the
underlying writer `encJournals crc 0 js`. -/
lemma writer_refines {crc : List Nat → Nat} {js : List (List Nat)} :
    writeJournals crc js = some (encJournals crc 0 js) := by
  cases js with
  | nil =>
    rfl
  | cons p rest =>
    obtain ⟨st1, hw1, hm1, hoff1⟩ := @writeJournal1_fresh crc p
    obtain ⟨st2, hfold, hm2⟩ := foldl_enc rest st1 _ hm1
    obtain ⟨st3, hclose, hout⟩ := wClose_mid hm2
    rw [writeJournals, List.foldlM_cons, hw1]
    show ((some st1).bind _ ).bind _ = _
    rw [Option.some_bind, hfold, Option.some_bind, hclose, Option.some_bind]
    show some st3.out = _
    rw [hout, hoff1]
    have h0 : ¬(0 + headerSize > blockSize) := by simp [headerSize, blockSize]
    have : encJournals crc 0 (p :: rest) =
        (encChunks crc true 0 p).1 ++
          encJournals crc (encChunks crc true 0 p).2 rest := by
      rw [encJournals_cons, if_neg h0, List.nil_append, if_neg h0]
    rw [this]

section ReaderEnc

/-- The reader is in lock-step with an encoded stream: no sticky error,
the cursor inside the loaded block, and the unread bytes (current block
tail plus unread input) are exactly `rest`.  A partially filled block is
necessarily the stream's last one; a fresh reader has an empty block. -/
def RAligned (rest : List Nat) (st : RState) : Prop :=
  st.err = none ∧ st.n = st.buf.length ∧ st.j ≤ st.n ∧ st.n ≤ blockSize ∧
    st.buf.drop st.j ++ st.input = rest ∧
    (st.n = blockSize ∨ st.input = [] ∨ (st.n = 0 ∧ st.j = 0))

lemma loadBlock_aligned {rest : List Nat} {st : RState}
    (hal : RAligned rest st) : RAligned st.input (loadBlock st) := by
  obtain ⟨herr, hn, hjn, hnb, hrest, hdisj⟩ := hal
  refine ⟨herr, ?_, ?_, ?_, ?_, ?_⟩
  · rw [loadBlock_n]
    show _ = (st.input.take (min blockSize st.input.length)).length
    rw [List.length_take]
    omega
  · rw [loadBlock_j]
    omega
  · rw [loadBlock_n]
    exact Nat.min_le_left _ _
  · show (st.input.take (min blockSize st.input.length)).drop 0 ++
      st.input.drop (min blockSize st.input.length) = st.input
    rw [List.drop_zero, List.take_append_drop]
  · rcases Nat.le_total blockSize st.input.length with h | h
    · left
      rw [loadBlock_n]
      omega
    · right
      left
      show st.input.drop (min blockSize st.input.length) = []
      apply List.drop_eq_nil_of_le
      omega

lemma getD_of_take_seg {l ch : List Nat} {j m δ : Nat}
    (h : (l.drop j).take m = ch) (hδ : δ < m) :
    l.getD (j + δ) 0 = ch.getD δ 0 := by
  rw [List.getD_eq_getD_get?, List.getD_eq_getD_get?, ← h]
  rw [List.get?_take hδ, List.get?_drop]

/-- A complete well-typed chunk buffered at the cursor is accepted by
the header-parsing step, whatever the checksum and strict flags. -/
lemma headerStep_accept {crc : List Nat → Nat} {first : Bool} {st : RState}
    {ty : Nat} {pl rest : List Nat}
    (hal : RAligned (encChunk crc ty pl ++ rest) st)
    (hn : st.j + headerSize + pl.length ≤ st.n)
    (hty1 : fullChunkType ≤ ty) (hty4 : ty ≤ lastChunkType)
    (hfirst : first = true → ty = fullChunkType ∨ ty = firstChunkType) :
    headerStep crc first st =
      ({ st with i := st.j + headerSize, j := st.j + headerSize + pl.length, last := decide (ty = fullChunkType ∨ ty = lastChunkType) }, none) ∧
      (st.buf.drop (st.j + headerSize)).take pl.length = pl := by
  obtain ⟨herr, hnl, hjn, hnb, hrest, hdisj⟩ := hal
  have hbs : blockSize = 32768 := rfl
  have hhs : headerSize = 7 := rfl
  have hfc : fullChunkType = 1 := rfl
  have hlc : lastChunkType = 4 := rfl
  have hffc : firstChunkType = 2 := rfl
  have hlenc : (encChunk crc ty pl).length = headerSize + pl.length :=
    length_encChunk crc ty pl
  have hdl : (st.buf.drop st.j).length = st.n - st.j := by
    rw [List.length_drop, hnl]
  have hpre : (st.buf.drop st.j).take (headerSize + pl.length) =
      encChunk crc ty pl := by
    have h1 : ((st.buf.drop st.j) ++ st.input).take (headerSize + pl.length) =
        (st.buf.drop st.j).take (headerSize + pl.length) := by
      rw [List.take_append_eq_append_take,
        Nat.sub_eq_zero_of_le (by omega), List.take_zero, List.append_nil]
    have h2 : ((encChunk crc ty pl) ++ rest).take (headerSize + pl.length) =
        encChunk crc ty pl := List.take_left' hlenc
    rw [← h1, hrest, h2]
  have hchunk : encChunk crc ty pl =
      crc (ty :: pl) % U32 % 256 :: (crc (ty :: pl) % U32 / 256 % 256) ::
      (crc (ty :: pl) % U32 / 65536 % 256) ::
      (crc (ty :: pl) % U32 / 16777216 % 256) ::
      (pl.length % 256) :: (pl.length / 256 % 256) :: ty :: pl := by
    simp [encChunk, encHeader, le32, le16]
  have hby : ∀ δ, δ < headerSize + pl.length →
      st.buf.getD (st.j + δ) 0 = (encChunk crc ty pl).getD δ 0 :=
    fun δ hδ => getD_of_take_seg hpre hδ
  have hb0 : st.buf.getD st.j 0 = crc (ty :: pl) % U32 % 256 := by
    have h := hby 0 (by omega)
    rw [hchunk] at h
    simpa using h
  have hb1 : st.buf.getD (st.j + 1) 0 = crc (ty :: pl) % U32 / 256 % 256 := by
    have h := hby 1 (by omega)
    rw [hchunk] at h
    simpa using h
  have hb2 : st.buf.getD (st.j + 2) 0 = crc (ty :: pl) % U32 / 65536 % 256 := by
    have h := hby 2 (by omega)
    rw [hchunk] at h
    simpa using h
  have hb3 : st.buf.getD (st.j + 3) 0 = crc (ty :: pl) % U32 / 16777216 % 256 := by
    have h := hby 3 (by omega)
    rw [hchunk] at h
    simpa using h
  have hb4 : st.buf.getD (st.j + 4) 0 = pl.length % 256 := by
    have h := hby 4 (by omega)
    rw [hchunk] at h
    simpa using h
  have hb5 : st.buf.getD (st.j + 5) 0 = pl.length / 256 % 256 := by
    have h := hby 5 (by omega)
    rw [hchunk] at h
    simpa using h
  have hb6 : st.buf.getD (st.j + 6) 0 = ty := by
    have h := hby 6 (by omega)
    rw [hchunk] at h
    simpa using h
  have hplb : pl.length < 65536 := by omega
  have hcrcarg : (st.buf.drop (st.j + 6)).take (pl.length + 1) = ty :: pl := by
    have h1 : ((st.buf.drop st.j).take (headerSize + pl.length)).drop 6 =
        (st.buf.drop (st.j + 6)).take (headerSize + pl.length - 6) := by
      rw [List.drop_take, List.drop_drop]
    rw [hpre, hchunk] at h1
    have h2 : headerSize + pl.length - 6 = pl.length + 1 := by omega
    rw [h2] at h1
    rw [← h1]
    rfl
  have hpayload : (st.buf.drop (st.j + headerSize)).take pl.length = pl := by
    have h1 : ((st.buf.drop st.j).take (headerSize + pl.length)).drop headerSize =
        (st.buf.drop (st.j + headerSize)).take (headerSize + pl.length - headerSize) := by
      rw [List.drop_take, List.drop_drop]
    rw [hpre, hchunk] at h1
    have h2 : headerSize + pl.length - headerSize = pl.length := by omega
    rw [h2] at h1
    rw [← h1, hhs]
    rfl
  refine ⟨?_, hpayload⟩
  rw [headerStep]
  dsimp only
  rw [hb0, hb1, hb2, hb3, hb4, hb5, hb6, readLE32_le32, readLE16_le16]
  have hCC : crc (ty :: pl) % U32 % U32 = crc (ty :: pl) % U32 := by
    have hU : U32 = 4294967296 := rfl
    rw [hU]
    omega
  have hLL : pl.length % 65536 = pl.length := by omega
  rw [hCC, hLL]
  rw [if_neg (by rintro ⟨-, -, h⟩; omega)]
  rw [if_neg (by rintro (h | h) <;> omega)]
  rw [if_neg (by omega)]
  have hidx1 : st.j + headerSize - 1 = st.j + 6 := by omega
  have hidx2 : st.j + headerSize + pl.length - (st.j + 6) = pl.length + 1 := by
    omega
  rw [hidx1, hidx2, hcrcarg]
  rw [if_neg (by rintro ⟨-, h⟩; exact h rfl)]
  rw [if_neg ?hor]
  case hor =>
    rintro ⟨hf, hne1, hne2⟩
    rcases hfirst hf with h | h
    · exact hne1 h
    · exact hne2 h

/-- The accepted-chunk state stays aligned: the cursor moves past the
chunk and the unread stream is exactly `rest`. -/
lemma headerStep_accept_align {crc : List Nat → Nat} {first : Bool}
    {base : RState} {ty : Nat} {pl rest : List Nat}
    (hal : RAligned (encChunk crc ty pl ++ rest) base)
    (hn : base.j + headerSize + pl.length ≤ base.n)
    (hty1 : fullChunkType ≤ ty) (hty4 : ty ≤ lastChunkType)
    (hfirst : first = true → ty = fullChunkType ∨ ty = firstChunkType) :
    headerStep crc first base =
      ({ base with i := base.j + headerSize, j := base.j + headerSize + pl.length, last := decide (ty = fullChunkType ∨ ty = lastChunkType) }, none) ∧
      (base.buf.drop (base.j + headerSize)).take pl.length = pl ∧
      RAligned rest { base with i := base.j + headerSize, j := base.j + headerSize + pl.length, last := decide (ty = fullChunkType ∨ ty = lastChunkType) } := by
  obtain ⟨hstep, hpayload⟩ := headerStep_accept hal hn hty1 hty4 hfirst
  obtain ⟨herr, hnl, hjn, hnb, hrest, hdisj⟩ := hal
  have hhs : headerSize = 7 := rfl
  have hlenc : (encChunk crc ty pl).length = headerSize + pl.length :=
    length_encChunk crc ty pl
  have hdl : (base.buf.drop base.j).length = base.n - base.j := by
    rw [List.length_drop, hnl]
  refine ⟨hstep, hpayload, herr, hnl, ?_, hnb, ?_, ?_⟩
  · show base.j + headerSize + pl.length ≤ base.n
    omega
  · show base.buf.drop (base.j + headerSize + pl.length) ++ base.input = rest
    have h1 : base.j + headerSize + pl.length = base.j + (headerSize + pl.length) := by
      omega
    have h2 : ((base.buf.drop base.j) ++ base.input).drop (headerSize + pl.length) =
        (base.buf.drop base.j).drop (headerSize + pl.length) ++ base.input := by
      rw [List.drop_append_eq_append_drop,
        Nat.sub_eq_zero_of_le (by omega), List.drop_zero]
    rw [h1, ← List.drop_drop, ← h2, hrest, List.drop_left' hlenc]
  · show base.n = blockSize ∨ base.input = [] ∨
      (base.n = 0 ∧ base.j + headerSize + pl.length = 0)
    rcases hdisj with h | h | h
    · exact Or.inl h
    · exact Or.inr (Or.inl h)
    · omega

/-- `nextChunk` accepts the next encoded chunk, reloading the buffer
(and silently dropping the zero pad before a block boundary) when the
current block is exhausted. -/
lemma nextChunk_accept {crc : List Nat → Nat} {first : Bool} {st : RState}
    {ty : Nat} {pl rest : List Nat}
    (hal : RAligned ((if blockSize < st.j + headerSize then
      List.replicate (blockSize - st.j) 0 else []) ++
      (encChunk crc ty pl ++ rest)) st)
    (hfit : (if blockSize < st.j + headerSize then 0 else st.j) +
      headerSize + pl.length ≤ blockSize)
    (hty1 : fullChunkType ≤ ty) (hty4 : ty ≤ lastChunkType)
    (hfirst : first = true → ty = fullChunkType ∨ ty = firstChunkType) :
    ∃ st1, nextChunk crc first st = (st1, none) ∧
      st1.i = (if blockSize < st.j + headerSize then 0 else st.j) + headerSize ∧
      st1.j = st1.i + pl.length ∧
      st1.last = decide (ty = fullChunkType ∨ ty = lastChunkType) ∧
      (st1.buf.drop st1.i).take pl.length = pl ∧
      RAligned rest st1 ∧ st1.strict = st.strict ∧ st1.checksum = st.checksum ∧
      st1.drops = st.drops := by
  have hbs : blockSize = 32768 := rfl
  have hhs : headerSize = 7 := rfl
  have hlenc : (encChunk crc ty pl).length = headerSize + pl.length :=
    length_encChunk crc ty pl
  obtain ⟨herr, hnl, hjn, hnb, hrest, hdisj⟩ := hal
  have hdl : (st.buf.drop st.j).length = st.n - st.j := by
    rw [List.length_drop, hnl]
  have hlstream := congrArg List.length hrest
  rw [List.length_append, List.length_append, List.length_append, hlenc] at hlstream
  have hlpad : (if blockSize < st.j + headerSize then
      List.replicate (blockSize - st.j) 0 else ([] : List Nat)).length =
      (if blockSize < st.j + headerSize then blockSize - st.j else 0) := by
    split_ifs
    · rw [List.length_replicate]
    · rfl
  rw [hlpad] at hlstream
  by_cases hA : st.j + headerSize ≤ st.n
  · -- a header is buffered: parse in place
    have hpadF : ¬ blockSize < st.j + headerSize := by omega
    rw [if_neg hpadF, List.nil_append] at hrest
    rw [if_neg hpadF] at hlstream
    have halD : RAligned (encChunk crc ty pl ++ rest) st :=
      ⟨herr, hnl, hjn, hnb, hrest, hdisj⟩
    rw [if_neg hpadF] at hfit
    have hn : st.j + headerSize + pl.length ≤ st.n := by
      rcases hdisj with h | h | h
      · omega
      · rw [h, List.length_nil] at hlstream
        omega
      · omega
    obtain ⟨hstep, hpayload, halign⟩ :=
      headerStep_accept_align halD hn hty1 hty4 hfirst
    refine ⟨_, ?_, ?_, ?_, ?_, ?_, halign, rfl, rfl, rfl⟩
    · rw [nextChunk, if_pos hA, hstep]
    · rw [if_neg hpadF]
    · show st.j + headerSize + pl.length = st.j + headerSize + pl.length
      rfl
    · rfl
    · exact hpayload
  · -- the current block is exhausted: the reader loads the next one
    have hB1 : ¬ (st.n < blockSize ∧ 0 < st.n) := by
      rintro ⟨hlt, hpos⟩
      have hinp : st.input = [] := by
        rcases hdisj with h | h | h
        · omega
        · exact h
        · omega
      rw [hinp, List.length_nil] at hlstream
      split_ifs at hlstream <;> omega
    have hinpne : st.input.length ≠ 0 := by
      intro h0
      rw [h0] at hlstream
      split_ifs at hlstream <;> omega
    have hB2 : ¬ min blockSize st.input.length = 0 := by
      rw [Nat.min_eq_zero_iff]
      rintro (h | h)
      · omega
      · exact hinpne h
    have hstrip : st.input = encChunk crc ty pl ++ rest := by
      rcases hdisj with h | h | h
      · -- full block: the discarded tail is exactly the zero pad
        have hpadT : blockSize < st.j + headerSize := by omega
        rw [if_pos hpadT] at hrest
        exact List.append_inj_right hrest
          (by rw [hdl, List.length_replicate]; omega)
      · exfalso
        rw [h, List.length_nil] at hlstream
        split_ifs at hlstream <;> omega
      · -- fresh reader: nothing loaded yet
        have hpadF : ¬ blockSize < st.j + headerSize := by omega
        rw [if_neg hpadF, List.nil_append] at hrest
        have hbempty : st.buf.drop st.j = [] := by
          apply List.eq_nil_of_length_eq_zero
          omega
        rw [hbempty, List.nil_append] at hrest
        exact hrest
    have halL : RAligned st.input (loadBlock st) :=
      loadBlock_aligned ⟨herr, hnl, hjn, hnb, hrest, hdisj⟩
    rw [hstrip] at halL
    have hfit0 : headerSize + pl.length ≤ blockSize := by
      split_ifs at hfit <;> omega
    have hli : headerSize + pl.length ≤ st.input.length := by
      rw [hstrip, List.length_append, hlenc]
      omega
    have hnL : (loadBlock st).j + headerSize + pl.length ≤ (loadBlock st).n := by
      rw [loadBlock_j, loadBlock_n]
      omega
    obtain ⟨hstep, hpayload, halign⟩ :=
      headerStep_accept_align halL hnL hty1 hty4 hfirst
    have hA4 : (loadBlock st).j + headerSize ≤ (loadBlock st).n := by
      rw [loadBlock_j, loadBlock_n]
      omega
    refine ⟨_, ?_, ?_, ?_, ?_, ?_, halign, rfl, rfl, rfl⟩
    · rw [nextChunk, if_neg hA, if_neg hB1, if_neg hB2, if_pos hA4, hstep]
    · show (loadBlock st).j + headerSize = _
      rw [loadBlock_j]
      rcases hdisj with h | h | h
      · rw [if_pos (by omega)]
      · exfalso
        rw [h, List.length_nil] at hlstream
        split_ifs at hlstream <;> omega
      · rw [if_neg (by omega), h.2]
    · show (loadBlock st).j + headerSize + pl.length =
        (loadBlock st).j + headerSize + pl.length
      rfl
    · rfl
    · exact hpayload

/-- `ReadAll` on a freshly accepted chunk returns the buffered payload
followed by the payloads of all continuation chunks, consuming exactly
the encoder's chunk sequence and ending cleanly at the terminal chunk. -/
lemma readAllAux_run {crc : List Nat → Nat} :
    ∀ (N : Nat) (p' : List Nat) (st : RState) (q rest : List Nat),
      2 * p'.length + (if st.i = st.j then 0 else 1) ≤ N →
      st.i ≤ st.j →
      (st.buf.drop st.i).take (st.j - st.i) = q →
      (st.last = true → p' = [] ∧ RAligned rest st) →
      (st.last = false → p' ≠ [] ∧ st.j = blockSize ∧
        RAligned ((encChunks crc false 0 p').1 ++ rest) st) →
      ∃ st2, readAllAux crc st = (st2, q ++ p', none) ∧
        st2.i = st2.j ∧ RAligned rest st2 ∧
        st2.j = (if st.last then st.j else (encChunks crc false 0 p').2) ∧
        st2.strict = st.strict ∧ st2.checksum = st.checksum ∧
        st2.drops = st.drops := by
  intro N
  induction N using Nat.strong_induction_on with
  | _ N ih =>
    intro p' st q rest hN hij hq hlastT hlastF
    subst hq
    rw [readAllAux.eq_def]
    by_cases hije : st.i ≠ st.j
    · -- hand out the buffered payload, then continue with i = j
      rw [if_pos hije]
      have hmeas : 2 * p'.length +
          (if ({ st with i := st.j } : RState).i =
            ({ st with i := st.j } : RState).j then 0 else 1) ≤ 2 * p'.length := by
        rw [if_pos rfl]
        omega
      obtain ⟨st2, hrec, hij2, hal2, hoff2, hs2, hc2, hd2⟩ :=
        ih (2 * p'.length) (by split_ifs at hN <;> omega) p'
          ({ st with i := st.j } : RState) [] rest hmeas (Nat.le_refl _)
          (by simp) (fun h => hlastT h) (fun h => hlastF h)
      rw [hrec]
      exact ⟨st2, rfl, hij2, hal2, hoff2, hs2, hc2, hd2⟩
    · rw [if_neg hije]
      have hijeq : st.i = st.j := by omega
      by_cases hlast : st.last = true
      · -- terminal chunk already consumed: clean end of journal
        rw [if_pos hlast]
        obtain ⟨hp0, hal⟩ := hlastT hlast
        subst hp0
        refine ⟨st, ?_, hijeq, hal, by rw [if_pos hlast], rfl, rfl, rfl⟩
        rw [hijeq, Nat.sub_self, List.take_zero, List.nil_append]
      · rw [if_neg hlast]
        have hlastF2 : st.last = false := by
          rcases Bool.eq_false_or_eq_true st.last with h | h
          · exact absurd h hlast
          · exact h
        obtain ⟨hne, hjB, halC⟩ := hlastF hlastF2
        rw [if_pos hijeq] at hN
        have hplpos : 0 < p'.length := by
          rcases Nat.eq_zero_or_pos p'.length with h | h
          · exact absurd (List.length_eq_zero.mp h) hne
          · exact h
        have hpadT : blockSize < st.j + headerSize := by
          rw [hjB]
          have : headerSize = 7 := rfl
          omega
        have hbs : blockSize = 32768 := rfl
        have hhs : headerSize = 7 := rfl
        by_cases hsp : p'.length ≤ blockSize - (0 + headerSize)
        · -- the whole remaining payload fits: one terminal Last chunk
          rw [encChunks_fits hsp] at halC
          have hcty : chunkTy true false = lastChunkType := rfl
          rw [hcty] at halC
          have halF : RAligned ((if blockSize < st.j + headerSize then
              List.replicate (blockSize - st.j) 0 else []) ++
              (encChunk crc lastChunkType p' ++ rest)) st := by
            rw [if_pos hpadT, hjB, Nat.sub_self, List.replicate_zero,
              List.nil_append]
            exact halC
          obtain ⟨st1, hacc, hi1, hj1, hl1, hpay1, hal1, hs1, hc1, hd1⟩ :=
            @nextChunk_accept crc false st lastChunkType p' rest halF
              (by rw [if_pos hpadT]; omega)
              (by rw [fullChunkType, lastChunkType]; omega)
              (Nat.le_refl _)
              (fun h => Bool.noConfusion h)
          rw [if_pos hpadT] at hi1
          have hl1T : st1.last = true := by
            rw [hl1]
            rfl
          have hmeas1 : 2 * ([] : List Nat).length +
              (if st1.i = st1.j then 0 else 1) ≤ 1 := by
            rw [if_neg (by rw [hi1, hj1]; omega)]
            simp
          obtain ⟨st2, hrec2, hij2, hal2, hoff2, hs2, hc2, hd2⟩ :=
            ih 1 (by omega) [] st1 p' rest hmeas1 (by rw [hj1]; omega)
              (by rw [hj1, Nat.add_sub_cancel_left]; exact hpay1)
              (fun _ => ⟨rfl, hal1⟩)
              (fun h => absurd (hl1T.symm.trans h) (by simp))
          rw [List.append_nil] at hrec2
          rw [hacc]
          refine ⟨st2, ?_, hij2, hal2, ?_, hs2.trans hs1, hc2.trans hc1,
            hd2.trans hd1⟩
          · rw [hijeq, Nat.sub_self, List.take_zero, List.nil_append]
            exact hrec2
          · rw [hoff2, if_pos hl1T, hj1, hi1, if_neg hlast,
              encChunks_fits hsp]
        · -- the block boundary splits the payload: a Middle chunk first
          rw [encChunks_split hsp] at halC
          have hcty : chunkTy false false = middleChunkType := rfl
          rw [hcty] at halC
          have hc0 : (0 : Nat) + headerSize = headerSize := by omega
          have hlt0 : (p'.take (blockSize - (0 + headerSize))).length =
              blockSize - headerSize := by
            rw [List.length_take]
            omega
          have halF : RAligned ((if blockSize < st.j + headerSize then
              List.replicate (blockSize - st.j) 0 else []) ++
              (encChunk crc middleChunkType (p'.take (blockSize - (0 + headerSize))) ++
                ((encChunks crc false 0 (p'.drop (blockSize - (0 + headerSize)))).1 ++
                  rest))) st := by
            rw [if_pos hpadT, hjB, Nat.sub_self, List.replicate_zero,
              List.nil_append]
            rw [List.append_assoc] at halC
            exact halC
          obtain ⟨st1, hacc, hi1, hj1, hl1, hpay1, hal1, hs1, hc1, hd1⟩ :=
            @nextChunk_accept crc false st middleChunkType
              (p'.take (blockSize - (0 + headerSize)))
              ((encChunks crc false 0 (p'.drop (blockSize - (0 + headerSize)))).1 ++ rest)
              halF
              (by rw [if_pos hpadT, hlt0]; omega)
              (by rw [fullChunkType, middleChunkType]; omega)
              (by rw [middleChunkType, lastChunkType]; omega)
              (fun h => Bool.noConfusion h)
          rw [if_pos hpadT] at hi1
          have hl1F : st1.last = false := by
            rw [hl1]
            rfl
          have hdlen : (p'.drop (blockSize - (0 + headerSize))).length =
              p'.length - (blockSize - headerSize) := by
            rw [List.length_drop]
            omega
          have hdne : p'.drop (blockSize - (0 + headerSize)) ≠ [] := by
            intro h0
            have := congrArg List.length h0
            rw [hdlen, List.length_nil] at this
            omega
          have hmeas1 : 2 * (p'.drop (blockSize - (0 + headerSize))).length +
              (if st1.i = st1.j then 0 else 1) ≤
              2 * (p'.drop (blockSize - (0 + headerSize))).length + 1 := by
            split_ifs <;> omega
          obtain ⟨st2, hrec2, hij2, hal2, hoff2, hs2, hc2, hd2⟩ :=
            ih (2 * (p'.drop (blockSize - (0 + headerSize))).length + 1)
              (by rw [hdlen]; omega)
              (p'.drop (blockSize - (0 + headerSize))) st1
              (p'.take (blockSize - (0 + headerSize))) rest hmeas1
              (by rw [hj1]; omega)
              (by rw [hj1, Nat.add_sub_cancel_left]; exact hpay1)
              (fun h => absurd (hl1F.symm.trans h) (by simp))
              (fun _ => ⟨hdne, by rw [hj1, hi1, hlt0]; omega, hal1⟩)
          rw [List.take_append_drop] at hrec2
          rw [hacc]
          refine ⟨st2, ?_, hij2, hal2, ?_, hs2.trans hs1, hc2.trans hc1,
            hd2.trans hd1⟩
          · rw [hijeq, Nat.sub_self, List.take_zero, List.nil_append]
            exact hrec2
          · rw [hoff2, if_neg (by rw [hl1F]; simp), if_neg hlast,
              encChunks_split hsp]

/-- `Reader.Next`'s seek loop accepts the first chunk of the next
encoded journal (skipping the zero pad at a block boundary), and
`ReadAll` then returns exactly that journal's bytes. -/
lemma seekFirst_enc {crc : List Nat → Nat} {st : RState} {p rest : List Nat}
    (hal : RAligned ((if blockSize < st.j + headerSize then
      List.replicate (blockSize - st.j) 0 else []) ++
      ((encChunks crc true
        (if blockSize < st.j + headerSize then 0 else st.j) p).1 ++ rest)) st) :
    ∃ st1 st2, seekFirst crc st = (st1, none) ∧
      readAllAux crc st1 = (st2, p, none) ∧
      st2.i = st2.j ∧ RAligned rest st2 ∧
      st2.j = (encChunks crc true
        (if blockSize < st.j + headerSize then 0 else st.j) p).2 ∧
      st2.strict = st.strict ∧ st2.checksum = st.checksum ∧
      st2.drops = st.drops := by
  have hbs : blockSize = 32768 := rfl
  have hhs : headerSize = 7 := rfl
  have hjb : st.j ≤ blockSize := by
    obtain ⟨-, -, h1, h2, -, -⟩ := hal
    omega
  have ho'b : (if blockSize < st.j + headerSize then 0 else st.j) + headerSize ≤
      blockSize := by
    split_ifs with hc <;> omega
  by_cases hsp : p.length ≤ blockSize -
      ((if blockSize < st.j + headerSize then 0 else st.j) + headerSize)
  · -- the journal fits in one Full chunk
    rw [encChunks_fits hsp] at hal
    have hcty : chunkTy true true = fullChunkType := rfl
    rw [hcty] at hal
    obtain ⟨st1, hacc, hi1, hj1, hl1, hpay1, hal1, hs1, hc1, hd1⟩ :=
      @nextChunk_accept crc true st fullChunkType p rest hal
        (by omega)
        (Nat.le_refl _)
        (by rw [fullChunkType, lastChunkType]; omega)
        (fun _ => Or.inl rfl)
    have hl1T : st1.last = true := by
      rw [hl1]
      rfl
    obtain ⟨st2, hrec2, hij2, hal2, hoff2, hs2, hc2, hd2⟩ :=
      @readAllAux_run crc (2 * ([] : List Nat).length + 1) [] st1 p rest
        (by split_ifs <;> omega)
        (by rw [hj1]; omega)
        (by rw [hj1, Nat.add_sub_cancel_left]; exact hpay1)
        (fun _ => ⟨rfl, hal1⟩)
        (fun h => absurd (hl1T.symm.trans h) (by simp))
    rw [List.append_nil] at hrec2
    refine ⟨st1, st2, ?_, hrec2, hij2, hal2, ?_, hs2.trans hs1, hc2.trans hc1,
      hd2.trans hd1⟩
    · rw [seekFirst.eq_def]
      split
      · rename_i st3 heq
        rw [hacc] at heq
        injection heq with h1 h2
        rw [h1]
      · rename_i st3 e heq
        rw [hacc] at heq
        injection heq with h1 h2
        exact Option.noConfusion h2
    · rw [hoff2, if_pos hl1T, hj1, hi1, encChunks_fits hsp]
  · -- the first chunk stops at the block boundary
    rw [encChunks_split hsp] at hal
    have hcty : chunkTy false true = firstChunkType := rfl
    rw [hcty] at hal
    set o' := if blockSize < st.j + headerSize then 0 else st.j with ho'
    have hlt0 : (p.take (blockSize - (o' + headerSize))).length =
        blockSize - (o' + headerSize) := by
      rw [List.length_take]
      omega
    have halF : RAligned ((if blockSize < st.j + headerSize then
        List.replicate (blockSize - st.j) 0 else []) ++
        (encChunk crc firstChunkType (p.take (blockSize - (o' + headerSize))) ++
          ((encChunks crc false 0 (p.drop (blockSize - (o' + headerSize)))).1 ++
            rest))) st := by
      have h2 : encChunk crc firstChunkType (p.take (blockSize - (o' + headerSize))) ++
          ((encChunks crc false 0 (p.drop (blockSize - (o' + headerSize)))).1 ++ rest) =
          (encChunk crc firstChunkType (p.take (blockSize - (o' + headerSize))) ++
            (encChunks crc false 0 (p.drop (blockSize - (o' + headerSize)))).1) ++ rest := by
        rw [List.append_assoc]
      rw [h2]
      exact hal
    obtain ⟨st1, hacc, hi1, hj1, hl1, hpay1, hal1, hs1, hc1, hd1⟩ :=
      @nextChunk_accept crc true st firstChunkType
        (p.take (blockSize - (o' + headerSize)))
        ((encChunks crc false 0 (p.drop (blockSize - (o' + headerSize)))).1 ++ rest)
        halF
        (by rw [hlt0]; omega)
        (by rw [fullChunkType, firstChunkType]; omega)
        (by rw [firstChunkType, lastChunkType]; omega)
        (fun _ => Or.inr rfl)
    have hl1F : st1.last = false := by
      rw [hl1]
      rfl
    have hdne : p.drop (blockSize - (o' + headerSize)) ≠ [] := by
      intro h0
      have := congrArg List.length h0
      rw [List.length_drop, List.length_nil] at this
      omega
    obtain ⟨st2, hrec2, hij2, hal2, hoff2, hs2, hc2, hd2⟩ :=
      @readAllAux_run crc
        (2 * (p.drop (blockSize - (o' + headerSize))).length + 1)
        (p.drop (blockSize - (o' + headerSize))) st1
        (p.take (blockSize - (o' + headerSize))) rest
        (by split_ifs <;> omega)
        (by rw [hj1]; omega)
        (by rw [hj1, Nat.add_sub_cancel_left]; exact hpay1)
        (fun h => absurd (hl1F.symm.trans h) (by simp))
        (fun _ => ⟨hdne, by rw [hj1, hi1, hlt0]; omega, hal1⟩)
    rw [List.take_append_drop] at hrec2
    refine ⟨st1, st2, ?_, hrec2, hij2, hal2, ?_, hs2.trans hs1, hc2.trans hc1,
      hd2.trans hd1⟩
    · rw [seekFirst.eq_def]
      split
      · rename_i st3 heq
        rw [hacc] at heq
        injection heq with h1 h2
        rw [h1]
      · rename_i st3 e heq
        rw [hacc] at heq
        injection heq with h1 h2
        exact Option.noConfusion h2
    · rw [hoff2, if_neg (by rw [hl1F]; simp), encChunks_split hsp]

/-- At the end of the encoded stream `Reader.Next`'s seek loop reports
a clean `io.EOF`. -/
lemma seekFirst_end {crc : List Nat → Nat} {st : RState}
    (hal : RAligned [] st) :
    seekFirst crc st = ({ st with err := some .eof }, some .eof) := by
  obtain ⟨herr, hnl, hjn, hnb, hrest, hdisj⟩ := hal
  obtain ⟨hbd, hinp⟩ := List.append_eq_nil.mp hrest
  have hjn2 : st.j = st.n := by
    have := congrArg List.length hbd
    rw [List.length_drop, List.length_nil, ← hnl] at this
    omega
  have hhs : headerSize = 7 := rfl
  have hnc : nextChunk crc true st = ({ st with err := some .eof }, some .eof) := by
    rw [nextChunk, if_neg (by omega)]
    by_cases hpart : st.n < blockSize ∧ 0 < st.n
    · rw [if_pos hpart, partialStep, if_neg (by simp)]
    · rw [if_neg hpart, if_pos (by rw [hinp]; simp), if_neg (by simp)]
  rw [seekFirst.eq_def]
  split
  · rename_i st3 heq
    rw [hnc] at heq
    injection heq with h1 h2
    exact Option.noConfusion h2
  · rename_i st3 e heq
    rw [hnc] at heq
    injection heq with h1 h2
    injection h2 with h3
    subst h3
    rw [dif_neg (by simp), ← h1]

/-- The read loop of the package documentation's example returns every
encoded journal, in order, and ends cleanly. -/
lemma readLoop_enc {crc : List Nat → Nat} :
    ∀ (js : List (List Nat)) (st : RState),
      RAligned (encJournals crc st.j js) st →
      ∃ st3, readLoop crc st = (st3, js, none) ∧ st3.drops = st.drops := by
  intro js
  induction js with
  | nil =>
    intro st hal
    have herr : ({ st with seq := st.seq + 1 } : RState).err = none := hal.1
    have halB : RAligned ([] : List Nat)
        ({ st with seq := st.seq + 1, i := st.j, err := none } : RState) :=
      ⟨rfl, hal.2.1, hal.2.2.1, hal.2.2.2.1, hal.2.2.2.2.1, hal.2.2.2.2.2⟩
    have hseek := @seekFirst_end crc
      ({ st with seq := st.seq + 1, i := st.j, err := none }) halB
    have hrn : rNext crc st =
        ({ { st with seq := st.seq + 1, i := st.j, err := none } with
            err := some .eof }, .error .eof) := by
      rw [rNext, herr]
      dsimp only
      rw [hseek]
    rw [readLoop.eq_def]
    split
    · rename_i st1 e heq
      rw [hrn] at heq
      injection heq with h1 h2
      injection h2 with h3
      subst h3
      subst h1
      rw [if_pos rfl]
      exact ⟨_, rfl, rfl⟩
    · rename_i st1 sr heq
      rw [hrn] at heq
      injection heq with h1 h2
      exact Except.noConfusion h2
  | cons p rest ih =>
    intro st hal
    rw [encJournals_cons, List.append_assoc] at hal
    have herr : ({ st with seq := st.seq + 1 } : RState).err = none := hal.1
    have halB2 : RAligned ((if blockSize <
        ({ st with seq := st.seq + 1, i := st.j, err := none } : RState).j + headerSize then
        List.replicate (blockSize -
          ({ st with seq := st.seq + 1, i := st.j, err := none } : RState).j) 0 else []) ++
        ((encChunks crc true (if blockSize <
          ({ st with seq := st.seq + 1, i := st.j, err := none } : RState).j + headerSize
          then 0 else ({ st with seq := st.seq + 1, i := st.j, err := none } : RState).j) p).1 ++
          encJournals crc (encChunks crc true (if blockSize <
            ({ st with seq := st.seq + 1, i := st.j, err := none } : RState).j + headerSize
            then 0 else
            ({ st with seq := st.seq + 1, i := st.j, err := none } : RState).j) p).2 rest))
        ({ st with seq := st.seq + 1, i := st.j, err := none } : RState) :=
      ⟨rfl, hal.2.1, hal.2.2.1, hal.2.2.2.1, hal.2.2.2.2.1, hal.2.2.2.2.2⟩
    obtain ⟨st1, st2, hseek, hread, hij2, hal2, hoff2, hs2, hc2, hd2⟩ :=
      seekFirst_enc halB2
    have hrn : rNext crc st = (st1, .ok ⟨st1.seq, none⟩) := by
      rw [rNext, herr]
      dsimp only
      rw [hseek]
    rw [← hoff2] at hal2
    obtain ⟨st3, hloop, hd3⟩ := ih st2 hal2
    rw [readLoop.eq_def]
    split
    · rename_i st1' e heq
      rw [hrn] at heq
      injection heq with h1 h2
      exact Except.noConfusion h2
    · rename_i st1' sr heq
      rw [hrn] at heq
      injection heq with h1 h2
      subst h1
      split
      · rename_i st2' bytes heq2
        rw [hread] at heq2
        injection heq2 with h3 h4
        injection h4 with h5 h6
        subst h3
        subst h5
        rw [hloop]
        exact ⟨st3, rfl, hd3.trans hd2⟩
      · rename_i st2' bytes e heq2
        rw [hread] at heq2
        injection heq2 with h3 h4
        injection h4 with h5 h6
        exact Option.noConfusion h6

/-- Every encoded chunk sequence is at least one header long. -/
lemma encChunks_one_len {crc : List Nat → Nat} {first : Bool} {i : Nat}
    {p : List Nat} : headerSize ≤ (encChunks crc first i p).1.length := by
  by_cases hsp : p.length ≤ blockSize - (i + headerSize)
  · rw [encChunks_fits hsp]
    show headerSize ≤ (encChunk crc (chunkTy true first) p).length
    rw [length_encChunk]
    omega
  · rw [encChunks_split hsp]
    show headerSize ≤ (encChunk crc (chunkTy false first)
      (p.take (blockSize - (i + headerSize))) ++
      (encChunks crc false 0 (p.drop (blockSize - (i + headerSize)))).1).length
    rw [List.length_append, length_encChunk]
    omega

/-- The encoder's end offset is at least one header past the block
start. -/
lemma encChunks_two_ge {crc : List Nat → Nat} :
    ∀ (N : Nat) (p : List Nat) (first : Bool) (i : Nat),
      p.length + (if blockSize - (i + headerSize) = 0 then 1 else 0) ≤ N →
      headerSize ≤ (encChunks crc first i p).2 := by
  intro N
  induction N using Nat.strong_induction_on with
  | _ N ih =>
    intro p first i hN
    have hb7 : blockSize - (0 + headerSize) ≠ 0 := by
      simp [blockSize, headerSize]
    by_cases hsp : p.length ≤ blockSize - (i + headerSize)
    · rw [encChunks_fits hsp]
      show headerSize ≤ i + headerSize + p.length
      omega
    · rw [encChunks_split hsp]
      show headerSize ≤
        (encChunks crc false 0 (p.drop (blockSize - (i + headerSize)))).2
      by_cases hc : blockSize - (i + headerSize) = 0
      · rw [if_pos hc] at hN
        refine ih (N - 1) (by omega) _ false 0 ?_
        rw [if_neg hb7, hc, List.drop_zero]
        omega
      · rw [if_neg hc] at hN
        refine ih (N - 1) (by omega) _ false 0 ?_
        rw [if_neg hb7, List.length_drop]
        omega

/-- The header-parsing step on an all-zero block tail: reported to the
dropper as a zero header and, outside strict mode, skipped with the
cursor moved to the end of the block. -/
lemma headerStep_zeroskip {crc : List Nat → Nat} {first : Bool} {st : RState}
    {k : Nat} {rest : List Nat}
    (hal : RAligned (List.replicate k 0 ++ rest) st)
    (hstrict : st.strict = false)
    (h7 : st.j + headerSize ≤ st.n)
    (hnk : st.n - st.j ≤ k) :
    headerStep crc first st =
      ({ st with i := st.n, j := st.n, drops := st.drops ++ [(st.n - st.j, CorruptReason.zeroHeader)] }, some .errSkip) ∧
      RAligned (List.replicate (k - (st.n - st.j)) 0 ++ rest)
        { st with i := st.n, j := st.n, drops := st.drops ++ [(st.n - st.j, CorruptReason.zeroHeader)] } := by
  obtain ⟨herr, hnl, hjn, hnb, hrest, hdisj⟩ := hal
  have hhs : headerSize = 7 := rfl
  have hdl : (st.buf.drop st.j).length = st.n - st.j := by
    rw [List.length_drop, hnl]
  have hpre7 : (st.buf.drop st.j).take 7 = List.replicate 7 0 := by
    have h1 : ((st.buf.drop st.j) ++ st.input).take 7 =
        (st.buf.drop st.j).take 7 := by
      rw [List.take_append_eq_append_take,
        Nat.sub_eq_zero_of_le (by omega), List.take_zero, List.append_nil]
    have h2 : (List.replicate k 0 ++ rest).take 7 = List.replicate 7 0 := by
      rw [List.take_append_eq_append_take, List.take_replicate,
        List.length_replicate, Nat.sub_eq_zero_of_le (by omega),
        List.take_zero, List.append_nil]
      have hm : min 7 k = 7 := by omega
      rw [hm]
    rw [← h1, hrest, h2]
  have hby : ∀ δ, δ < 7 → st.buf.getD (st.j + δ) 0 = 0 := by
    intro δ hδ
    rw [getD_of_take_seg hpre7 hδ]
    interval_cases δ <;> rfl
  have hb0 : st.buf.getD st.j 0 = 0 := by simpa using hby 0 (by omega)
  have hb1 : st.buf.getD (st.j + 1) 0 = 0 := hby 1 (by omega)
  have hb2 : st.buf.getD (st.j + 2) 0 = 0 := hby 2 (by omega)
  have hb3 : st.buf.getD (st.j + 3) 0 = 0 := hby 3 (by omega)
  have hb4 : st.buf.getD (st.j + 4) 0 = 0 := hby 4 (by omega)
  have hb5 : st.buf.getD (st.j + 5) 0 = 0 := hby 5 (by omega)
  have hb6 : st.buf.getD (st.j + 6) 0 = 0 := hby 6 (by omega)
  constructor
  · rw [headerStep]
    dsimp only
    rw [hb0, hb1, hb2, hb3, hb4, hb5, hb6]
    rw [show readLE32 0 0 0 0 = 0 from rfl, show readLE16 0 0 = 0 from rfl]
    rw [if_pos ⟨rfl, rfl, rfl⟩, corruptR_pair,
      if_neg (by rw [hstrict]; simp)]
  · refine ⟨herr, hnl, Nat.le_refl _, hnb, ?_, ?_⟩
    · show st.buf.drop st.n ++ st.input = _
      have hbe : st.buf.drop st.n = [] := by
        apply List.drop_eq_nil_of_le
        omega
      rw [hbe, List.nil_append]
      have h3 : st.input = ((st.buf.drop st.j) ++ st.input).drop (st.n - st.j) := by
        rw [List.drop_append_eq_append_drop,
          List.drop_eq_nil_of_le (le_of_eq hdl), List.nil_append, hdl,
          Nat.sub_self, List.drop_zero]
      rw [h3, hrest, List.drop_append_eq_append_drop, List.drop_replicate,
        List.length_replicate, Nat.sub_eq_zero_of_le hnk, List.drop_zero]
    · show st.n = blockSize ∨ st.input = [] ∨ (st.n = 0 ∧ st.n = 0)
      rcases hdisj with h | h | h
      · exact Or.inl h
      · exact Or.inr (Or.inl h)
      · exact Or.inr (Or.inr ⟨h.1, h.1⟩)

/-- `nextChunk` on an all-zero buffered tail: recoverable skip. -/
lemma nextChunk_zeroskip_in {crc : List Nat → Nat} {first : Bool} {st : RState}
    {k : Nat} {rest : List Nat}
    (hal : RAligned (List.replicate k 0 ++ rest) st)
    (hstrict : st.strict = false)
    (h7 : st.j + headerSize ≤ st.n)
    (hnk : st.n - st.j ≤ k) :
    nextChunk crc first st =
      ({ st with i := st.n, j := st.n, drops := st.drops ++ [(st.n - st.j, CorruptReason.zeroHeader)] }, some .errSkip) ∧
      RAligned (List.replicate (k - (st.n - st.j)) 0 ++ rest)
        { st with i := st.n, j := st.n, drops := st.drops ++ [(st.n - st.j, CorruptReason.zeroHeader)] } := by
  obtain ⟨hs, hal1⟩ := headerStep_zeroskip hal hstrict h7 hnk
  exact ⟨by rw [nextChunk, if_pos h7, hs], hal1⟩

/-- `nextChunk` when the cursor has exhausted the block and at least a
whole zero block follows: the next block is loaded and skipped as a
zero header, reporting a `blockSize`-sized drop. -/
lemma nextChunk_zeroskip_reload {crc : List Nat → Nat} {first : Bool}
    {st : RState} {k : Nat} {rest : List Nat}
    (hal : RAligned (List.replicate k 0 ++ rest) st)
    (hstrict : st.strict = false)
    (hnj : ¬ (st.j + headerSize ≤ st.n))
    (hkbig : st.n - st.j + blockSize ≤ k) :
    ∃ st1, nextChunk crc first st = (st1, some .errSkip) ∧
      RAligned (List.replicate (k - (st.n - st.j) - blockSize) 0 ++ rest) st1 ∧
      st1.strict = false ∧ st1.checksum = st.checksum ∧
      st1.j = st1.n ∧ st1.n = blockSize ∧
      st1.drops = st.drops ++ [(blockSize, CorruptReason.zeroHeader)] := by
  obtain ⟨herr, hnl, hjn, hnb, hrest, hdisj⟩ := hal
  have hbs : blockSize = 32768 := rfl
  have hhs : headerSize = 7 := rfl
  have hdl : (st.buf.drop st.j).length = st.n - st.j := by
    rw [List.length_drop, hnl]
  have hlstream := congrArg List.length hrest
  rw [List.length_append, List.length_append, List.length_replicate, hdl]
    at hlstream
  have hB1 : ¬ (st.n < blockSize ∧ 0 < st.n) := by
    rintro ⟨hlt, hpos⟩
    have hinp : st.input = [] := by
      rcases hdisj with h | h | h
      · omega
      · exact h
      · omega
    rw [hinp, List.length_nil] at hlstream
    omega
  have hinpne : st.input.length ≠ 0 := by
    intro h0
    rw [h0] at hlstream
    omega
  have hB2 : ¬ min blockSize st.input.length = 0 := by
    rw [Nat.min_eq_zero_iff]
    rintro (h | h)
    · omega
    · exact hinpne h
  have hinput : st.input = List.replicate (k - (st.n - st.j)) 0 ++ rest := by
    have h3 : st.input = ((st.buf.drop st.j) ++ st.input).drop (st.n - st.j) := by
      rw [List.drop_append_eq_append_drop,
        List.drop_eq_nil_of_le (le_of_eq hdl), List.nil_append, hdl,
        Nat.sub_self, List.drop_zero]
    have hz : st.n - st.j - k = 0 := by omega
    rw [h3, hrest, List.drop_append_eq_append_drop, List.drop_replicate,
      List.length_replicate, hz, List.drop_zero]
  have halL : RAligned st.input (loadBlock st) :=
    loadBlock_aligned ⟨herr, hnl, hjn, hnb, hrest, hdisj⟩
  rw [hinput] at halL
  have hlin : blockSize ≤ st.input.length := by
    have := congrArg List.length hinput
    rw [List.length_append, List.length_replicate] at this
    omega
  have hn' : (loadBlock st).n = blockSize := by
    rw [loadBlock_n]
    omega
  have h7' : (loadBlock st).j + headerSize ≤ (loadBlock st).n := by
    rw [loadBlock_j, hn']
    omega
  have hnk' : (loadBlock st).n - (loadBlock st).j ≤ k - (st.n - st.j) := by
    rw [loadBlock_j, hn']
    omega
  obtain ⟨hs, hal1⟩ := headerStep_zeroskip halL hstrict h7' hnk'
  refine ⟨{ loadBlock st with i := (loadBlock st).n, j := (loadBlock st).n, drops := (loadBlock st).drops ++ [((loadBlock st).n - (loadBlock st).j, CorruptReason.zeroHeader)] }, ?_, ?_, ?_, ?_, ?_, ?_, ?_⟩
  · rw [nextChunk, if_neg hnj, if_neg hB1, if_neg hB2, if_pos h7', hs]
  · have harith : k - (st.n - st.j) - ((loadBlock st).n - (loadBlock st).j) =
        k - (st.n - st.j) - blockSize := by
      rw [loadBlock_j, hn']
      omega
    rw [harith] at hal1
    exact hal1
  · exact hstrict
  · rfl
  · rfl
  · show (loadBlock st).n = blockSize
    exact hn'
  · show st.drops ++ [((loadBlock st).n - (loadBlock st).j, CorruptReason.zeroHeader)] =
      st.drops ++ [(blockSize, CorruptReason.zeroHeader)]
    rw [loadBlock_j, hn', Nat.sub_zero]

/-- An `errSkip` result makes `Reader.Next`'s seek loop continue from
the skipped position. -/
lemma seekFirst_skip {crc : List Nat → Nat} {st st1 : RState}
    (h : nextChunk crc true st = (st1, some .errSkip)) :
    seekFirst crc st = seekFirst crc st1 := by
  rw [seekFirst.eq_def]
  split
  · rename_i st3 heq
    rw [h] at heq
    injection heq with h1 h2
    exact Option.noConfusion h2
  · rename_i st3 e heq
    rw [h] at heq
    injection heq with h1 h2
    injection h2 with h3
    subst h1
    subst h3
    rw [dif_pos rfl]

/-- `seekFirst_enc` specialised to a cursor at the start of a block:
no padding is consumed and the chunks are laid out from offset 0. -/
lemma seekFirst_enc0 {crc : List Nat → Nat} {st : RState} {p rest : List Nat}
    (hal : RAligned ((encChunks crc true 0 p).1 ++ rest) st)
    (hj0 : st.j = 0) :
    ∃ st1 st2, seekFirst crc st = (st1, none) ∧
      readAllAux crc st1 = (st2, p, none) ∧
      st2.i = st2.j ∧ RAligned rest st2 ∧
      st2.j = (encChunks crc true 0 p).2 ∧
      st2.strict = st.strict ∧ st2.checksum = st.checksum ∧
      st2.drops = st.drops := by
  have hbs : blockSize = 32768 := rfl
  have hhs : headerSize = 7 := rfl
  have hc0 : ¬ blockSize < st.j + headerSize := by omega
  have hal' : RAligned ((if blockSize < st.j + headerSize then
      List.replicate (blockSize - st.j) 0 else []) ++
      ((encChunks crc true
        (if blockSize < st.j + headerSize then 0 else st.j) p).1 ++ rest)) st := by
    rw [if_neg hc0, if_neg hc0, List.nil_append, hj0]
    exact hal
  obtain ⟨st1, st2, h1, h2, h3, h4, h5, h6, h7, h8⟩ := seekFirst_enc hal'
  rw [if_neg hc0, hj0] at h5
  exact ⟨st1, st2, h1, h2, h3, h4, h5, h6, h7, h8⟩

/-- `seekFirst_enc` specialised to a cursor at the end of a full block:
the remaining tail is too small for a header, so the next block is
loaded and the chunks are laid out from offset 0. -/
lemma seekFirst_enc_atEnd {crc : List Nat → Nat} {st : RState} {p rest : List Nat}
    (hal : RAligned ((encChunks crc true 0 p).1 ++ rest) st)
    (hjb : st.j = blockSize) :
    ∃ st1 st2, seekFirst crc st = (st1, none) ∧
      readAllAux crc st1 = (st2, p, none) ∧
      st2.i = st2.j ∧ RAligned rest st2 ∧
      st2.j = (encChunks crc true 0 p).2 ∧
      st2.strict = st.strict ∧ st2.checksum = st.checksum ∧
      st2.drops = st.drops := by
  have hbs : blockSize = 32768 := rfl
  have hhs : headerSize = 7 := rfl
  have hc1 : blockSize < st.j + headerSize := by omega
  have hsub : blockSize - st.j = 0 := by omega
  have hal' : RAligned ((if blockSize < st.j + headerSize then
      List.replicate (blockSize - st.j) 0 else []) ++
      ((encChunks crc true
        (if blockSize < st.j + headerSize then 0 else st.j) p).1 ++ rest)) st := by
    rw [if_pos hc1, if_pos hc1, hsub, List.replicate_zero, List.nil_append]
    exact hal
  obtain ⟨st1, st2, h1, h2, h3, h4, h5, h6, h7, h8⟩ := seekFirst_enc hal'
  rw [if_pos hc1] at h5
  exact ⟨st1, st2, h1, h2, h3, h4, h5, h6, h7, h8⟩

/-- `seekFirst` across an all-zero region covering the rest of the
current block plus at least one further whole block: in non-strict mode
the zero headers are skipped, a whole-block drop with reason
`zeroHeader` is reported to the dropper, and the seek continues beyond
the zero block. -/
lemma seekFirst_zeroskip {crc : List Nat → Nat} {st : RState} {k : Nat}
    {rest : List Nat}
    (hal : RAligned (List.replicate k 0 ++ rest) st)
    (hstrict : st.strict = false)
    (hkbig : st.n - st.j + blockSize ≤ k) :
    ∃ stB, seekFirst crc st = seekFirst crc stB ∧
      RAligned (List.replicate (k - (st.n - st.j) - blockSize) 0 ++ rest) stB ∧
      stB.strict = false ∧ stB.j = stB.n ∧ stB.n = blockSize ∧
      (blockSize, CorruptReason.zeroHeader) ∈ stB.drops := by
  have hbs : blockSize = 32768 := rfl
  have hhs : headerSize = 7 := rfl
  by_cases hA : st.j + headerSize ≤ st.n
  · obtain ⟨hnc1, halA⟩ :=
      @nextChunk_zeroskip_in crc true st k rest hal hstrict hA (by omega)
    have hstrA : ({ st with i := st.n, j := st.n, drops := st.drops ++ [(st.n - st.j, CorruptReason.zeroHeader)] } : RState).strict = false := hstrict
    have hnjA : ¬ (({ st with i := st.n, j := st.n, drops := st.drops ++ [(st.n - st.j, CorruptReason.zeroHeader)] } : RState).j + headerSize ≤ ({ st with i := st.n, j := st.n, drops := st.drops ++ [(st.n - st.j, CorruptReason.zeroHeader)] } : RState).n) := by
      show ¬ (st.n + headerSize ≤ st.n)
      omega
    have hkbA : ({ st with i := st.n, j := st.n, drops := st.drops ++ [(st.n - st.j, CorruptReason.zeroHeader)] } : RState).n - ({ st with i := st.n, j := st.n, drops := st.drops ++ [(st.n - st.j, CorruptReason.zeroHeader)] } : RState).j + blockSize ≤ k - (st.n - st.j) := by
      show st.n - st.n + blockSize ≤ k - (st.n - st.j)
      omega
    obtain ⟨stB, hncB, halB, hstrB, -, hjB, hnB, hdropsB⟩ :=
      @nextChunk_zeroskip_reload crc true _ _ _ halA hstrA hnjA hkbA
    have hz : k - (st.n - st.j) - (({ st with i := st.n, j := st.n, drops := st.drops ++ [(st.n - st.j, CorruptReason.zeroHeader)] } : RState).n - ({ st with i := st.n, j := st.n, drops := st.drops ++ [(st.n - st.j, CorruptReason.zeroHeader)] } : RState).j) - blockSize = k - (st.n - st.j) - blockSize := by
      show k - (st.n - st.j) - (st.n - st.n) - blockSize =
        k - (st.n - st.j) - blockSize
      omega
    rw [hz] at halB
    refine ⟨stB, (seekFirst_skip hnc1).trans (seekFirst_skip hncB), halB,
      hstrB, hjB, hnB, ?_⟩
    rw [hdropsB]
    simp
  · obtain ⟨stB, hncB, halB, hstrB, -, hjB, hnB, hdropsB⟩ :=
      @nextChunk_zeroskip_reload crc true st k rest hal hstrict hA hkbig
    refine ⟨stB, seekFirst_skip hncB, halB, hstrB, hjB, hnB, ?_⟩
    rw [hdropsB]
    simp

/-- One `Reader.Next`-plus-`ReadAll` round of the read loop, with the
seek and read behaviour supplied as hypotheses. -/
lemma readLoop_step {crc : List Nat → Nat} {st st1 st2 : RState} {p : List Nat}
    (herr : st.err = none)
    (hseek : seekFirst crc { st with seq := st.seq + 1, i := st.j, err := none } =
      (st1, none))
    (hread : readAllAux crc st1 = (st2, p, none)) :
    readLoop crc st = ((readLoop crc st2).1, p :: (readLoop crc st2).2.1,
      (readLoop crc st2).2.2) := by
  have herr' : ({ st with seq := st.seq + 1 } : RState).err = none := herr
  have hrn : rNext crc st = (st1, .ok ⟨st1.seq, none⟩) := by
    rw [rNext, herr']
    dsimp only
    rw [hseek]
  rw [readLoop.eq_def]
  split
  · rename_i st1' e heq
    rw [hrn] at heq
    injection heq with h1 h2
    exact Except.noConfusion h2
  · rename_i st1' sr heq
    rw [hrn] at heq
    injection heq with h1 h2
    subst h1
    split
    · rename_i st2' bytes heq2
      rw [hread] at heq2
      injection heq2 with h3 h4
      injection h4 with h5 h6
      subst h3
      subst h5
      rfl
    · rename_i st2' bytes e heq2
      rw [hread] at heq2
      injection heq2 with h3 h4
      injection h4 with h5 h6
      exact Option.noConfusion h6

/-- Reading a stream holding two encoded journals separated by the
first journal's block padding and one entire zero block, in non-strict
mode: both journals are delivered and the zero block's drop is
recorded. -/
lemma readTwo_zeroblock {crc : List Nat → Nat} {st : RState} {p1 p2 : List Nat}
    (hal : RAligned ((encChunks crc true 0 p1).1 ++
      (List.replicate (blockSize - (encChunks crc true 0 p1).2) 0 ++
        (List.replicate blockSize 0 ++ encJournals crc 0 [p2]))) st)
    (hj0 : st.j = 0)
    (hstrict : st.strict = false) :
    ∃ stF, readLoop crc st = (stF, [p1, p2], none) ∧
      (blockSize, CorruptReason.zeroHeader) ∈ stF.drops := by
  have hbs : blockSize = 32768 := rfl
  have hhs : headerSize = 7 := rfl
  have herr : st.err = none := hal.1
  have hc00 : ¬ blockSize < 0 + headerSize := by omega
  have hS2 : encJournals crc 0 [p2] = (encChunks crc true 0 p2).1 := by
    rw [encJournals_cons, if_neg hc00, List.nil_append, if_neg hc00,
      show encJournals crc (encChunks crc true 0 p2).2 ([] : List (List Nat)) = []
        from rfl, List.append_nil]
  have hS2len : headerSize ≤ (encJournals crc 0 [p2]).length := by
    rw [hS2]
    exact encChunks_one_len
  have h7o1 : headerSize ≤ (encChunks crc true 0 p1).2 :=
    encChunks_two_ge (p1.length + 1) p1 true 0 (by split_ifs <;> omega)
  have halB1 : RAligned ((encChunks crc true 0 p1).1 ++
      (List.replicate (blockSize - (encChunks crc true 0 p1).2) 0 ++
        (List.replicate blockSize 0 ++ encJournals crc 0 [p2])))
      ({ st with seq := st.seq + 1, i := st.j, err := none } : RState) :=
    ⟨rfl, hal.2.1, hal.2.2.1, hal.2.2.2.1, hal.2.2.2.2.1, hal.2.2.2.2.2⟩
  obtain ⟨st1, st2, hseek1, hread1, -, hal2, hoff2, hs2c, -, -⟩ :=
    seekFirst_enc0 halB1 hj0
  have hs2 : st2.strict = false := hs2c.trans hstrict
  have herr2 : st2.err = none := hal2.1
  have hjn2 : st2.j ≤ st2.n := hal2.2.2.1
  have hnb2 : st2.n ≤ blockSize := hal2.2.2.2.1
  have hbl2 : st2.n = st2.buf.length := hal2.2.1
  have hn2 : st2.n = blockSize := by
    rcases hal2.2.2.2.2.2 with h | h | h
    · exact h
    · exfalso
      have hlen := congrArg List.length hal2.2.2.2.2.1
      simp only [List.length_append, List.length_drop, List.length_replicate,
        h, List.length_nil] at hlen
      omega
    · omega
  have hmerge : List.replicate (blockSize - (encChunks crc true 0 p1).2) 0 ++
      (List.replicate blockSize 0 ++ encJournals crc 0 [p2]) =
      List.replicate (blockSize - (encChunks crc true 0 p1).2 + blockSize) 0 ++
        encJournals crc 0 [p2] := by
    rw [← List.append_assoc, ← List.replicate_add]
  rw [hmerge] at hal2
  have halB2 : RAligned (List.replicate
      (blockSize - (encChunks crc true 0 p1).2 + blockSize) 0 ++
      encJournals crc 0 [p2])
      ({ st2 with seq := st2.seq + 1, i := st2.j, err := none } : RState) :=
    ⟨rfl, hal2.2.1, hal2.2.2.1, hal2.2.2.2.1, hal2.2.2.2.2.1, hal2.2.2.2.2.2⟩
  have hkb : st2.n - st2.j + blockSize ≤
      blockSize - (encChunks crc true 0 p1).2 + blockSize := by omega
  obtain ⟨stB, hchain, halBr, hstrB, hjB, hnB, hmemB⟩ :=
    @seekFirst_zeroskip crc
      ({ st2 with seq := st2.seq + 1, i := st2.j, err := none })
      (blockSize - (encChunks crc true 0 p1).2 + blockSize)
      (encJournals crc 0 [p2]) halB2 hs2 hkb
  have hzz : blockSize - (encChunks crc true 0 p1).2 + blockSize -
      (({ st2 with seq := st2.seq + 1, i := st2.j, err := none } : RState).n -
        ({ st2 with seq := st2.seq + 1, i := st2.j, err := none } : RState).j) -
      blockSize = 0 := by
    show blockSize - (encChunks crc true 0 p1).2 + blockSize -
      (st2.n - st2.j) - blockSize = 0
    omega
  rw [hzz, List.replicate_zero, List.nil_append] at halBr
  have halS2 : RAligned ((encChunks crc true 0 p2).1 ++ ([] : List Nat)) stB := by
    rw [List.append_nil, ← hS2]
    exact halBr
  obtain ⟨st1', st4, hseek2, hread2, -, hal4, -, -, -, hd4⟩ :=
    seekFirst_enc_atEnd halS2 (hjB.trans hnB)
  have hseekJ2 : seekFirst crc
      ({ st2 with seq := st2.seq + 1, i := st2.j, err := none } : RState) =
      (st1', none) := hchain.trans hseek2
  have hal4e : RAligned (encJournals crc st4.j ([] : List (List Nat))) st4 := hal4
  obtain ⟨st5, hrl4, hd5⟩ := readLoop_enc ([] : List (List Nat)) st4 hal4e
  refine ⟨st5, ?_, ?_⟩
  · rw [readLoop_step herr hseek1 hread1, readLoop_step herr2 hseekJ2 hread2,
      hrl4]
  · rw [hd5, hd4]
    exact hmemB

end ReaderEnc

/-- C1: the write/read round-trip of the journal package: writing any
finite sequence of journals (empty ones and ones longer than a block
included) with `Writer.Next`/`singleWriter.Write` followed by `Close`
succeeds, and reading the produced byte stream back with
`Reader.Next`/`singleReader.Read`-based `ReadAll` yields exactly the
same sequence of byte strings — count, order, and content preserved —
for every checksum function and both strict/verify-checksum flags,
wherever the block boundaries fall. -/
theorem journal_roundtrip (crc : List Nat → Nat) (strict checksum : Bool)
    (js : List (List Nat)) :
    ∃ bytes, writeJournals crc js = some bytes ∧
      readJournals crc strict checksum bytes = (js, none) := by
  refine ⟨encJournals crc 0 js, writer_refines, ?_⟩
  have hal : RAligned (encJournals crc
      (newReader (encJournals crc 0 js) strict checksum).j js)
      (newReader (encJournals crc 0 js) strict checksum) := by
    refine ⟨rfl, rfl, Nat.le_refl _, ?_, ?_, ?_⟩
    · show (0 : Nat) ≤ blockSize
      omega
    · show ([] : List Nat).drop 0 ++ encJournals crc 0 js =
        encJournals crc 0 js
      rw [List.drop_nil, List.nil_append]
    · right
      right
      exact ⟨rfl, rfl⟩
  obtain ⟨st3, hloop, -⟩ := readLoop_enc js _ hal
  rw [readJournals, hloop]

/-- C7: a 32768-byte block of zero bytes injected between two encoded
journals (after the zero padding that closes the first journal's final
block) is skipped by a non-strict reader: the all-zero header is
treated as end of data in that block, the skipped zero block is
reported to the dropper as a `blockSize`-byte drop with reason
`zeroHeader`, and both adjacent journals are still delivered intact,
in order, and with no error. -/
theorem zero_block_skipped (crc : List Nat → Nat) (checksum : Bool)
    (p1 p2 : List Nat) :
    readJournals crc false checksum
        (encJournals crc 0 [p1] ++
          (List.replicate (blockSize - (encChunks crc true 0 p1).2) 0 ++
            (List.replicate blockSize 0 ++ encJournals crc 0 [p2]))) =
      ([p1, p2], none) ∧
      ∃ stF, readLoop crc (newReader
          (encJournals crc 0 [p1] ++
            (List.replicate (blockSize - (encChunks crc true 0 p1).2) 0 ++
              (List.replicate blockSize 0 ++ encJournals crc 0 [p2])))
          false checksum) = (stF, [p1, p2], none) ∧
        (blockSize, CorruptReason.zeroHeader) ∈ stF.drops := by
  have hbs : blockSize = 32768 := rfl
  have hhs : headerSize = 7 := rfl
  have hc00 : ¬ blockSize < 0 + headerSize := by omega
  have hS1 : encJournals crc 0 [p1] = (encChunks crc true 0 p1).1 := by
    rw [encJournals_cons, if_neg hc00, List.nil_append, if_neg hc00,
      show encJournals crc (encChunks crc true 0 p1).2 ([] : List (List Nat)) = []
        from rfl, List.append_nil]
  have hal : RAligned ((encChunks crc true 0 p1).1 ++
      (List.replicate (blockSize - (encChunks crc true 0 p1).2) 0 ++
        (List.replicate blockSize 0 ++ encJournals crc 0 [p2])))
      (newReader (encJournals crc 0 [p1] ++
        (List.replicate (blockSize - (encChunks crc true 0 p1).2) 0 ++
          (List.replicate blockSize 0 ++ encJournals crc 0 [p2])))
        false checksum) := by
    refine ⟨rfl, rfl, Nat.le_refl _, ?_, ?_, ?_⟩
    · show (0 : Nat) ≤ blockSize
      omega
    · show ([] : List Nat).drop 0 ++ (encJournals crc 0 [p1] ++
          (List.replicate (blockSize - (encChunks crc true 0 p1).2) 0 ++
            (List.replicate blockSize 0 ++ encJournals crc 0 [p2]))) =
        (encChunks crc true 0 p1).1 ++
          (List.replicate (blockSize - (encChunks crc true 0 p1).2) 0 ++
            (List.replicate blockSize 0 ++ encJournals crc 0 [p2]))
      rw [List.drop_nil, List.nil_append, hS1]
    · right
      right
      exact ⟨rfl, rfl⟩
  obtain ⟨stF, hloop, hmem⟩ := readTwo_zeroblock hal rfl rfl
  exact ⟨by rw [readJournals, hloop], stF, hloop, hmem⟩

end Encoder

end Journal

end GoLevelDB
